import Mathlib

/-!
# drone-release-tracker: the release discovery pipeline

A shallow embedding of `drone-release-tracker.go` and of the library calls it
relies on (`time.Unix`, `Time.After`, `Time.Before`, `strings.Split`,
`drone.Client.BuildList`), followed by the properties established for it.

Conventions of the embedding:

* Go's `int` and `int64` are integers reduced with `wrapInt64` wherever the
  program performs arithmetic on them.
* A Go string is a Lean `String`; the splitting functions work on its
  character list.  For valid UTF-8 text and a non-empty valid separator, Go's
  byte-wise search finds the same split points.
* A `[]*drone.Build` is a `List drone.Build`; `nil` and the empty slice are
  both `[]`.
* The remote API is a function from a request to its answer.  Every call of
  `BuildList` is recorded in a trace, returned next to the result.
* The recursion of `findAllReleasesWithinRange` is bounded by a fuel counter:
  `none` means that the fuel ran out before the walk returned.
* Go's parameters `namespace`, `from` and `to` are written `owner`, `from_`
  and `to_`.
* A `time.Time` that is asked for its calendar fields is a `time.Zoned`: an
  instant with a location.  A location is Go's table of zones and of the
  transitions between them, looked up as `Location.lookup` does; the local
  zone of the process is a parameter.  Dates follow the day-count algorithms
  of Go's `time` package (`abs`, `absDate`, `daysSinceEpoch`, `Date`), with
  the counters reduced to the range of `uint64` and `int64` where Go's are.
  The absolute epoch of these algorithms is January 1 of the year
  -292277022399 (`absoluteZeroYear`); a release of Go that counts from another
  absolute epoch reads the same dates wherever no counter wraps around.
* A `map[string]int` is a partial function from keys to values.
-/

/-- Two's complement reduction of an integer to the range of Go's `int64`
(which is also the range of `int` on 64-bit platforms). -/
def wrapInt64 (x : Int) : Int := (x + 2 ^ 63) % 2 ^ 64 - 2 ^ 63

namespace time

/-- Seconds between January 1 of year 1 and the Unix epoch, the constant
`unixToInternal` of Go's `time` package. -/
def unixToInternal : Int := 62135596800

/-- An instant as Go's `time.Time` presents it to comparisons: the seconds
since January 1 of year 1 (the value of `t.sec()`) and the nanoseconds within
that second (the value of `t.nsec()`, always below `10^9`).  The location and
the monotonic clock reading play no part in `After` and `Before` for the
instants this program compares. -/
structure Time where
  sec : Int
  nsec : Fin 1000000000
  deriving DecidableEq, Repr

/-- Position of an instant on the time line, in nanoseconds. -/
def Time.instant (t : Time) : Int := t.sec * 1000000000 + (t.nsec.val : Int)

/-- Go's `time.Unix(sec, nsec)`: the instant `sec` seconds and `nsec`
nanoseconds after the Unix epoch.  Nanoseconds outside `[0, 10^9)` carry into
the seconds, and the seconds are shifted by `unixToInternal` in `int64`
arithmetic. -/
def Unix (sec nsec : Int) : Time :=
  { sec := wrapInt64 (sec + nsec / 1000000000 + unixToInternal)
    nsec := ⟨(nsec % 1000000000).toNat, by omega⟩ }

/-- Go's `t.After(u)`. -/
def Time.After (t u : Time) : Prop :=
  t.sec > u.sec ∨ (t.sec = u.sec ∧ t.nsec.val > u.nsec.val)

/-- Go's `t.Before(u)`. -/
def Time.Before (t u : Time) : Prop :=
  t.sec < u.sec ∨ (t.sec = u.sec ∧ t.nsec.val < u.nsec.val)

instance (t u : Time) : Decidable (t.After u) := by
  unfold Time.After; infer_instance

instance (t u : Time) : Decidable (t.Before u) := by
  unfold Time.Before; infer_instance

end time

namespace drone

/-- The fields of `drone.Build` that the program reads, with an identifier
and a build number to tell records apart. -/
structure Build where
  ID : Int
  Number : Int
  Event : String
  Deploy : String
  Created : Int
  deriving DecidableEq, Repr

/-- Go's `drone.ListOptions`. -/
structure ListOptions where
  Page : Int
  Size : Int
  deriving DecidableEq, Repr

/-- One call `client.BuildList(owner, name, opts)`. -/
structure Request where
  owner : String
  name : String
  opts : ListOptions
  deriving DecidableEq, Repr

/-- The `BuildList` method of a `drone.Client`: the answer of the remote API
to a request, either an error or a page of build records. -/
abbrev Client := String → String → ListOptions → Except String (List Build)

end drone

deriving instance DecidableEq for Except

open time drone

/-- Creation instant of a build record, `time.Unix(build.Created, 0)`. -/
def buildTime (build : Build) : Time := Unix build.Created 0

/-- Body of the loop of `filterReleasesByDate`: the record is appended when it
is a promotion to production created inside the window. -/
def filterReleasesByDate.step (from_ to_ : Time) (filteredBuilds : List Build)
    (build : Build) : List Build :=
  if build.Event = "promote" ∧ build.Deploy = "production" then
    if (buildTime build).After from_ ∧ (buildTime build).Before to_ then
      filteredBuilds ++ [build]
    else filteredBuilds
  else filteredBuilds

/-- Go's `filterReleasesByDate(builds, from, to)`. -/
def filterReleasesByDate (builds : List Build) (from_ to_ : Time) : List Build :=
  builds.foldl (filterReleasesByDate.step from_ to_) []

/-- Go's `findAllReleasesWithinRange(client, namespace, repo, from, to, page)`.
The result comes with the trace of the `BuildList` calls made, in order. -/
def findAllReleasesWithinRange (fuel : Nat) (client : Client) (owner repo : String)
    (from_ to_ : Time) (page : Int) : Option (List Build × List Request) :=
  match fuel with
  | 0 => none
  | fuel + 1 =>
    match client owner repo ⟨page, 25⟩ with
    | .error _ => some ([], [⟨owner, repo, ⟨page, 25⟩⟩])
    | .ok [] => some ([], [⟨owner, repo, ⟨page, 25⟩⟩])
    | .ok (oldestBuild :: rest) =>
      if (buildTime oldestBuild).Before from_ then
        some ([], [⟨owner, repo, ⟨page, 25⟩⟩])
      else
        match findAllReleasesWithinRange fuel client owner repo from_ to_
            (wrapInt64 (page + 1)) with
        | none => none
        | some (nextReleases, trace) =>
          some (filterReleasesByDate (oldestBuild :: rest) from_ to_ ++ nextReleases,
            ⟨owner, repo, ⟨page, 25⟩⟩ :: trace)

/-! ## Notions used to state the properties -/

/-- The condition under which `filterReleasesByDate` keeps a record. -/
def isReleaseWithin (from_ to_ : Time) (b : Build) : Prop :=
  b.Event = "promote" ∧ b.Deploy = "production" ∧
    from_.instant < (buildTime b).instant ∧ (buildTime b).instant < to_.instant

instance (from_ to_ : Time) (b : Build) : Decidable (isReleaseWithin from_ to_ b) := by
  unfold isReleaseWithin; infer_instance

/-- The request that the walk issues for a page. -/
def pageRequest (owner repo : String) (page : Int) : Request :=
  ⟨owner, repo, ⟨page, 25⟩⟩

/-- The walk returns `out`: some amount of fuel is enough for it to finish
with that result and trace. -/
def WalkReturns (client : Client) (owner repo : String) (from_ to_ : Time) (page : Int)
    (out : List Build × List Request) : Prop :=
  ∃ fuel, findAllReleasesWithinRange fuel client owner repo from_ to_ page = some out

/-- The request for `page` fails or brings back no record. -/
def PageEnds (client : Client) (owner repo : String) (page : Int) : Prop :=
  (∃ e, client owner repo ⟨page, 25⟩ = .error e) ∨ client owner repo ⟨page, 25⟩ = .ok []

/-- A page is ordered newest-first: no record is created after a record that
stands before it. -/
def NewestFirst (builds : List Build) : Prop :=
  builds.Pairwise (fun a b => (buildTime b).instant ≤ (buildTime a).instant)

instance (builds : List Build) : Decidable (NewestFirst builds) := by
  unfold NewestFirst; infer_instance

/-- The record `b` is an oldest record of the page: it is on the page and no
record of the page has a smaller creation timestamp. -/
def IsOldestOf (b : Build) (builds : List Build) : Prop :=
  b ∈ builds ∧ ∀ b' ∈ builds, (buildTime b).instant ≤ (buildTime b').instant

instance (b : Build) (builds : List Build) : Decidable (IsOldestOf b builds) := by
  unfold IsOldestOf; infer_instance

/-! ## Sample data -/

/-- An API that serves the given pages, numbered from 1, for every repository
and answers every other page number with an empty page. -/
def clientOfPages (pages : List (List Build)) : Client :=
  fun _ _ opts => if 1 ≤ opts.Page then .ok (pages.getD (opts.Page - 1).toNat []) else .ok []

/-- An API whose every request fails. -/
def failingClient : Client := fun _ _ _ => .error "unreachable"

/-- A promotion to production. -/
def release (id created : Int) : Build := ⟨id, id, "promote", "production", created⟩

/-- A sample window, from 1000 to 5000 seconds after the Unix epoch. -/
def sampleFrom : Time := Unix 1000 0

/-- End of the sample window. -/
def sampleTo : Time := Unix 5000 0

/-- Four pages, each newest-first; the third starts inside the window and
ends before it. -/
def straddlingPages : List (List Build) :=
  [[release 9 4000], [release 8 3000], [release 7 1500, release 6 500], [release 5 400]]

/-- Four pages, each newest-first; the third starts before the window. -/
def threePages : List (List Build) :=
  [[release 9 4000], [release 8 3000], [release 6 500, release 5 400], [release 4 300]]

/-- A page whose first record is older than the window while its second
record lies inside it. -/
def unorderedPage : List (List Build) :=
  [[release 1 500, release 2 2000]]

/-- A page mixing a release with a push and a promotion to staging created
at the same second. -/
def mixedPage : List (List Build) :=
  [[release 3 2000, ⟨2, 2, "push", "", 2000⟩, ⟨1, 1, "promote", "staging", 2000⟩]]

/-! ## Splitting strings -/

namespace strings

/-- Go's `strings.Index(s, sep)` on character lists: the position of the first
occurrence of `sep` in `s`, or `none` where Go returns `-1`. -/
def Index (s sep : List Char) : Option Nat :=
  if sep <+: s then some 0
  else
    match s with
    | [] => none
    | _ :: s' => (Index s' sep).map (· + 1)

/-- The loop of Go's `strings.Count(s, sep)` for a non-empty `sep`: find the
next occurrence, count it, continue behind it.  The counter `fuel` bounds the
number of iterations. -/
def countLoop (sep : List Char) : Nat → List Char → Nat
  | 0, _ => 0
  | fuel + 1, s =>
    match Index s sep with
    | none => 0
    | some i => countLoop sep fuel (s.drop (i + sep.length)) + 1

/-- Go's `strings.Count(s, sep)`: the number of non-overlapping occurrences of
`sep` in `s`, and one more than the number of characters for an empty `sep`.
Every iteration of the loop consumes a character, so `s.length + 1` iterations
are enough. -/
def Count (s sep : List Char) : Nat :=
  if sep = [] then s.length + 1 else countLoop sep (s.length + 1) s

/-- The loop of Go's `genSplit`: at most `n` cuts, each at the first occurrence
of `sep` in what is left; what is left after the last cut is the last piece. -/
def genSplitLoop (sep : List Char) : Nat → List Char → List (List Char)
  | 0, s => [s]
  | n + 1, s =>
    match Index s sep with
    | none => [s]
    | some m => s.take m :: genSplitLoop sep n (s.drop (m + sep.length))

/-- Go's `explode(s, -1)`: one piece per character. -/
def explode (s : List Char) : List (List Char) := s.map (fun c => [c])

/-- Go's `genSplit(s, sep, 0, -1)` on character lists. -/
def genSplit (s sep : List Char) : List (List Char) :=
  if sep = [] then explode s
  else genSplitLoop sep (min (Count s sep + 1) (s.length + 1) - 1) s

/-- Go's `strings.Split(s, sep)`. -/
def Split (s sep : String) : List String :=
  (genSplit s.data sep.data).map String.mk

end strings

/-- Go's `type DroneRepo string`. -/
abbrev DroneRepo := String

/-- Go's `DroneRepo.Split`: the first two pieces of the split and no error, or
two empty strings and an error when the split has fewer than two pieces. -/
def DroneRepo.Split (r : DroneRepo) (str : String) : String × String × Option String :=
  let s := strings.Split r str
  if s.length < 2 then
    ("", "", some "Drone repository should be made of <namespace>/<name>")
  else (s.getD 0 "", s.getD 1 "", none)

/-! ## The repository loop of `main` -/

/-- How the repository loop of `main` ends: the process exits with a status
and a message on the error stream, or the loop completes with the releases it
collected.  Both carry the trace of the `BuildList` calls made so far. -/
inductive Outcome where
  | exit (status : Int) (stderr : String) (trace : List Request)
  | completed (releases : List Build) (trace : List Request)
  deriving DecidableEq, Repr

/-- The loop of `main` over the comma-separated repositories: each one is
split on `/`; an error ends the process with status 1, otherwise the walk over
the repository, started at page 1, extends `releases`. -/
def main.reposLoop (fuel : Nat) (client : Client) (fromDate toDate : Time) :
    List String → List Build → List Request → Option Outcome
  | [], releases, trace => some (.completed releases trace)
  | droneRepo :: rest, releases, trace =>
    match DroneRepo.Split droneRepo "/" with
    | (_, _, some err) => some (.exit 1 ("error: " ++ err ++ "\n") trace)
    | (owner, name, none) =>
      match findAllReleasesWithinRange fuel client owner name fromDate toDate 1 with
      | none => none
      | some (found, requests) =>
        main.reposLoop fuel client fromDate toDate rest (releases ++ found) (trace ++ requests)

/-- The part of `main` that collects the releases of the repositories named by
the `repos` flag, from no release and an empty trace. -/
def main.releases (fuel : Nat) (client : Client) (fromDate toDate : Time)
    (reposFlag : String) : Option Outcome :=
  main.reposLoop fuel client fromDate toDate (strings.Split reposFlag ",") [] []

/-- The string `sep` occurs in `s`: `s` is some string, then `sep`, then some
string. -/
def Occurs (sep s : String) : Prop := ∃ a b : String, s = a ++ sep ++ b

/-- The cut of `s` at the first occurrence of `sep`: `s` is `before`, then
`sep`, then `after`, and no occurrence of `sep` in `s` starts earlier. -/
def FirstCut (sep s before after : String) : Prop :=
  s = before ++ sep ++ after ∧
    ∀ a b : String, s = a ++ sep ++ b → before.length ≤ a.length

/-- The repository that `main` walks for a piece of the `repos` flag: the
namespace and the name that `DroneRepo.Split` returns for the piece. -/
def repoRef (piece : String) : String × String :=
  ((DroneRepo.Split piece "/").1, (DroneRepo.Split piece "/").2.1)

/-- The walks over a list of repositories, one after the other, each started
at page 1: the releases found and the requests made, in order. -/
def walkRepos (fuel : Nat) (client : Client) (fromDate toDate : Time) :
    List (String × String) → Option (List Build × List Request)
  | [] => some ([], [])
  | (owner, name) :: rest =>
    match findAllReleasesWithinRange fuel client owner name fromDate toDate 1 with
    | none => none
    | some (found, requests) =>
      (walkRepos fuel client fromDate toDate rest).map
        (fun out => (found ++ out.1, requests ++ out.2))

/-- What `main` prints on the error stream for a malformed repository. -/
def splitErrorLine : String :=
  "error: Drone repository should be made of <namespace>/<name>\n"

/-! ## Calendar dates -/

/-- Reduction of an integer to the range of Go's `uint64`. -/
def wrapUint64 (x : Int) : Int := x % 2 ^ 64

namespace time

/-- Go's `zone`: a name, an offset in seconds east of UTC, and whether the
zone is daylight saving time. -/
structure zone where
  name : String
  offset : Int
  isDST : Bool
  deriving DecidableEq, Repr

/-- Go's `zoneTrans`: from the Unix second `when` on, the zone with the given
index is in force. -/
structure zoneTrans where
  when : Int
  index : Nat
  deriving DecidableEq, Repr

/-- Go's `time.Location`: the zones of a place and the transitions between
them, in the order of time.  The rule that a zone file gives for the years
behind its last transition (`extend`) is not a field: a location lists the
transitions that the rule yields, and behind the last one listed the zone of
that transition stays in force.  The local zone of the process is a value of
this type, given as a parameter. -/
structure Location where
  name : String
  zone : List zone
  tx : List zoneTrans
  deriving DecidableEq, Repr

/-- Go's `time.UTC`: the location without zones. -/
def UTC : Location := ⟨"UTC", [], []⟩

/-- Go's `time.FixedZone(name, offset)`. -/
def FixedZone (name : String) (offset : Int) : Location :=
  ⟨name, [⟨name, offset, false⟩], [⟨-2 ^ 63, 0⟩]⟩

/-- Go's `alpha`, the start of time for zone lookups. -/
def alpha : Int := -2 ^ 63

/-- Go's `omega`, the end of time for zone lookups. -/
def omega : Int := 2 ^ 63 - 1

/-- What `Location.lookup` returns: the zone in force and the span of Unix
seconds `[start, end_)` over which it is in force. -/
structure ZoneLookup where
  name : String
  offset : Int
  start : Int
  end_ : Int
  isDST : Bool
  deriving DecidableEq, Repr

/-- The zone `l.zone[i]`.  Zone files are checked when they are loaded, so
that every index of a transition is in range. -/
def Location.zoneAt (l : Location) (i : Nat) : time.zone := l.zone.getD i ⟨"", 0, false⟩

/-- The transition `l.tx[i]`. -/
def Location.txAt (l : Location) (i : Nat) : time.zoneTrans := l.tx.getD i ⟨0, 0⟩

/-- Go's `l.firstZoneUsed()`. -/
def Location.firstZoneUsed (l : Location) : Bool := l.tx.any (fun tx => tx.index == 0)

/-- Go's `l.lookupFirstZone()`: the zone in force before the first
transition. -/
def Location.lookupFirstZone (l : Location) : Nat :=
  if l.firstZoneUsed = false then 0
  else
    let before : Option Nat :=
      match l.tx with
      | tx0 :: _ =>
        if (l.zoneAt tx0.index).isDST = true then
          (List.range tx0.index).reverse.find? (fun zi => !(l.zoneAt zi).isDST)
        else none
      | [] => none
    match before with
    | some zi => zi
    | none =>
      match (List.range l.zone.length).find? (fun zi => !(l.zoneAt zi).isDST) with
      | some zi => zi
      | none => 0

/-- The binary search of `Location.lookup` for the last transition at or
before `sec`, between the indices `lo` and `hi`; it also finds the end of the
span.  The counter bounds the number of halvings. -/
def Location.search (l : Location) (sec : Int) : Nat → Nat → Nat → Int → Nat × Int
  | 0, lo, _, end_ => (lo, end_)
  | fuel + 1, lo, hi, end_ =>
    if hi - lo > 1 then
      let m := (lo + hi) / 2
      let lim := (l.txAt m).when
      if sec < lim then l.search sec fuel lo m lim
      else l.search sec fuel m hi end_
    else (lo, end_)

/-- Go's `l.lookup(sec)`: the zone in force at the Unix second `sec`. -/
def Location.lookup (l : Location) (sec : Int) : ZoneLookup :=
  if l.zone.length = 0 then ⟨"UTC", 0, alpha, omega, false⟩
  else
    match l.tx with
    | [] =>
      let z := l.zoneAt l.lookupFirstZone
      ⟨z.name, z.offset, alpha, omega, z.isDST⟩
    | tx0 :: _ =>
      if sec < tx0.when then
        let z := l.zoneAt l.lookupFirstZone
        ⟨z.name, z.offset, alpha, tx0.when, z.isDST⟩
      else
        let found := l.search sec l.tx.length 0 l.tx.length omega
        let z := l.zoneAt (l.txAt found.1).index
        ⟨z.name, z.offset, (l.txAt found.1).when, found.2, z.isDST⟩

/-- Seconds from Go's absolute epoch (January 1 of `absoluteZeroYear`) to
January 1 of year 1, the negative of Go's `absoluteToInternal`. -/
def internalToAbsolute : Int := 9223371966579724800

/-- Go's `absoluteToInternal`. -/
def absoluteToInternal : Int := -9223371966579724800

/-- Go's `internalToUnix`. -/
def internalToUnix : Int := -62135596800

/-- Go's `absoluteZeroYear`. -/
def absoluteZeroYear : Int := -292277022399

/-- A Go `time.Time` together with its location. -/
structure Zoned where
  instant : Time
  loc : Location
  deriving DecidableEq, Repr

/-- Go's `t.Location()`. -/
def Zoned.Location (t : Zoned) : Location := t.loc

/-- Go's `t.unixSec()`. -/
def Zoned.unixSec (t : Zoned) : Int := wrapInt64 (t.instant.sec + internalToUnix)

/-- The offset of Go's `t.Zone()`: the offset in force at `t` in its
location. -/
def Zoned.ZoneOffset (t : Zoned) : Int := (t.loc.lookup t.unixSec).offset

/-- Go's `t.abs()`: the seconds that the clock of the location of `t` has
counted since the absolute epoch, as a `uint64`. -/
def Zoned.abs (t : Zoned) : Int :=
  let sec := t.unixSec
  let sec := wrapInt64 (sec + (t.loc.lookup sec).offset)
  wrapUint64 (sec + (unixToInternal + internalToAbsolute))

/-- Go's `isLeap(year)`. -/
def isLeap (year : Int) : Bool :=
  decide (year % 4 = 0 ∧ (year % 100 ≠ 0 ∨ year % 400 = 0))

/-- Go's table `daysBefore`: the number of days in a non-leap year before the
month with index `m` (January has index 0), and 365 at index 12. -/
def daysBefore (m : Int) : Int :=
  [0, 31, 59, 90, 120, 151, 181, 212, 243, 273, 304, 334, 365].getD m.toNat 0

/-- Go's `daysSinceEpoch(year)`: the days from the absolute epoch to January 1
of `year`, by cycles of 400, 100 and 4 years, in `uint64` arithmetic. -/
def daysSinceEpoch (year : Int) : Int :=
  let y := wrapUint64 (year - absoluteZeroYear)
  let n := y / 400
  let y := y - 400 * n
  let d := wrapUint64 (146097 * n)
  let n := y / 100
  let y := y - 100 * n
  let d := wrapUint64 (d + 36524 * n)
  let n := y / 4
  let y := y - 4 * n
  let d := wrapUint64 (d + 1461 * n)
  wrapUint64 (d + 365 * y)

/-- The first half of Go's `absDate(abs, full)`: the year that holds the
absolute second `abs`, a `uint64`, and the day within that year, counted from
0.  Every step divides or subtracts what was cut off before, so that for an
`abs` in the range of `uint64` no step leaves that range. -/
def absDate (abs : Int) : Int × Int :=
  let d := abs / 86400
  let n := d / 146097
  let y := 400 * n
  let d := d - 146097 * n
  let n := d / 36524
  let n := n - n / 4
  let y := y + 100 * n
  let d := d - 36524 * n
  let n := d / 1461
  let y := y + 4 * n
  let d := d - 1461 * n
  let n := d / 365
  let n := n - n / 4
  let y := y + n
  let d := d - 365 * n
  (y + absoluteZeroYear, d)

/-- The second half of Go's `absDate`: month (January is 1) and day of the
month for the day `yday` of a year, counted from 0. -/
def monthDay (leap : Bool) (yday : Int) : Int × Int :=
  if leap = true ∧ yday = 31 + 29 - 1 then (2, 29)
  else
    let day := if leap = true ∧ yday > 31 + 29 - 1 then yday - 1 else yday
    let month := day / 31
    let end_ := daysBefore (month + 1)
    if day ≥ end_ then (month + 2, day - end_ + 1)
    else (month + 1, day - daysBefore month + 1)

/-- Go's `t.Date()`: year, month and day of `t` in its location. -/
def Zoned.Date (t : Zoned) : Int × Int × Int :=
  let (year, yday) := absDate t.abs
  let (month, day) := monthDay (isLeap year) yday
  (year, month, day)

/-- Go's `t.Clock()`: hour, minute and second of `t` in its location. -/
def Zoned.Clock (t : Zoned) : Int × Int × Int :=
  let sec := t.abs % 86400
  (sec / 3600, sec % 3600 / 60, sec % 60)

/-- Go's `norm(hi, lo, base)`: carries what `lo` holds beyond `[0, base)` into
`hi`, an `int`. -/
def norm (hi lo base : Int) : Int × Int :=
  let (hi, lo) :=
    if lo < 0 then
      let n := (-lo - 1) / base + 1
      (wrapInt64 (hi - n), lo + n * base)
    else (hi, lo)
  if lo ≥ base then
    let n := lo / base
    (wrapInt64 (hi + n), lo - n * base)
  else (hi, lo)

/-- The first part of Go's `time.Date`: the calendar fields, normalised, are
counted in seconds from the absolute epoch in `uint64` arithmetic and turned
into the Unix second `unix` at which a clock showing UTC reads these fields.
Returns `unix` and the normalised nanoseconds. -/
def dateUnix (year month day hour min sec nsec : Int) : Int × Int :=
  let m := month - 1
  let (year, m) := norm year m 12
  let month := m + 1
  let (sec, nsec) := norm sec nsec 1000000000
  let (min, sec) := norm min sec 60
  let (hour, min) := norm hour min 60
  let (day, hour) := norm day hour 24
  let d := daysSinceEpoch year
  let d := wrapUint64 (d + daysBefore (month - 1))
  let d := if isLeap year = true ∧ month ≥ 3 then wrapUint64 (d + 1) else d
  let d := wrapUint64 (d + wrapUint64 (day - 1))
  let abs := wrapUint64 (d * 86400)
  let abs := wrapUint64 (abs + wrapUint64 (hour * 3600 + min * 60 + sec))
  let unix := wrapInt64 (abs + (absoluteToInternal + internalToUnix))
  (unix, nsec)

/-- The second part of Go's `time.Date`: the offset that is subtracted from
`unix` to adjust to UTC.  The zone is looked up at `unix`; when `unix` less
its offset falls outside the span of that zone, the zone is looked up again
there. -/
def Location.dateOffset (loc : Location) (unix : Int) : Int :=
  let found := loc.lookup unix
  if found.offset ≠ 0 then
    let utc := wrapInt64 (unix - found.offset)
    if utc < found.start ∨ utc ≥ found.end_ then (loc.lookup utc).offset
    else found.offset
  else 0

/-- Go's `time.Date(year, month, day, hour, min, sec, nsec, loc)`. -/
def Date (year month day hour min sec nsec : Int) (loc : Location) : Zoned :=
  let (unix, nsec) := dateUnix year month day hour min sec nsec
  let unix := wrapInt64 (unix - loc.dateOffset unix)
  { instant :=
      { sec := wrapInt64 (unix + unixToInternal)
        nsec := ⟨(nsec % 1000000000).toNat, by omega⟩ }
    loc := loc }

/-- Go's `appendInt(b, x, width)`: the decimal digits of `x`, padded with
zeros on the left up to `width` digits, behind a minus sign when `x` is
negative. -/
def appendInt (x : Int) (width : Nat) : String :=
  let digits := Nat.repr x.natAbs
  (if x < 0 then "-" else "") ++
    String.mk (List.replicate (width - digits.length) '0') ++ digits

/-- Go's `t.Format("2006-01-02")`. -/
def Zoned.FormatDate (t : Zoned) : String :=
  let (year, month, day) := t.Date
  appendInt year 4 ++ "-" ++ appendInt month 2 ++ "-" ++ appendInt day 2

end time

/-- Go's `getQuarterStartDate(currentDate)`.  The month of a date is at least
1, so Go's truncating division agrees with the division used here. -/
def getQuarterStartDate (currentDate : Zoned) : Zoned :=
  let (year, month, _) := currentDate.Date
  let quarterStartMonth := ((month - 1) / 3) * 3 + 1
  Date year quarterStartMonth 1 0 0 0 0 currentDate.Location

/-- Go's `getQuarterEndDate(currentDate)`. -/
def getQuarterEndDate (currentDate : Zoned) : Zoned :=
  let (year, month, _) := currentDate.Date
  let quarterStartMonth := ((month - 1) / 3) * 3 + 1
  let quarterEndMonth := quarterStartMonth + 2
  let quarterEndMonth := quarterEndMonth % 12
  let year := if quarterEndMonth < quarterStartMonth then year + 1 else year
  Date year (quarterEndMonth + 1) 0 0 0 0 0 currentDate.Location

/-! ## The aggregation loop of `main` -/

/-- Go's `map[string]int`: the value stored under each key that the map has. -/
abbrev CountsMap := String → Option Int

/-- Go's `make(map[string]int)`. -/
def CountsMap.empty : CountsMap := fun _ => none

/-- Go's `m[key] += 1`: an absent key reads as 0. -/
def CountsMap.increment (m : CountsMap) (key : String) : CountsMap :=
  fun k => if k = key then some ((m key).getD 0 + 1) else m k

/-- The calendar-day key of a release: its creation time, formatted in the
local zone of the process. -/
def releaseDay (localZone : Location) (build : Build) : String :=
  Zoned.FormatDate ⟨Unix build.Created 0, localZone⟩

/-- The loop of `main` that counts the releases per day, in a process whose
local zone is `localZone`. -/
def main.heatmapData (localZone : Location) (releases : List Build) : CountsMap :=
  releases.foldl (fun heatmapData build => heatmapData.increment (releaseDay localZone build))
    CountsMap.empty

/-- Noon of March 31, 2023 in UTC, on the last day of a quarter. -/
def lastDayNoon : Zoned := ⟨Unix 1680264000 0, UTC⟩

/-- Three releases, created on 2023-01-01 at 00:00 and at 11:00 and on
2023-01-02 at 00:00, UTC. -/
def newYearReleases : List Build :=
  [release 1 1672531200, release 2 1672570800, release 3 1672617600]

/-- The records that the API answers for a page of the repository; none when
the request fails. -/
def pageOf (client : Client) (owner repo : String) (page : Int) : List Build :=
  match client owner repo ⟨page, 25⟩ with
  | .ok builds => builds
  | .error _ => []

/-- The walk stops at `page`: the request fails, or the page is empty, or its
index-0 record is created strictly before `from`. -/
def StopsAt (client : Client) (owner repo : String) (from_ : Time) (page : Int) : Prop :=
  PageEnds client owner repo page ∨
    ∃ b rest, client owner repo ⟨page, 25⟩ = .ok (b :: rest) ∧
      (buildTime b).instant < from_.instant

/-- The zones of `America/New_York` and its transitions from November 2022 to
November 2023. -/
def newYork : Location :=
  ⟨"America/New_York", [⟨"EST", -18000, false⟩, ⟨"EDT", -14400, true⟩],
    [⟨1667714400, 0⟩, ⟨1678604400, 1⟩, ⟨1699164000, 0⟩]⟩

/-- The zones of `America/Asuncion` and its transitions from October 2022 to
October 2023: daylight saving time starts at 00:00 on October 1, 2023. -/
def asuncion : Location :=
  ⟨"America/Asuncion", [⟨"-04", -14400, false⟩, ⟨"-03", -10800, true⟩],
    [⟨1664683200, 1⟩, ⟨1679799600, 0⟩, ⟨1696132800, 1⟩]⟩

/-- The zones of `Asia/Beirut` and its transitions from October 2023 to
October 2024: daylight saving time starts at 00:00 on March 31, 2024. -/
def beirut : Location :=
  ⟨"Asia/Beirut", [⟨"EET", 7200, false⟩, ⟨"EEST", 10800, true⟩],
    [⟨1698526800, 0⟩, ⟨1711836000, 1⟩, ⟨1729976400, 0⟩]⟩

/-- Noon of May 15, 2023 in New York. -/
def newYorkMay : Zoned := ⟨Unix 1684166400 0, newYork⟩

/-- Noon of November 15, 2023 in Asuncion. -/
def asuncionNovember : Zoned := ⟨Unix 1700060400 0, asuncion⟩

/-- Noon of February 15, 2024 in Beirut. -/
def beirutFebruary : Zoned := ⟨Unix 1707991200 0, beirut⟩

/-- The zones of `Australia/Sydney` and its transitions from October 2001 to
October 2002: daylight saving time ends at 03:00 on March 31, 2002, a day of
25 hours. -/
def sydney : Location :=
  ⟨"Australia/Sydney", [⟨"AEST", 36000, false⟩, ⟨"AEDT", 39600, true⟩],
    [⟨1004198400, 1⟩, ⟨1017504000, 0⟩, ⟨1035648000, 1⟩]⟩

/-- Half past eleven in the evening of March 31, 2002 in Sydney. -/
def sydneyLateEvening : Zoned := ⟨Unix 1017581400 0, sydney⟩

/-- A location that is not regular: two of its zones are in force for less
than an hour around 00:00 UTC of April 1, 2023. -/
def oddZone : Location :=
  ⟨"Odd", [⟨"A", -2000, false⟩, ⟨"B", 3600, false⟩, ⟨"C", 0, false⟩, ⟨"D", -5000, false⟩],
    [⟨1680307100, 1⟩, ⟨1680307300, 2⟩, ⟨1680310200, 3⟩]⟩

/-- Midnight of May 16, 2023 in the location that is not regular. -/
def oddZoneMay : Zoned := ⟨Unix 1684200200 0, oddZone⟩

/-- An instant in UTC 101 seconds before the seconds of a `Time` wrap around,
in December of the year 292277024627. -/
def farFuture : Zoned := ⟨Unix 9223371974719178907 0, UTC⟩

/-- The instants for which the counters of the `time` package stay clear of
their wrap-around in the quarter functions: those within `2^62` seconds of the
year 1. -/
def time.Zoned.InRange (t : Zoned) : Prop :=
  -2 ^ 62 ≤ t.instant.sec ∧ t.instant.sec ≤ 2 ^ 62

/-- The largest size of an offset among the zones of a location. -/
def time.Location.maxOffset (l : Location) : Int :=
  ((l.zone.map (fun z => z.offset.natAbs)).foldr max 0 : Nat)

/-- A location is regular when its offsets are below `2^31` seconds in size and
its transitions are listed in the order of time, each more than twice the
largest offset after the ones before it. -/
def time.Location.Regular (l : Location) : Prop :=
  l.maxOffset < 2 ^ 31 ∧ l.tx.Pairwise (fun a b => a.when + 2 * l.maxOffset < b.when)

/-- The clock of the location reads 00:00:00 of the given day at some
instant. -/
def time.Location.HasMidnight (l : Location) (year month day : Int) : Prop :=
  ∃ u : Time, (Zoned.mk u l).Date = (year, month, day) ∧ (Zoned.mk u l).Clock = (0, 0, 0)

/-! # Properties -/

/-! ## Instants and their order -/

theorem time.Time.after_iff (t u : Time) : t.After u ↔ u.instant < t.instant := by
  unfold Time.After Time.instant
  have h1 := t.nsec.isLt
  have h2 := u.nsec.isLt
  constructor
  · rintro (h | ⟨h, h'⟩) <;> omega
  · intro h
    by_cases hs : t.sec = u.sec
    · right; refine ⟨hs, ?_⟩; omega
    · left; omega

theorem time.Time.before_iff (t u : Time) : t.Before u ↔ t.instant < u.instant := by
  unfold Time.Before Time.instant
  have h1 := t.nsec.isLt
  have h2 := u.nsec.isLt
  constructor
  · rintro (h | ⟨h, h'⟩) <;> omega
  · intro h
    by_cases hs : t.sec = u.sec
    · right; refine ⟨hs, ?_⟩; omega
    · left; omega

/-! ## The page filter -/

theorem filterReleasesByDate.step_eq (from_ to_ : Time) (acc : List Build) (b : Build) :
    filterReleasesByDate.step from_ to_ acc b =
      acc ++ [b].filter (fun x => decide (isReleaseWithin from_ to_ x)) := by
  unfold filterReleasesByDate.step
  by_cases h : isReleaseWithin from_ to_ b
  · have h1 : b.Event = "promote" ∧ b.Deploy = "production" := ⟨h.1, h.2.1⟩
    have h2 : (buildTime b).After from_ ∧ (buildTime b).Before to_ :=
      ⟨(Time.after_iff _ _).2 h.2.2.1, (Time.before_iff _ _).2 h.2.2.2⟩
    rw [if_pos h1, if_pos h2]
    simp [h]
  · have hf : [b].filter (fun x => decide (isReleaseWithin from_ to_ x)) = [] := by
      simp [h]
    rw [hf, List.append_nil]
    split_ifs with h1 h2
    · exact absurd ⟨h1.1, h1.2, (Time.after_iff _ _).1 h2.1, (Time.before_iff _ _).1 h2.2⟩ h
    · rfl
    · rfl

theorem filterReleasesByDate.foldl_eq (from_ to_ : Time) (builds acc : List Build) :
    builds.foldl (filterReleasesByDate.step from_ to_) acc =
      acc ++ builds.filter (fun x => decide (isReleaseWithin from_ to_ x)) := by
  induction builds generalizing acc with
  | nil => simp
  | cons b bs ih =>
    rw [List.foldl_cons, ih, filterReleasesByDate.step_eq, List.append_assoc,
      ← List.filter_append]
    rfl

theorem filterReleasesByDate_eq_filter (builds : List Build) (from_ to_ : Time) :
    filterReleasesByDate builds from_ to_ =
      builds.filter (fun x => decide (isReleaseWithin from_ to_ x)) := by
  unfold filterReleasesByDate
  rw [filterReleasesByDate.foldl_eq]
  rfl

/-- C1: `filterReleasesByDate` returns exactly the sub-list, in the original
order, of the records that are promotions to production created strictly
after `from` and strictly before `to`; a record created exactly at `from` or
exactly at `to` is not kept. -/
theorem filterReleasesByDate_spec (builds : List Build) (from_ to_ : Time) :
    filterReleasesByDate builds from_ to_ =
        builds.filter (fun b => decide (b.Event = "promote" ∧ b.Deploy = "production" ∧
          from_.instant < (buildTime b).instant ∧ (buildTime b).instant < to_.instant)) ∧
      List.Sublist (filterReleasesByDate builds from_ to_) builds ∧
      ∀ b, buildTime b = from_ ∨ buildTime b = to_ →
        b ∉ filterReleasesByDate builds from_ to_ := by
  have h := filterReleasesByDate_eq_filter builds from_ to_
  refine ⟨h, ?_, ?_⟩
  · rw [h]; exact List.filter_sublist builds
  · intro b hb hmem
    rw [h, List.mem_filter] at hmem
    have hw : isReleaseWithin from_ to_ b := of_decide_eq_true hmem.2
    rcases hb with hb | hb
    · have := hw.2.2.1; rw [hb] at this; exact lt_irrefl _ this
    · have := hw.2.2.2; rw [hb] at this; exact lt_irrefl _ this

/-! ## The page walk: one step -/

theorem findAll_succ_error (fuel : Nat) (client : Client) (owner repo : String)
    (from_ to_ : Time) (page : Int) (e : String)
    (h : client owner repo ⟨page, 25⟩ = .error e) :
    findAllReleasesWithinRange (fuel + 1) client owner repo from_ to_ page =
      some ([], [pageRequest owner repo page]) := by
  rw [findAllReleasesWithinRange, h]
  rfl

theorem findAll_succ_empty (fuel : Nat) (client : Client) (owner repo : String)
    (from_ to_ : Time) (page : Int)
    (h : client owner repo ⟨page, 25⟩ = .ok []) :
    findAllReleasesWithinRange (fuel + 1) client owner repo from_ to_ page =
      some ([], [pageRequest owner repo page]) := by
  rw [findAllReleasesWithinRange, h]
  rfl

theorem findAll_succ_old (fuel : Nat) (client : Client) (owner repo : String)
    (from_ to_ : Time) (page : Int) (b0 : Build) (rest : List Build)
    (h : client owner repo ⟨page, 25⟩ = .ok (b0 :: rest))
    (hold : (buildTime b0).Before from_) :
    findAllReleasesWithinRange (fuel + 1) client owner repo from_ to_ page =
      some ([], [pageRequest owner repo page]) := by
  rw [findAllReleasesWithinRange, h]
  simp only [if_pos hold]
  rfl

theorem findAll_succ_next (fuel : Nat) (client : Client) (owner repo : String)
    (from_ to_ : Time) (page : Int) (b0 : Build) (rest : List Build)
    (h : client owner repo ⟨page, 25⟩ = .ok (b0 :: rest))
    (hnew : ¬ (buildTime b0).Before from_) :
    findAllReleasesWithinRange (fuel + 1) client owner repo from_ to_ page =
      (findAllReleasesWithinRange fuel client owner repo from_ to_
        (wrapInt64 (page + 1))).map
        (fun next => (filterReleasesByDate (b0 :: rest) from_ to_ ++ next.1,
          pageRequest owner repo page :: next.2)) := by
  rw [findAllReleasesWithinRange, h]
  simp only [if_neg hnew]
  cases findAllReleasesWithinRange fuel client owner repo from_ to_ (wrapInt64 (page + 1)) with
  | none => rfl
  | some next => rfl

/-- More fuel never changes the outcome of a walk that has returned. -/
theorem findAll_fuel_succ (fuel : Nat) (client : Client) (owner repo : String)
    (from_ to_ : Time) (page : Int) (out : List Build × List Request)
    (h : findAllReleasesWithinRange fuel client owner repo from_ to_ page = some out) :
    findAllReleasesWithinRange (fuel + 1) client owner repo from_ to_ page = some out := by
  induction fuel generalizing page out with
  | zero => simp [findAllReleasesWithinRange] at h
  | succ n ih =>
    cases hc : client owner repo ⟨page, 25⟩ with
    | error e =>
      rw [findAll_succ_error _ _ _ _ _ _ _ e hc] at h ⊢
      exact h
    | ok bs =>
      cases bs with
      | nil =>
        rw [findAll_succ_empty _ _ _ _ _ _ _ hc] at h ⊢
        exact h
      | cons b0 rest =>
        by_cases hold : (buildTime b0).Before from_
        · rw [findAll_succ_old _ _ _ _ _ _ _ b0 rest hc hold] at h ⊢
          exact h
        · rw [findAll_succ_next _ _ _ _ _ _ _ b0 rest hc hold] at h ⊢
          cases hn : findAllReleasesWithinRange n client owner repo from_ to_
              (wrapInt64 (page + 1)) with
          | none => rw [hn] at h; simp at h
          | some next =>
            rw [hn] at h
            rw [ih _ _ hn]
            exact h

theorem findAll_fuel_mono (fuel fuel' : Nat) (hle : fuel ≤ fuel') (client : Client)
    (owner repo : String) (from_ to_ : Time) (page : Int) (out : List Build × List Request)
    (h : findAllReleasesWithinRange fuel client owner repo from_ to_ page = some out) :
    findAllReleasesWithinRange fuel' client owner repo from_ to_ page = some out := by
  induction hle with
  | refl => exact h
  | step _ ih => exact findAll_fuel_succ _ _ _ _ _ _ _ _ ih

/-- The outcome of a walk does not depend on the fuel it was given. -/
theorem WalkReturns.unique (client : Client) (owner repo : String) (from_ to_ : Time)
    (page : Int) (out out' : List Build × List Request)
    (h : WalkReturns client owner repo from_ to_ page out)
    (h' : WalkReturns client owner repo from_ to_ page out') : out = out' := by
  obtain ⟨f, hf⟩ := h
  obtain ⟨f', hf'⟩ := h'
  have h1 := findAll_fuel_mono f (max f f') (le_max_left _ _) _ _ _ _ _ _ _ hf
  have h2 := findAll_fuel_mono f' (max f f') (le_max_right _ _) _ _ _ _ _ _ _ hf'
  rw [h1] at h2
  exact Option.some.inj h2

/-! ## The page walk: continuing, stopping, ending -/

/-- C2: when the request for page `p` succeeds with a non-empty page whose
index-0 record is not strictly before `from`, the walk started at `p` returns
the filtered page `p` followed by the result of the walk started at `p+1`,
and its requests are the request for `p` followed by those of that walk. -/
theorem findAllReleasesWithinRange_next_page (client : Client) (owner repo : String)
    (from_ to_ : Time) (p : Int) (b0 : Build) (rest : List Build)
    (hpage : client owner repo ⟨p, 25⟩ = .ok (b0 :: rest))
    (hnew : ¬ (buildTime b0).instant < from_.instant) :
    (∀ out, WalkReturns client owner repo from_ to_ p out ↔
      ∃ next, WalkReturns client owner repo from_ to_ (wrapInt64 (p + 1)) next ∧
        out = (filterReleasesByDate (b0 :: rest) from_ to_ ++ next.1,
          pageRequest owner repo p :: next.2)) ∧
    (∀ fuel, findAllReleasesWithinRange (fuel + 1) client owner repo from_ to_ p =
      (findAllReleasesWithinRange fuel client owner repo from_ to_ (wrapInt64 (p + 1))).map
        (fun next => (filterReleasesByDate (b0 :: rest) from_ to_ ++ next.1,
          pageRequest owner repo p :: next.2))) ∧
    (-2 ^ 63 ≤ p → p < 2 ^ 63 - 1 → wrapInt64 (p + 1) = p + 1) := by
  have hnew' : ¬ (buildTime b0).Before from_ := fun h => hnew ((Time.before_iff _ _).1 h)
  have hstep := fun fuel =>
    findAll_succ_next fuel client owner repo from_ to_ p b0 rest hpage hnew'
  refine ⟨?_, hstep, ?_⟩
  · intro out
    constructor
    · rintro ⟨fuel, hf⟩
      cases fuel with
      | zero => simp [findAllReleasesWithinRange] at hf
      | succ n =>
        rw [hstep n] at hf
        cases hn : findAllReleasesWithinRange n client owner repo from_ to_
            (wrapInt64 (p + 1)) with
        | none => rw [hn] at hf; simp at hf
        | some next =>
          rw [hn] at hf
          exact ⟨next, ⟨n, hn⟩, (Option.some.inj hf).symm⟩
    · rintro ⟨next, ⟨n, hn⟩, rfl⟩
      exact ⟨n + 1, by rw [hstep n, hn]; rfl⟩
  · intro h1 h2
    unfold wrapInt64
    omega

/-- C3 (amended): when the request for page `p` succeeds with a non-empty page
whose index-0 record is strictly before `from`, the walk started at `p` issues
that one request and returns the empty result; the filtered page is empty as
well whenever no record of the page is created after the index-0 record. -/
theorem findAllReleasesWithinRange_old_page (client : Client) (owner repo : String)
    (from_ to_ : Time) (p : Int) (b0 : Build) (rest : List Build)
    (hpage : client owner repo ⟨p, 25⟩ = .ok (b0 :: rest))
    (hold : (buildTime b0).instant < from_.instant) :
    (∀ fuel, findAllReleasesWithinRange (fuel + 1) client owner repo from_ to_ p =
      some ([], [pageRequest owner repo p])) ∧
    ((∀ b ∈ rest, (buildTime b).instant ≤ (buildTime b0).instant) →
      filterReleasesByDate (b0 :: rest) from_ to_ = []) := by
  refine ⟨fun fuel => findAll_succ_old fuel client owner repo from_ to_ p b0 rest hpage
    ((Time.before_iff _ _).2 hold), ?_⟩
  intro hle
  rw [filterReleasesByDate_eq_filter, List.filter_eq_nil_iff]
  intro b hb hw
  have hw' : isReleaseWithin from_ to_ b := of_decide_eq_true hw
  have h1 := hw'.2.2.1
  rcases List.mem_cons.1 hb with rfl | hb'
  · exact absurd hold (not_lt.2 (le_of_lt h1))
  · have := hle b hb'
    omega

/-- Witness for C2 on the first of the sample pages. -/
theorem findAllReleasesWithinRange_next_page_witness :
    clientOfPages straddlingPages "octocat" "demo" ⟨1, 25⟩ = .ok (release 9 4000 :: []) ∧
    ¬ (buildTime (release 9 4000)).instant < sampleFrom.instant ∧
    ∀ fuel, findAllReleasesWithinRange (fuel + 1) (clientOfPages straddlingPages)
        "octocat" "demo" sampleFrom sampleTo 1 =
      (findAllReleasesWithinRange fuel (clientOfPages straddlingPages)
        "octocat" "demo" sampleFrom sampleTo (wrapInt64 (1 + 1))).map
        (fun next => (filterReleasesByDate (release 9 4000 :: []) sampleFrom sampleTo ++ next.1,
          pageRequest "octocat" "demo" 1 :: next.2)) :=
  ⟨by decide, by decide,
    (findAllReleasesWithinRange_next_page (clientOfPages straddlingPages) "octocat" "demo"
      sampleFrom sampleTo 1 (release 9 4000) [] (by decide) (by decide)).2.1⟩

/-- Counterexample to C3 as stated: the index-0 record of the page is older
than the window, the walk returns nothing, and the filtered page holds a
release. -/
theorem findAllReleasesWithinRange_old_page_counterexample :
    clientOfPages unorderedPage "octocat" "demo" ⟨1, 25⟩ =
        .ok [release 1 500, release 2 2000] ∧
    (buildTime (release 1 500)).instant < sampleFrom.instant ∧
    findAllReleasesWithinRange 1 (clientOfPages unorderedPage) "octocat" "demo"
        sampleFrom sampleTo 1 = some ([], [pageRequest "octocat" "demo" 1]) ∧
    filterReleasesByDate [release 1 500, release 2 2000] sampleFrom sampleTo =
        [release 2 2000] := by
  decide

/-- Witness for C3 (amended) on the third of the sample pages. -/
theorem findAllReleasesWithinRange_old_page_witness :
    clientOfPages threePages "octocat" "demo" ⟨3, 25⟩ =
        .ok (release 6 500 :: [release 5 400]) ∧
    (buildTime (release 6 500)).instant < sampleFrom.instant ∧
    (∀ fuel, findAllReleasesWithinRange (fuel + 1) (clientOfPages threePages)
        "octocat" "demo" sampleFrom sampleTo 3 =
      some ([], [pageRequest "octocat" "demo" 3])) ∧
    filterReleasesByDate (release 6 500 :: [release 5 400]) sampleFrom sampleTo = [] :=
  ⟨by decide, by decide,
    (findAllReleasesWithinRange_old_page (clientOfPages threePages) "octocat" "demo"
      sampleFrom sampleTo 3 (release 6 500) [release 5 400] (by decide) (by decide)).1,
    (findAllReleasesWithinRange_old_page (clientOfPages threePages) "octocat" "demo"
      sampleFrom sampleTo 3 (release 6 500) [release 5 400] (by decide) (by decide)).2
      (by decide)⟩

/-- Counterexample to C4 as stated: every page is newest-first, pages 1 and 2
hold no record older than `from`, the oldest record of page 3 is older than
`from`, and the walk still requests page 4. -/
theorem findAllReleasesWithinRange_requests_counterexample :
    (∀ page ∈ straddlingPages, NewestFirst page) ∧
    clientOfPages straddlingPages "octocat" "demo" ⟨1, 25⟩ = .ok [release 9 4000] ∧
    clientOfPages straddlingPages "octocat" "demo" ⟨2, 25⟩ = .ok [release 8 3000] ∧
    clientOfPages straddlingPages "octocat" "demo" ⟨3, 25⟩ =
        .ok [release 7 1500, release 6 500] ∧
    (∀ b ∈ [release 9 4000], ¬ (buildTime b).instant < sampleFrom.instant) ∧
    (∀ b ∈ [release 8 3000], ¬ (buildTime b).instant < sampleFrom.instant) ∧
    IsOldestOf (release 6 500) [release 7 1500, release 6 500] ∧
    (buildTime (release 6 500)).instant < sampleFrom.instant ∧
    findAllReleasesWithinRange 4 (clientOfPages straddlingPages) "octocat" "demo"
        sampleFrom sampleTo 1 =
      some ([release 9 4000, release 8 3000, release 7 1500],
        [pageRequest "octocat" "demo" 1, pageRequest "octocat" "demo" 2,
          pageRequest "octocat" "demo" 3, pageRequest "octocat" "demo" 4]) := by
  decide

/-- C4 (amended): when pages 1 and 2 are non-empty and hold no record older
than `from`, and page 3 is non-empty with its index-0 record strictly before
`from`, the walk started at page 1 issues exactly the requests for pages 1, 2
and 3, in that order, and returns the filtered pages 1 and 2. -/
theorem findAllReleasesWithinRange_three_requests (client : Client) (owner repo : String)
    (from_ to_ : Time) (page1 page2 rest3 : List Build) (b3 : Build)
    (h1 : client owner repo ⟨1, 25⟩ = .ok page1) (h1ne : page1 ≠ [])
    (h1new : ∀ b ∈ page1, ¬ (buildTime b).instant < from_.instant)
    (h2 : client owner repo ⟨2, 25⟩ = .ok page2) (h2ne : page2 ≠ [])
    (h2new : ∀ b ∈ page2, ¬ (buildTime b).instant < from_.instant)
    (h3 : client owner repo ⟨3, 25⟩ = .ok (b3 :: rest3))
    (h3old : (buildTime b3).instant < from_.instant) :
    ∀ fuel, 3 ≤ fuel →
      findAllReleasesWithinRange fuel client owner repo from_ to_ 1 =
        some (filterReleasesByDate page1 from_ to_ ++ filterReleasesByDate page2 from_ to_,
          [pageRequest owner repo 1, pageRequest owner repo 2, pageRequest owner repo 3]) := by
  intro fuel hfuel
  obtain ⟨n, rfl⟩ : ∃ n, fuel = n + 3 := ⟨fuel - 3, by omega⟩
  have w1 : wrapInt64 (1 + 1) = 2 := by decide
  have w2 : wrapInt64 (2 + 1) = 3 := by decide
  cases page1 with
  | nil => exact absurd rfl h1ne
  | cons b1 rest1 =>
    cases page2 with
    | nil => exact absurd rfl h2ne
    | cons b2 rest2 =>
      have hb1 : ¬ (buildTime b1).Before from_ := fun h =>
        h1new b1 (List.mem_cons_self _ _) ((Time.before_iff _ _).1 h)
      have hb2 : ¬ (buildTime b2).Before from_ := fun h =>
        h2new b2 (List.mem_cons_self _ _) ((Time.before_iff _ _).1 h)
      rw [findAll_succ_next _ _ _ _ _ _ _ b1 rest1 h1 hb1, w1,
        findAll_succ_next _ _ _ _ _ _ _ b2 rest2 h2 hb2, w2,
        findAll_succ_old _ _ _ _ _ _ _ b3 rest3 h3 ((Time.before_iff _ _).2 h3old)]
      simp

/-- Witness for C4 (amended) on sample pages whose third page starts before
the window. -/
theorem findAllReleasesWithinRange_three_requests_witness :
    clientOfPages threePages "octocat" "demo" ⟨1, 25⟩ = .ok [release 9 4000] ∧
    clientOfPages threePages "octocat" "demo" ⟨2, 25⟩ = .ok [release 8 3000] ∧
    clientOfPages threePages "octocat" "demo" ⟨3, 25⟩ =
        .ok (release 6 500 :: [release 5 400]) ∧
    (buildTime (release 6 500)).instant < sampleFrom.instant ∧
    ∀ fuel, 3 ≤ fuel →
      findAllReleasesWithinRange fuel (clientOfPages threePages) "octocat" "demo"
          sampleFrom sampleTo 1 =
        some (filterReleasesByDate [release 9 4000] sampleFrom sampleTo ++
            filterReleasesByDate [release 8 3000] sampleFrom sampleTo,
          [pageRequest "octocat" "demo" 1, pageRequest "octocat" "demo" 2,
            pageRequest "octocat" "demo" 3]) :=
  ⟨by decide, by decide, by decide, by decide,
    findAllReleasesWithinRange_three_requests (clientOfPages threePages) "octocat" "demo"
      sampleFrom sampleTo [release 9 4000] [release 8 3000] [release 5 400] (release 6 500)
      (by decide) (by decide) (by decide) (by decide) (by decide) (by decide) (by decide)
      (by decide)⟩

/-- A walk over a page that ends it: one request, nothing returned. -/
theorem findAll_succ_ends (fuel : Nat) (client : Client) (owner repo : String)
    (from_ to_ : Time) (page : Int) (h : PageEnds client owner repo page) :
    findAllReleasesWithinRange (fuel + 1) client owner repo from_ to_ page =
      some ([], [pageRequest owner repo page]) := by
  rcases h with ⟨e, he⟩ | he
  · exact findAll_succ_error fuel client owner repo from_ to_ page e he
  · exact findAll_succ_empty fuel client owner repo from_ to_ page he

/-- Two APIs that both end the walk at page `p` and answer alike on every other
page of the repository give the same walk from every starting page. -/
theorem findAll_congr_ends (client client' : Client) (owner repo : String)
    (from_ to_ : Time) (p : Int)
    (h : PageEnds client owner repo p) (h' : PageEnds client' owner repo p)
    (hsame : ∀ q, q ≠ p → client' owner repo ⟨q, 25⟩ = client owner repo ⟨q, 25⟩)
    (fuel : Nat) (start : Int) :
    findAllReleasesWithinRange fuel client' owner repo from_ to_ start =
      findAllReleasesWithinRange fuel client owner repo from_ to_ start := by
  induction fuel generalizing start with
  | zero => rfl
  | succ n ih =>
    by_cases hp : start = p
    · subst hp
      rw [findAll_succ_ends n client owner repo from_ to_ start h,
        findAll_succ_ends n client' owner repo from_ to_ start h']
    · have hq := hsame start hp
      cases hc : client owner repo ⟨start, 25⟩ with
      | error e =>
        rw [findAll_succ_error n client owner repo from_ to_ start e hc,
          findAll_succ_error n client' owner repo from_ to_ start e (hq.trans hc)]
      | ok bs =>
        cases bs with
        | nil =>
          rw [findAll_succ_empty n client owner repo from_ to_ start hc,
            findAll_succ_empty n client' owner repo from_ to_ start (hq.trans hc)]
        | cons b0 rest =>
          by_cases hold : (buildTime b0).Before from_
          · rw [findAll_succ_old n client owner repo from_ to_ start b0 rest hc hold,
              findAll_succ_old n client' owner repo from_ to_ start b0 rest (hq.trans hc) hold]
          · rw [findAll_succ_next n client owner repo from_ to_ start b0 rest hc hold,
              findAll_succ_next n client' owner repo from_ to_ start b0 rest (hq.trans hc) hold,
              ih]

/-- C5: when the request for page `p` returns an error or zero records, the
walk started at `p` returns the empty result after that single request (so no
request for page `p+1`; the result carries no error), and replacing the answer
for page `p` by any other answer that is an error or an empty page leaves every
walk over the repository unchanged. -/
theorem findAllReleasesWithinRange_page_ends (client : Client) (owner repo : String)
    (from_ to_ : Time) (p : Int)
    (hends : (∃ e, client owner repo ⟨p, 25⟩ = .error e) ∨
      client owner repo ⟨p, 25⟩ = .ok []) :
    (∀ fuel, findAllReleasesWithinRange (fuel + 1) client owner repo from_ to_ p =
      some ([], [pageRequest owner repo p])) ∧
    (∀ out, WalkReturns client owner repo from_ to_ p out ↔
      out = ([], [pageRequest owner repo p])) ∧
    (∀ client' : Client,
      ((∃ e, client' owner repo ⟨p, 25⟩ = .error e) ∨ client' owner repo ⟨p, 25⟩ = .ok []) →
      (∀ q, q ≠ p → client' owner repo ⟨q, 25⟩ = client owner repo ⟨q, 25⟩) →
      ∀ fuel start, findAllReleasesWithinRange fuel client' owner repo from_ to_ start =
        findAllReleasesWithinRange fuel client owner repo from_ to_ start) := by
  have h1 := fun fuel => findAll_succ_ends fuel client owner repo from_ to_ p hends
  refine ⟨h1, ?_, ?_⟩
  · intro out
    constructor
    · intro hw
      exact WalkReturns.unique client owner repo from_ to_ p _ _ hw ⟨1, h1 0⟩
    · rintro rfl
      exact ⟨1, h1 0⟩
  · intro client' h' hsame fuel start
    exact findAll_congr_ends client client' owner repo from_ to_ p hends h' hsame fuel start

/-- Witness for C5: an API whose every request fails, against an API that has
no page at all. -/
theorem findAllReleasesWithinRange_page_ends_witness :
    ((∃ e, failingClient "octocat" "demo" ⟨1, 25⟩ = .error e) ∨
      failingClient "octocat" "demo" ⟨1, 25⟩ = .ok []) ∧
    findAllReleasesWithinRange 1 failingClient "octocat" "demo" sampleFrom sampleTo 1 =
      some ([], [pageRequest "octocat" "demo" 1]) :=
  ⟨Or.inl ⟨"unreachable", rfl⟩,
    (findAllReleasesWithinRange_page_ends failingClient "octocat" "demo" sampleFrom sampleTo 1
      (Or.inl ⟨"unreachable", rfl⟩)).1 0⟩

/-! ## The page walk: what it returns -/

/-- Every record a walk returns passed the filter and was on a requested page. -/
theorem findAll_mem (fuel : Nat) (client : Client) (owner repo : String)
    (from_ to_ : Time) (page : Int) (out : List Build × List Request)
    (h : findAllReleasesWithinRange fuel client owner repo from_ to_ page = some out)
    (b : Build) (hb : b ∈ out.1) :
    isReleaseWithin from_ to_ b ∧
      ∃ req ∈ out.2, ∃ builds, client req.owner req.name req.opts = .ok builds ∧ b ∈ builds := by
  induction fuel generalizing page out with
  | zero => simp [findAllReleasesWithinRange] at h
  | succ n ih =>
    cases hc : client owner repo ⟨page, 25⟩ with
    | error e =>
      rw [findAll_succ_error n client owner repo from_ to_ page e hc] at h
      cases Option.some.inj h
      simp at hb
    | ok bs =>
      cases bs with
      | nil =>
        rw [findAll_succ_empty n client owner repo from_ to_ page hc] at h
        cases Option.some.inj h
        simp at hb
      | cons b0 rest =>
        by_cases hold : (buildTime b0).Before from_
        · rw [findAll_succ_old n client owner repo from_ to_ page b0 rest hc hold] at h
          cases Option.some.inj h
          simp at hb
        · rw [findAll_succ_next n client owner repo from_ to_ page b0 rest hc hold] at h
          cases hn : findAllReleasesWithinRange n client owner repo from_ to_
              (wrapInt64 (page + 1)) with
          | none => rw [hn] at h; simp at h
          | some next =>
            rw [hn] at h
            cases Option.some.inj h
            rcases List.mem_append.1 hb with hcur | hnext
            · rw [filterReleasesByDate_eq_filter, List.mem_filter] at hcur
              exact ⟨of_decide_eq_true hcur.2, pageRequest owner repo page,
                List.mem_cons_self _ _, b0 :: rest, hc, hcur.1⟩
            · obtain ⟨hw, req, hreq, builds, hbuilds, hmem⟩ := ih _ _ hn hnext
              exact ⟨hw, req, List.mem_cons_of_mem _ hreq, builds, hbuilds, hmem⟩

/-- C6: every record in the result of a walk that returns has event
`promote`, deploy target `production` and a creation instant strictly between
`from` and `to`, and occurs on a page that the walk requested; no `push`
record and no promotion to `staging` is ever returned. -/
theorem findAllReleasesWithinRange_only_releases (client : Client) (owner repo : String)
    (from_ to_ : Time) (page : Int) (fuel : Nat) (result : List Build)
    (trace : List Request)
    (h : findAllReleasesWithinRange fuel client owner repo from_ to_ page =
      some (result, trace)) :
    (∀ b ∈ result, b.Event = "promote" ∧ b.Deploy = "production" ∧
      from_.instant < (buildTime b).instant ∧ (buildTime b).instant < to_.instant ∧
      ∃ req ∈ trace, ∃ builds,
        client req.owner req.name req.opts = .ok builds ∧ b ∈ builds) ∧
    (∀ b, b.Event = "push" → b ∉ result) ∧
    (∀ b, b.Event = "promote" → b.Deploy = "staging" → b ∉ result) := by
  have hmem := findAll_mem fuel client owner repo from_ to_ page (result, trace) h
  refine ⟨?_, ?_, ?_⟩
  · intro b hb
    obtain ⟨hw, hreq⟩ := hmem b hb
    exact ⟨hw.1, hw.2.1, hw.2.2.1, hw.2.2.2, hreq⟩
  · intro b hpush hb
    have hw := (hmem b hb).1.1
    rw [hpush] at hw
    exact absurd hw (by decide)
  · intro b _ hstaging hb
    have hw := (hmem b hb).1.2.1
    rw [hstaging] at hw
    exact absurd hw (by decide)

/-- Witness for C6: a page mixing a release with a push and a promotion to
staging created at the same second. -/
theorem findAllReleasesWithinRange_only_releases_witness :
    findAllReleasesWithinRange 2 (clientOfPages mixedPage) "octocat" "demo"
        sampleFrom sampleTo 1 =
      some ([release 3 2000],
        [pageRequest "octocat" "demo" 1, pageRequest "octocat" "demo" 2]) ∧
    ∀ b, b.Event = "push" → b ∉ [release 3 2000] :=
  ⟨by decide,
    (findAllReleasesWithinRange_only_releases (clientOfPages mixedPage) "octocat" "demo"
      sampleFrom sampleTo 1 2 [release 3 2000]
      [pageRequest "octocat" "demo" 1, pageRequest "octocat" "demo" 2] (by decide)).2.1⟩

/-! ## Searching and splitting character lists -/

theorem strings.Index_nil (sep : List Char) :
    strings.Index [] sep = if sep <+: [] then some 0 else none := by
  rw [strings.Index]

theorem strings.Index_cons (c : Char) (s sep : List Char) :
    strings.Index (c :: s) sep =
      if sep <+: c :: s then some 0 else (strings.Index s sep).map (· + 1) := by
  rw [strings.Index]

/-- Where `Index` finds `sep`, the list is the part before that position, then
`sep`, then the part behind it, and no occurrence of `sep` starts earlier. -/
theorem strings.Index_some (sep : List Char) (s : List Char) (m : Nat)
    (h : strings.Index s sep = some m) :
    s = s.take m ++ sep ++ s.drop (m + sep.length) ∧ m + sep.length ≤ s.length ∧
      ∀ a b : List Char, s = a ++ sep ++ b → m ≤ a.length := by
  induction s generalizing m with
  | nil =>
    rw [strings.Index_nil] at h
    split_ifs at h with hp
    cases Option.some.inj h
    obtain ⟨t, ht⟩ := hp
    have hsep : sep = [] := (List.append_eq_nil.1 ht).1
    subst hsep
    simp
  | cons c s ih =>
    rw [strings.Index_cons] at h
    split_ifs at h with hp
    · cases Option.some.inj h
      obtain ⟨t, ht⟩ := hp
      refine ⟨?_, ?_, fun _ _ _ => Nat.zero_le _⟩
      · rw [← ht]; simp
      · rw [← ht]; simp
    · cases hi : strings.Index s sep with
      | none => rw [hi] at h; simp at h
      | some m' =>
        rw [hi] at h
        cases Option.some.inj h
        obtain ⟨h1, h2, h3⟩ := ih m' hi
        refine ⟨?_, ?_, ?_⟩
        · rw [List.take_succ_cons, Nat.add_right_comm, List.drop_succ_cons]
          rw [List.cons_append, List.cons_append, ← h1]
        · simp only [List.length_cons]; omega
        · intro a b hab
          cases a with
          | nil => exact absurd ⟨b, by rw [hab]; simp⟩ hp
          | cons x a' =>
            rw [List.cons_append, List.cons_append] at hab
            have := h3 a' b (List.cons.inj hab).2
            simp only [List.length_cons]; omega

/-- The search `Index` fails exactly on the lists that do not contain `sep`. -/
theorem strings.Index_eq_none_iff (sep : List Char) (s : List Char) :
    strings.Index s sep = none ↔ ¬ ∃ a b : List Char, s = a ++ sep ++ b := by
  constructor
  · intro h
    induction s with
    | nil =>
      rw [strings.Index_nil] at h
      split_ifs at h with hp
      rintro ⟨a, b, hab⟩
      have h1 := List.append_eq_nil.1 hab.symm
      have h2 := List.append_eq_nil.1 h1.1
      exact hp ⟨[], by rw [h2.2]; rfl⟩
    | cons c s ih =>
      rw [strings.Index_cons] at h
      split_ifs at h with hp
      have hs : strings.Index s sep = none := by
        cases hi : strings.Index s sep with
        | none => rfl
        | some m => rw [hi] at h; simp at h
      rintro ⟨a, b, hab⟩
      cases a with
      | nil => exact hp ⟨b, by rw [hab]; simp⟩
      | cons x a' =>
        rw [List.cons_append, List.cons_append] at hab
        exact ih hs ⟨a', b, (List.cons.inj hab).2⟩
  · intro h
    cases hi : strings.Index s sep with
    | none => rfl
    | some m => exact absurd ⟨_, _, (strings.Index_some sep s m hi).1⟩ h

theorem strings.genSplitLoop_none (sep : List Char) (n : Nat) (s : List Char)
    (h : strings.Index s sep = none) : strings.genSplitLoop sep n s = [s] := by
  cases n with
  | zero => rfl
  | succ n => rw [strings.genSplitLoop, h]

theorem strings.genSplitLoop_some (sep : List Char) (n : Nat) (s : List Char) (m : Nat)
    (h : strings.Index s sep = some m) :
    strings.genSplitLoop sep (n + 1) s =
      s.take m :: strings.genSplitLoop sep n (s.drop (m + sep.length)) := by
  rw [strings.genSplitLoop, h]

theorem strings.countLoop_pos (sep : List Char) (fuel : Nat) (s : List Char) (m : Nat)
    (h : strings.Index s sep = some m) : 1 ≤ strings.countLoop sep (fuel + 1) s := by
  rw [strings.countLoop, h]
  exact Nat.le_add_left 1 _

/-- The loop of `Count` has run to its end once the fuel exceeds the length of
the list: more fuel does not change the count. -/
theorem strings.countLoop_fuel (sep : List Char) (hsep : sep ≠ []) (fuel fuel' : Nat)
    (s : List Char) (h : s.length < fuel) (h' : s.length < fuel') :
    strings.countLoop sep fuel s = strings.countLoop sep fuel' s := by
  have hlen : 1 ≤ sep.length := by
    cases sep with
    | nil => exact absurd rfl hsep
    | cons c t => simp
  induction fuel generalizing s fuel' with
  | zero => omega
  | succ n ih =>
    obtain ⟨k, rfl⟩ : ∃ k, fuel' = k + 1 := ⟨fuel' - 1, by omega⟩
    rw [strings.countLoop, strings.countLoop]
    cases hi : strings.Index s sep with
    | none => rfl
    | some i =>
      obtain ⟨_, hle, _⟩ := strings.Index_some sep s i hi
      have hd : (s.drop (i + sep.length)).length < n := by
        rw [List.length_drop]; omega
      have hd' : (s.drop (i + sep.length)).length < k := by
        rw [List.length_drop]; omega
      simp only []
      rw [ih k _ hd hd']

/-- The number of cuts that `genSplit` allows itself: at least one when `sep`
occurs, at least two when it occurs again behind its first occurrence. -/
theorem strings.cuts_bound (sep : List Char) (hsep : sep ≠ []) (s : List Char) (m : Nat)
    (h : strings.Index s sep = some m) :
    1 ≤ min (strings.Count s sep + 1) (s.length + 1) - 1 ∧
      ∀ m', strings.Index (s.drop (m + sep.length)) sep = some m' →
        2 ≤ min (strings.Count s sep + 1) (s.length + 1) - 1 := by
  have hlen : 1 ≤ sep.length := by
    cases sep with
    | nil => exact absurd rfl hsep
    | cons c t => simp
  obtain ⟨_, hle, _⟩ := strings.Index_some sep s m h
  have hcount : strings.Count s sep =
      strings.countLoop sep s.length (s.drop (m + sep.length)) + 1 := by
    unfold strings.Count
    rw [if_neg hsep, strings.countLoop, h]
  constructor
  · rw [hcount]; omega
  · intro m' h'
    obtain ⟨_, hle', _⟩ := strings.Index_some sep _ m' h'
    rw [List.length_drop] at hle'
    obtain ⟨k, hk⟩ : ∃ k, s.length = k + 1 := ⟨s.length - 1, by omega⟩
    have hpos := strings.countLoop_pos sep k _ m' h'
    rw [hcount, hk]
    rw [hk] at hle'
    omega

/-- The pieces of `genSplit` when `sep` does not occur: the list itself. -/
theorem strings.genSplit_of_none (sep : List Char) (hsep : sep ≠ []) (s : List Char)
    (h : strings.Index s sep = none) : strings.genSplit s sep = [s] := by
  unfold strings.genSplit
  rw [if_neg hsep]
  exact strings.genSplitLoop_none sep _ s h

/-- The first two pieces of `genSplit` when `sep` occurs. -/
theorem strings.genSplit_of_some (sep : List Char) (hsep : sep ≠ []) (s : List Char)
    (m : Nat) (h : strings.Index s sep = some m) :
    ∃ more, strings.genSplit s sep =
      s.take m ::
        (match strings.Index (s.drop (m + sep.length)) sep with
          | none => s.drop (m + sep.length)
          | some m' => (s.drop (m + sep.length)).take m') :: more := by
  unfold strings.genSplit
  rw [if_neg hsep]
  obtain ⟨h1, h2⟩ := strings.cuts_bound sep hsep s m h
  cases h' : strings.Index (s.drop (m + sep.length)) sep with
  | none =>
    obtain ⟨k, hk⟩ : ∃ k, min (strings.Count s sep + 1) (s.length + 1) - 1 = k + 1 :=
      ⟨_, (Nat.sub_add_cancel h1).symm⟩
    rw [hk, strings.genSplitLoop_some sep k s m h, strings.genSplitLoop_none sep k _ h']
    exact ⟨[], rfl⟩
  | some m' =>
    obtain ⟨k, hk⟩ : ∃ k, min (strings.Count s sep + 1) (s.length + 1) - 1 = k + 2 :=
      ⟨_, (Nat.sub_add_cancel (h2 m' h')).symm⟩
    rw [hk, strings.genSplitLoop_some sep (k + 1) s m h,
      strings.genSplitLoop_some sep k _ m' h']
    exact ⟨_, rfl⟩

/-! ## Splitting a repository name -/

theorem Occurs_iff_data (sep s : String) :
    Occurs sep s ↔ ∃ a b : List Char, s.data = a ++ sep.data ++ b := by
  constructor
  · rintro ⟨a, b, rfl⟩
    exact ⟨a.data, b.data, by simp [String.data_append]⟩
  · rintro ⟨a, b, h⟩
    refine ⟨String.mk a, String.mk b, ?_⟩
    apply String.ext
    simp [String.data_append, h]

theorem FirstCut_iff_data (sep s before after : String) :
    FirstCut sep s before after ↔
      s.data = before.data ++ sep.data ++ after.data ∧
        ∀ a b : List Char, s.data = a ++ sep.data ++ b → before.data.length ≤ a.length := by
  unfold FirstCut
  constructor
  · rintro ⟨h1, h2⟩
    refine ⟨by rw [h1]; simp [String.data_append], ?_⟩
    intro a b hab
    have := h2 (String.mk a) (String.mk b) (by
      apply String.ext
      simp [String.data_append, hab])
    exact this
  · rintro ⟨h1, h2⟩
    refine ⟨by apply String.ext; simp [String.data_append, h1], ?_⟩
    intro a b hab
    exact h2 a.data b.data (by rw [hab]; simp [String.data_append])

theorem data_ne_nil_of_ne_empty (sep : String) (h : sep ≠ "") : sep.data ≠ [] := by
  intro hd
  apply h
  apply String.ext
  rw [hd]

/-- The result of `DroneRepo.Split` when the separator does not occur. -/
theorem DroneRepo.Split_of_none (r sep : String) (hsep : sep ≠ "")
    (h : strings.Index r.data sep.data = none) :
    DroneRepo.Split r sep =
      ("", "", some "Drone repository should be made of <namespace>/<name>") := by
  unfold DroneRepo.Split strings.Split
  rw [strings.genSplit_of_none sep.data (data_ne_nil_of_ne_empty sep hsep) r.data h]
  rfl

/-- The result of `DroneRepo.Split` when the separator occurs. -/
theorem DroneRepo.Split_of_some (r sep : String) (hsep : sep ≠ "") (m : Nat)
    (h : strings.Index r.data sep.data = some m) :
    DroneRepo.Split r sep =
      (String.mk (r.data.take m),
        String.mk (match strings.Index (r.data.drop (m + sep.data.length)) sep.data with
          | none => r.data.drop (m + sep.data.length)
          | some m' => (r.data.drop (m + sep.data.length)).take m'),
        none) := by
  unfold DroneRepo.Split strings.Split
  obtain ⟨more, hmore⟩ :=
    strings.genSplit_of_some sep.data (data_ne_nil_of_ne_empty sep hsep) r.data m h
  rw [hmore]
  simp

/-- The split succeeds exactly when the separator occurs. -/
theorem DroneRepo.Split_error_iff (r sep : String) (hsep : sep ≠ "") :
    (DroneRepo.Split r sep).2.2 ≠ none ↔ ¬ Occurs sep r := by
  rw [Occurs_iff_data, ← strings.Index_eq_none_iff]
  cases h : strings.Index r.data sep.data with
  | none => rw [DroneRepo.Split_of_none r sep hsep h]; simp
  | some m => rw [DroneRepo.Split_of_some r sep hsep m h]; simp

/-- A part cut off at a first occurrence of `sep` does not contain `sep`. -/
theorem not_occurs_of_first (sep s before after : List Char) (hsep : sep ≠ [])
    (h1 : s = before ++ sep ++ after)
    (h2 : ∀ a b : List Char, s = a ++ sep ++ b → before.length ≤ a.length) :
    ¬ ∃ a b : List Char, before = a ++ sep ++ b := by
  rintro ⟨a, b, hab⟩
  have hlen : 1 ≤ sep.length := by
    cases sep with
    | nil => exact absurd rfl hsep
    | cons c t => simp
  have := h2 a (b ++ sep ++ after) (by rw [h1, hab]; simp)
  rw [hab] at this
  simp only [List.length_append] at this
  omega

theorem not_occurs_of_firstCut (sep s before after : String) (hsep : sep ≠ "")
    (h : FirstCut sep s before after) : ¬ Occurs sep before := by
  rw [Occurs_iff_data]
  rw [FirstCut_iff_data] at h
  exact not_occurs_of_first sep.data s.data before.data after.data
    (data_ne_nil_of_ne_empty sep hsep) h.1 h.2

theorem firstCut_of_index (sep s : String) (m : Nat)
    (h : strings.Index s.data sep.data = some m) :
    FirstCut sep s (String.mk (s.data.take m))
      (String.mk (s.data.drop (m + sep.data.length))) := by
  rw [FirstCut_iff_data]
  obtain ⟨h1, h2, h3⟩ := strings.Index_some sep.data s.data m h
  refine ⟨h1, ?_⟩
  intro a b hab
  have := h3 a b hab
  simp only [List.length_take]
  omega

/-- The two parts that a successful `DroneRepo.Split` returns, in terms of the
occurrences of the separator. -/
theorem DroneRepo.Split_ok (s sep : String) (hsep : sep ≠ "") (owner name : String)
    (h : DroneRepo.Split s sep = (owner, name, none)) :
    ∃ rest : String, FirstCut sep s owner rest ∧
      ((¬ Occurs sep rest ∧ name = rest) ∨ ∃ rest', FirstCut sep rest name rest') := by
  cases hi : strings.Index s.data sep.data with
  | none =>
    rw [DroneRepo.Split_of_none s sep hsep hi] at h
    simp at h
  | some m =>
    rw [DroneRepo.Split_of_some s sep hsep m hi] at h
    have ho : String.mk (s.data.take m) = owner := (Prod.mk.inj h).1
    have hn := (Prod.mk.inj (Prod.mk.inj h).2).1
    refine ⟨String.mk (s.data.drop (m + sep.data.length)), ?_, ?_⟩
    · rw [← ho]; exact firstCut_of_index sep s m hi
    · cases hi' : strings.Index (s.data.drop (m + sep.data.length)) sep.data with
      | none =>
        rw [hi'] at hn
        left
        refine ⟨?_, hn.symm⟩
        rw [Occurs_iff_data]
        exact (strings.Index_eq_none_iff sep.data _).1 hi'
      | some m' =>
        rw [hi'] at hn
        right
        refine ⟨String.mk ((s.data.drop (m + sep.data.length)).drop (m' + sep.data.length)), ?_⟩
        rw [← hn]
        exact firstCut_of_index sep (String.mk (s.data.drop (m + sep.data.length))) m' hi'

/-- C8: when `DroneRepo.Split` succeeds on a non-empty separator, the returned
namespace is the part of `s` before the first occurrence of `sep`, and the
returned name is the part of the remainder before its first occurrence of
`sep`, or the whole remainder when (and only when) `sep` does not occur in the
remainder; neither part contains `sep`; `a/b` gives `a` and `b`, and `a/b/c`
gives `a` and `b`, not `a` and `b/c`. -/
theorem DroneRepo.Split_parts (s sep : String) (hsep : sep ≠ "") (owner name : String)
    (h : DroneRepo.Split s sep = (owner, name, none)) :
    (∃ rest : String, FirstCut sep s owner rest ∧
      ((¬ Occurs sep rest ∧ name = rest) ∨ ∃ rest', FirstCut sep rest name rest') ∧
      (name = rest ↔ ¬ Occurs sep rest)) ∧
    ¬ Occurs sep owner ∧ ¬ Occurs sep name ∧
    DroneRepo.Split "a/b" "/" = ("a", "b", none) ∧
    DroneRepo.Split "a/b/c" "/" = ("a", "b", none) ∧
    DroneRepo.Split "a/b/c" "/" ≠ ("a", "b/c", none) := by
  obtain ⟨rest, hcut, hname⟩ := DroneRepo.Split_ok s sep hsep owner name h
  have hlen : 1 ≤ sep.data.length := by
    have := data_ne_nil_of_ne_empty sep hsep
    cases hd : sep.data with
    | nil => exact absurd hd this
    | cons c t => simp
  refine ⟨⟨rest, hcut, hname, ?_⟩, not_occurs_of_firstCut sep s owner rest hsep hcut, ?_,
    by decide, by decide, by decide⟩
  · constructor
    · intro heq
      rcases hname with ⟨hno, _⟩ | ⟨rest', hcut'⟩
      · exact hno
      · exfalso
        have h1 := congrArg String.length hcut'.1
        rw [heq] at h1
        simp only [String.length_append] at h1
        have : sep.length = sep.data.length := rfl
        omega
    · intro hno
      rcases hname with ⟨_, heq⟩ | ⟨rest', hcut'⟩
      · exact heq
      · exact absurd ⟨name, rest', hcut'.1⟩ hno
  · rcases hname with ⟨hno, heq⟩ | ⟨rest', hcut'⟩
    · rw [heq]; exact hno
    · exact not_occurs_of_firstCut sep rest name rest' hsep hcut'

/-- Witness for C8 on a name with two separators. -/
theorem DroneRepo.Split_parts_witness :
    ("/" : String) ≠ "" ∧ DroneRepo.Split "a/b/c" "/" = ("a", "b", none) ∧
    ¬ Occurs "/" "a" ∧ ¬ Occurs "/" "b" :=
  ⟨by decide, by decide,
    (DroneRepo.Split_parts "a/b/c" "/" (by decide) "a" "b" (by decide)).2.1,
    (DroneRepo.Split_parts "a/b/c" "/" (by decide) "a" "b" (by decide)).2.2.1⟩

/-- C9: on a non-empty separator, `DroneRepo.Split` fails exactly when `s`
contains no occurrence of `sep`, and a failure comes with two empty strings;
`abc` fails on `/` and `a/b` succeeds. -/
theorem DroneRepo.Split_fails_iff (s sep : String) (hsep : sep ≠ "") :
    ((DroneRepo.Split s sep).2.2 ≠ none ↔ ¬ Occurs sep s) ∧
    ((DroneRepo.Split s sep).2.2 ≠ none →
      DroneRepo.Split s sep =
        ("", "", some "Drone repository should be made of <namespace>/<name>")) ∧
    (DroneRepo.Split "abc" "/").2.2 ≠ none ∧
    (DroneRepo.Split "a/b" "/").2.2 = none := by
  refine ⟨DroneRepo.Split_error_iff s sep hsep, ?_, by decide, by decide⟩
  intro hfail
  cases hi : strings.Index s.data sep.data with
  | none => exact DroneRepo.Split_of_none s sep hsep hi
  | some m =>
    rw [DroneRepo.Split_of_some s sep hsep m hi] at hfail
    exact absurd rfl hfail

/-- Witness for C9 on the separator of `main`. -/
theorem DroneRepo.Split_fails_iff_witness :
    ("/" : String) ≠ "" ∧
    ((DroneRepo.Split "abc" "/").2.2 ≠ none ↔ ¬ Occurs "/" "abc") :=
  ⟨by decide, (DroneRepo.Split_fails_iff "abc" "/" (by decide)).1⟩

/-! ## The repository loop -/

/-- A walk that returns has made the request for its first page first. -/
theorem findAll_trace_head (fuel : Nat) (client : Client) (owner repo : String)
    (from_ to_ : Time) (page : Int) (out : List Build × List Request)
    (h : findAllReleasesWithinRange fuel client owner repo from_ to_ page = some out) :
    ∃ more, out.2 = pageRequest owner repo page :: more := by
  cases fuel with
  | zero => simp [findAllReleasesWithinRange] at h
  | succ n =>
    cases hc : client owner repo ⟨page, 25⟩ with
    | error e =>
      rw [findAll_succ_error n client owner repo from_ to_ page e hc] at h
      cases Option.some.inj h
      exact ⟨[], rfl⟩
    | ok bs =>
      cases bs with
      | nil =>
        rw [findAll_succ_empty n client owner repo from_ to_ page hc] at h
        cases Option.some.inj h
        exact ⟨[], rfl⟩
      | cons b0 rest =>
        by_cases hold : (buildTime b0).Before from_
        · rw [findAll_succ_old n client owner repo from_ to_ page b0 rest hc hold] at h
          cases Option.some.inj h
          exact ⟨[], rfl⟩
        · rw [findAll_succ_next n client owner repo from_ to_ page b0 rest hc hold] at h
          cases hn : findAllReleasesWithinRange n client owner repo from_ to_
              (wrapInt64 (page + 1)) with
          | none => rw [hn] at h; simp at h
          | some next =>
            rw [hn] at h
            cases Option.some.inj h
            exact ⟨next.2, rfl⟩

/-- Every request of a walk is a request of 25 records for its repository. -/
theorem findAll_trace_repo (fuel : Nat) (client : Client) (owner repo : String)
    (from_ to_ : Time) (page : Int) (out : List Build × List Request)
    (h : findAllReleasesWithinRange fuel client owner repo from_ to_ page = some out) :
    ∀ req ∈ out.2, req.owner = owner ∧ req.name = repo ∧ req.opts.Size = 25 := by
  induction fuel generalizing page out with
  | zero => simp [findAllReleasesWithinRange] at h
  | succ n ih =>
    have hone : ∀ req ∈ [pageRequest owner repo page],
        req.owner = owner ∧ req.name = repo ∧ req.opts.Size = 25 := by
      intro req hreq
      rw [List.mem_singleton] at hreq
      subst hreq
      exact ⟨rfl, rfl, rfl⟩
    cases hc : client owner repo ⟨page, 25⟩ with
    | error e =>
      rw [findAll_succ_error n client owner repo from_ to_ page e hc] at h
      cases Option.some.inj h
      exact hone
    | ok bs =>
      cases bs with
      | nil =>
        rw [findAll_succ_empty n client owner repo from_ to_ page hc] at h
        cases Option.some.inj h
        exact hone
      | cons b0 rest =>
        by_cases hold : (buildTime b0).Before from_
        · rw [findAll_succ_old n client owner repo from_ to_ page b0 rest hc hold] at h
          cases Option.some.inj h
          exact hone
        · rw [findAll_succ_next n client owner repo from_ to_ page b0 rest hc hold] at h
          cases hn : findAllReleasesWithinRange n client owner repo from_ to_
              (wrapInt64 (page + 1)) with
          | none => rw [hn] at h; simp at h
          | some next =>
            rw [hn] at h
            cases Option.some.inj h
            intro req hreq
            rcases List.mem_cons.1 hreq with rfl | hmem
            · exact ⟨rfl, rfl, rfl⟩
            · exact ih _ _ hn req hmem

/-- The requests of the walks over a list of repositories: each one is for a
repository of the list, and the first page of every repository is requested. -/
theorem walkRepos_trace (fuel : Nat) (client : Client) (fromDate toDate : Time)
    (refs : List (String × String)) (out : List Build × List Request)
    (h : walkRepos fuel client fromDate toDate refs = some out) :
    (∀ req ∈ out.2, (req.owner, req.name) ∈ refs) ∧
      ∀ r ∈ refs, pageRequest r.1 r.2 1 ∈ out.2 := by
  induction refs generalizing out with
  | nil =>
    rw [walkRepos] at h
    cases Option.some.inj h
    simp
  | cons r rest ih =>
    obtain ⟨owner, name⟩ := r
    rw [walkRepos] at h
    cases hw : findAllReleasesWithinRange fuel client owner name fromDate toDate 1 with
    | none => rw [hw] at h; simp at h
    | some first =>
      obtain ⟨found, requests⟩ := first
      rw [hw] at h
      cases hr : walkRepos fuel client fromDate toDate rest with
      | none => rw [hr] at h; simp at h
      | some others =>
        rw [hr] at h
        cases Option.some.inj h
        obtain ⟨ih1, ih2⟩ := ih others hr
        constructor
        · intro req hreq
          rcases List.mem_append.1 hreq with h1 | h1
          · have := findAll_trace_repo fuel client owner name fromDate toDate 1 _ hw req h1
            rw [List.mem_cons]
            left
            exact Prod.ext this.1 this.2.1
          · exact List.mem_cons_of_mem _ (ih1 req h1)
        · intro r hr'
          rcases List.mem_cons.1 hr' with rfl | hmem
          · obtain ⟨more, hmore⟩ :=
              findAll_trace_head fuel client owner name fromDate toDate 1 _ hw
            apply List.mem_append_left
            show pageRequest owner name 1 ∈ requests
            have hmore' : requests = pageRequest owner name 1 :: more := hmore
            rw [hmore']
            exact List.mem_cons_self _ _
          · exact List.mem_append_right _ (ih2 r hmem)

/-- The result of `DroneRepo.Split` on a piece that contains a slash. -/
theorem DroneRepo.Split_of_occurs (piece : String) (h : Occurs "/" piece) :
    DroneRepo.Split piece "/" = ((repoRef piece).1, (repoRef piece).2, none) := by
  have hnone : (DroneRepo.Split piece "/").2.2 = none := by
    by_contra hne
    exact (DroneRepo.Split_error_iff piece "/" (by decide)).1 hne h
  unfold repoRef
  rw [← hnone]

/-- The result of `DroneRepo.Split` on a piece that contains no slash. -/
theorem DroneRepo.Split_of_not_occurs (piece : String) (h : ¬ Occurs "/" piece) :
    DroneRepo.Split piece "/" =
      ("", "", some "Drone repository should be made of <namespace>/<name>") := by
  cases hi : strings.Index piece.data ("/" : String).data with
  | none => exact DroneRepo.Split_of_none piece "/" (by decide) hi
  | some m =>
    exfalso
    apply h
    rw [Occurs_iff_data]
    exact ⟨_, _, (strings.Index_some _ _ m hi).1⟩

theorem main.reposLoop_cons_ok (fuel : Nat) (client : Client) (fromDate toDate : Time)
    (p : String) (rest : List String) (releases : List Build) (trace : List Request)
    (owner name : String) (h : DroneRepo.Split p "/" = (owner, name, none)) :
    main.reposLoop fuel client fromDate toDate (p :: rest) releases trace =
      (findAllReleasesWithinRange fuel client owner name fromDate toDate 1).bind
        (fun w => main.reposLoop fuel client fromDate toDate rest
          (releases ++ w.1) (trace ++ w.2)) := by
  rw [main.reposLoop, h]
  dsimp only
  cases findAllReleasesWithinRange fuel client owner name fromDate toDate 1 with
  | none => rfl
  | some w => rfl

theorem main.reposLoop_cons_error (fuel : Nat) (client : Client) (fromDate toDate : Time)
    (p : String) (rest : List String) (releases : List Build) (trace : List Request)
    (h : ¬ Occurs "/" p) :
    main.reposLoop fuel client fromDate toDate (p :: rest) releases trace =
      some (.exit 1 splitErrorLine trace) := by
  rw [main.reposLoop, DroneRepo.Split_of_not_occurs p h]
  rfl

theorem walkRepos_cons (fuel : Nat) (client : Client) (fromDate toDate : Time)
    (owner name : String) (rest : List (String × String)) :
    walkRepos fuel client fromDate toDate ((owner, name) :: rest) =
      (findAllReleasesWithinRange fuel client owner name fromDate toDate 1).bind
        (fun w => (walkRepos fuel client fromDate toDate rest).map
          (fun out => (w.1 ++ out.1, w.2 ++ out.2))) := by
  rw [walkRepos]
  cases findAllReleasesWithinRange fuel client owner name fromDate toDate 1 with
  | none => rfl
  | some w => rfl

/-- The loop over well-formed pieces followed by further pieces: the walks over
the well-formed pieces run first, then the loop goes on with the rest. -/
theorem main.reposLoop_append (fuel : Nat) (client : Client) (fromDate toDate : Time)
    (pre tail : List String) (hpre : ∀ p ∈ pre, Occurs "/" p)
    (releases : List Build) (trace : List Request) :
    main.reposLoop fuel client fromDate toDate (pre ++ tail) releases trace =
      (walkRepos fuel client fromDate toDate (pre.map repoRef)).bind
        (fun out => main.reposLoop fuel client fromDate toDate tail
          (releases ++ out.1) (trace ++ out.2)) := by
  induction pre generalizing releases trace with
  | nil => simp [walkRepos]
  | cons p pre ih =>
    have hp := DroneRepo.Split_of_occurs p (hpre p (List.mem_cons_self _ _))
    have hrest : ∀ q ∈ pre, Occurs "/" q := fun q hq => hpre q (List.mem_cons_of_mem _ hq)
    rw [List.cons_append, main.reposLoop_cons_ok fuel client fromDate toDate p (pre ++ tail)
      releases trace _ _ hp, List.map_cons]
    have hw := walkRepos_cons fuel client fromDate toDate (repoRef p).1 (repoRef p).2
      (pre.map repoRef)
    rw [show ((repoRef p).1, (repoRef p).2) = repoRef p from rfl] at hw
    rw [hw]
    cases findAllReleasesWithinRange fuel client (repoRef p).1 (repoRef p).2
        fromDate toDate 1 with
    | none => rfl
    | some w =>
      simp only [Option.some_bind]
      rw [ih hrest]
      cases walkRepos fuel client fromDate toDate (pre.map repoRef) with
      | none => rfl
      | some others => simp [List.append_assoc]

theorem walkRepos_fuel_mono (fuel fuel' : Nat) (hle : fuel ≤ fuel') (client : Client)
    (fromDate toDate : Time) (refs : List (String × String))
    (out : List Build × List Request)
    (h : walkRepos fuel client fromDate toDate refs = some out) :
    walkRepos fuel' client fromDate toDate refs = some out := by
  induction refs generalizing out with
  | nil => rw [walkRepos] at h ⊢; exact h
  | cons r rest ih =>
    obtain ⟨owner, name⟩ := r
    rw [walkRepos_cons] at h ⊢
    cases hw : findAllReleasesWithinRange fuel client owner name fromDate toDate 1 with
    | none => rw [hw] at h; simp at h
    | some w =>
      rw [hw] at h
      rw [findAll_fuel_mono fuel fuel' hle client owner name fromDate toDate 1 w hw]
      simp only [Option.some_bind] at h ⊢
      cases hr : walkRepos fuel client fromDate toDate rest with
      | none => rw [hr] at h; simp at h
      | some others =>
        rw [hr] at h
        rw [ih others hr]
        exact h

/-- The walks over a list of repositories return as soon as each of them does. -/
theorem walkRepos_returns (client : Client) (fromDate toDate : Time)
    (refs : List (String × String))
    (h : ∀ r ∈ refs, ∃ fuel,
      findAllReleasesWithinRange fuel client r.1 r.2 fromDate toDate 1 ≠ none) :
    ∃ fuel out, walkRepos fuel client fromDate toDate refs = some out := by
  induction refs with
  | nil => exact ⟨0, ([], []), rfl⟩
  | cons r rest ih =>
    obtain ⟨owner, name⟩ := r
    obtain ⟨f1, hf1⟩ := h (owner, name) (List.mem_cons_self _ _)
    obtain ⟨f2, others, hf2⟩ := ih (fun r hr => h r (List.mem_cons_of_mem _ hr))
    obtain ⟨w, hw⟩ := Option.ne_none_iff_exists'.1 hf1
    refine ⟨max f1 f2, (w.1 ++ others.1, w.2 ++ others.2), ?_⟩
    rw [walkRepos_cons,
      findAll_fuel_mono f1 (max f1 f2) (le_max_left _ _) client owner name fromDate toDate 1 w hw,
      Option.some_bind,
      walkRepos_fuel_mono f2 (max f1 f2) (le_max_right _ _) client fromDate toDate rest others hf2]
    rfl

/-- A list of pieces that are not all well-formed has a first malformed one. -/
theorem exists_first_malformed (pieces : List String)
    (h : ¬ ∀ p ∈ pieces, Occurs "/" p) :
    ∃ pre bad post, pieces = pre ++ bad :: post ∧ (∀ p ∈ pre, Occurs "/" p) ∧
      ¬ Occurs "/" bad := by
  induction pieces with
  | nil => exact absurd (fun p hp => absurd hp (List.not_mem_nil p)) h
  | cons p rest ih =>
    by_cases hp : Occurs "/" p
    · have hrest : ¬ ∀ q ∈ rest, Occurs "/" q := by
        intro hall
        apply h
        intro q hq
        rcases List.mem_cons.1 hq with rfl | hq'
        · exact hp
        · exact hall q hq'
      obtain ⟨pre, bad, post, heq, hpre, hbad⟩ := ih hrest
      refine ⟨p :: pre, bad, post, by rw [heq]; rfl, ?_, hbad⟩
      intro q hq
      rcases List.mem_cons.1 hq with rfl | hq'
      · exact hp
      · exact hpre q hq'
    · exact ⟨[], p, rest, rfl, fun q hq => absurd hq (List.not_mem_nil q), hp⟩

/-- The run on a list whose pieces are all well-formed: the walks over the
repositories of the list, in order, then completion. -/
theorem main.releases_complete (fuel : Nat) (client : Client) (fromDate toDate : Time)
    (reposFlag : String) (h : ∀ p ∈ strings.Split reposFlag ",", Occurs "/" p) :
    main.releases fuel client fromDate toDate reposFlag =
      (walkRepos fuel client fromDate toDate ((strings.Split reposFlag ",").map repoRef)).map
        (fun out => Outcome.completed out.1 out.2) := by
  unfold main.releases
  have := main.reposLoop_append fuel client fromDate toDate (strings.Split reposFlag ",") []
    h [] []
  rw [List.append_nil] at this
  rw [this]
  cases walkRepos fuel client fromDate toDate ((strings.Split reposFlag ",").map repoRef) with
  | none => rfl
  | some out => simp [main.reposLoop]

/-- The run on a list with a malformed piece: the walks over the repositories
that stand before the first malformed piece, in order, then exit status 1. -/
theorem main.releases_abort (fuel : Nat) (client : Client) (fromDate toDate : Time)
    (reposFlag : String) (pre : List String) (bad : String) (post : List String)
    (hsplit : strings.Split reposFlag "," = pre ++ bad :: post)
    (hpre : ∀ p ∈ pre, Occurs "/" p) (hbad : ¬ Occurs "/" bad) :
    main.releases fuel client fromDate toDate reposFlag =
      (walkRepos fuel client fromDate toDate (pre.map repoRef)).map
        (fun out => Outcome.exit 1 splitErrorLine out.2) := by
  unfold main.releases
  rw [hsplit, main.reposLoop_append fuel client fromDate toDate pre (bad :: post) hpre [] []]
  cases walkRepos fuel client fromDate toDate (pre.map repoRef) with
  | none => rfl
  | some out =>
    simp only [Option.some_bind, Option.map_some']
    rw [main.reposLoop_cons_error fuel client fromDate toDate bad post _ _ hbad]
    simp

/-- Counterexample to C7 as stated: the second piece of the list is malformed,
and when the run aborts the three page requests for the first repository have
been issued. -/
theorem main_aborts_counterexample :
    strings.Split "a/b,bad" "," = ["a/b", "bad"] ∧ ¬ Occurs "/" "bad" ∧
    main.releases 3 (clientOfPages threePages) sampleFrom sampleTo "a/b,bad" =
      some (.exit 1 splitErrorLine
        [pageRequest "a" "b" 1, pageRequest "a" "b" 2, pageRequest "a" "b" 3]) :=
  ⟨by decide, (DroneRepo.Split_error_iff "bad" "/" (by decide)).1 (by decide), by decide⟩

/-- C7 (amended): when a piece of the `repos` flag contains no slash, the run
walks the repositories that stand before the first such piece and then aborts
with exit status 1; the trace at the abort holds requests for those
repositories only, the first page of each among them, and is empty when the
malformed piece is the first of the list, where the run aborts at once. -/
theorem main_aborts_on_malformed (client : Client) (fromDate toDate : Time)
    (reposFlag : String) (pre : List String) (bad : String) (post : List String)
    (hsplit : strings.Split reposFlag "," = pre ++ bad :: post)
    (hpre : ∀ p ∈ pre, Occurs "/" p) (hbad : ¬ Occurs "/" bad) :
    (∀ fuel, main.releases fuel client fromDate toDate reposFlag =
      (walkRepos fuel client fromDate toDate (pre.map repoRef)).map
        (fun out => Outcome.exit 1 splitErrorLine out.2)) ∧
    (∀ fuel out, main.releases fuel client fromDate toDate reposFlag = some out →
      ∃ trace, out = .exit 1 splitErrorLine trace ∧
        (∀ req ∈ trace, ∃ p ∈ pre, (req.owner, req.name) = repoRef p) ∧
        (∀ p ∈ pre, pageRequest (repoRef p).1 (repoRef p).2 1 ∈ trace)) ∧
    (pre = [] → ∀ fuel, main.releases fuel client fromDate toDate reposFlag =
      some (.exit 1 splitErrorLine [])) ∧
    ((∀ p ∈ pre, ∃ fuel, findAllReleasesWithinRange fuel client (repoRef p).1 (repoRef p).2
        fromDate toDate 1 ≠ none) →
      ∃ fuel trace, main.releases fuel client fromDate toDate reposFlag =
        some (.exit 1 splitErrorLine trace)) := by
  have heq := fun fuel => main.releases_abort fuel client fromDate toDate reposFlag pre bad post
    hsplit hpre hbad
  refine ⟨heq, ?_, ?_, ?_⟩
  · intro fuel out hout
    rw [heq fuel] at hout
    cases hw : walkRepos fuel client fromDate toDate (pre.map repoRef) with
    | none => rw [hw] at hout; simp at hout
    | some w =>
      rw [hw] at hout
      obtain ⟨h1, h2⟩ := walkRepos_trace fuel client fromDate toDate _ w hw
      refine ⟨w.2, (Option.some.inj hout).symm, ?_, ?_⟩
      · intro req hreq
        obtain ⟨p, hp, hpe⟩ := List.mem_map.1 (h1 req hreq)
        exact ⟨p, hp, hpe.symm⟩
      · intro p hp
        exact h2 (repoRef p) (List.mem_map_of_mem _ hp)
  · intro hnil fuel
    rw [heq fuel, hnil]
    rfl
  · intro hterm
    have hrefs : ∀ r ∈ pre.map repoRef, ∃ fuel,
        findAllReleasesWithinRange fuel client r.1 r.2 fromDate toDate 1 ≠ none := by
      intro r hr
      obtain ⟨p, hp, rfl⟩ := List.mem_map.1 hr
      exact hterm p hp
    obtain ⟨fuel, w, hw⟩ := walkRepos_returns client fromDate toDate _ hrefs
    exact ⟨fuel, w.2, by rw [heq fuel, hw]; rfl⟩

/-- Witness for C7 (amended): a list whose second piece is malformed. -/
theorem main_aborts_on_malformed_witness :
    strings.Split "a/b,bad" "," = ["a/b"] ++ "bad" :: [] ∧
    (∀ p ∈ ["a/b"], Occurs "/" p) ∧ ¬ Occurs "/" "bad" ∧
    ∀ fuel, main.releases fuel failingClient sampleFrom sampleTo "a/b,bad" =
      (walkRepos fuel failingClient sampleFrom sampleTo (["a/b"].map repoRef)).map
        (fun out => Outcome.exit 1 splitErrorLine out.2) :=
  have h1 : strings.Split "a/b,bad" "," = ["a/b"] ++ "bad" :: [] := by decide
  have h2 : ∀ p ∈ ["a/b"], Occurs "/" p := by
    intro p hp
    rw [List.mem_singleton] at hp
    subst hp
    exact ⟨"a", "b", by decide⟩
  have h3 : ¬ Occurs "/" "bad" :=
    (DroneRepo.Split_error_iff "bad" "/" (by decide)).1 (by decide)
  ⟨h1, h2, h3,
    (main_aborts_on_malformed failingClient sampleFrom sampleTo "a/b,bad" ["a/b"] "bad" []
      h1 h2 h3).1⟩

/-- C10: the repositories that `main` processes are the pieces of the `repos`
flag split on commas, untrimmed, each split on the slash, in order; the run
completes the list exactly when every piece contains a slash, and otherwise
aborts at the first piece that does not, after the walks over the pieces
before it; the empty string, a trailing comma and an empty piece abort. -/
theorem main_repository_list (client : Client) (fromDate toDate : Time)
    (reposFlag : String) :
    ((∀ p ∈ strings.Split reposFlag ",", Occurs "/" p) →
      ∀ fuel, main.releases fuel client fromDate toDate reposFlag =
        (walkRepos fuel client fromDate toDate
          ((strings.Split reposFlag ",").map repoRef)).map
          (fun out => Outcome.completed out.1 out.2)) ∧
    (∀ pre bad post, strings.Split reposFlag "," = pre ++ bad :: post →
      (∀ p ∈ pre, Occurs "/" p) → ¬ Occurs "/" bad →
      ∀ fuel, main.releases fuel client fromDate toDate reposFlag =
        (walkRepos fuel client fromDate toDate (pre.map repoRef)).map
          (fun out => Outcome.exit 1 splitErrorLine out.2)) ∧
    (∀ fuel out, main.releases fuel client fromDate toDate reposFlag = some out →
      ((∃ releases trace, out = .completed releases trace) ↔
        ∀ p ∈ strings.Split reposFlag ",", Occurs "/" p)) ∧
    ((∀ p ∈ strings.Split reposFlag ",", Occurs "/" p →
        ∃ fuel, findAllReleasesWithinRange fuel client (repoRef p).1 (repoRef p).2
          fromDate toDate 1 ≠ none) →
      ∃ fuel out, main.releases fuel client fromDate toDate reposFlag = some out) ∧
    (∀ fuel, main.releases fuel client fromDate toDate "" =
      some (.exit 1 splitErrorLine [])) ∧
    (∀ fuel, main.releases fuel client fromDate toDate "a/b," =
      (walkRepos fuel client fromDate toDate [("a", "b")]).map
        (fun out => Outcome.exit 1 splitErrorLine out.2)) ∧
    (∀ fuel, main.releases fuel client fromDate toDate "a/b,,c/d" =
      (walkRepos fuel client fromDate toDate [("a", "b")]).map
        (fun out => Outcome.exit 1 splitErrorLine out.2)) ∧
    strings.Split "a/b, c/d" "," = ["a/b", " c/d"] ∧ repoRef " c/d" = (" c", "d") := by
  have hab : ∀ p ∈ ["a/b"], Occurs "/" p := by
    intro p hp
    rw [List.mem_singleton] at hp
    subst hp
    exact ⟨"a", "b", by decide⟩
  have hempty : ¬ Occurs "/" "" :=
    (DroneRepo.Split_error_iff "" "/" (by decide)).1 (by decide)
  refine ⟨fun h fuel => main.releases_complete fuel client fromDate toDate reposFlag h,
    fun pre bad post hsplit hpre hbad fuel =>
      main.releases_abort fuel client fromDate toDate reposFlag pre bad post hsplit hpre hbad,
    ?_, ?_, ?_, ?_, ?_, by decide, by decide⟩
  · intro fuel out hout
    by_cases hall : ∀ p ∈ strings.Split reposFlag ",", Occurs "/" p
    · rw [main.releases_complete fuel client fromDate toDate reposFlag hall] at hout
      cases hw : walkRepos fuel client fromDate toDate
          ((strings.Split reposFlag ",").map repoRef) with
      | none => rw [hw] at hout; simp at hout
      | some w =>
        rw [hw] at hout
        exact ⟨fun _ => hall, fun _ => ⟨w.1, w.2, (Option.some.inj hout).symm⟩⟩
    · obtain ⟨pre, bad, post, hsplit, hpre, hbad⟩ := exists_first_malformed _ hall
      rw [main.releases_abort fuel client fromDate toDate reposFlag pre bad post hsplit hpre
        hbad] at hout
      cases hw : walkRepos fuel client fromDate toDate (pre.map repoRef) with
      | none => rw [hw] at hout; simp at hout
      | some w =>
        rw [hw] at hout
        constructor
        · rintro ⟨releases, trace, rfl⟩
          simp at hout
        · intro h
          exact absurd h hall
  · intro hterm
    by_cases hall : ∀ p ∈ strings.Split reposFlag ",", Occurs "/" p
    · have hrefs : ∀ r ∈ (strings.Split reposFlag ",").map repoRef, ∃ fuel,
          findAllReleasesWithinRange fuel client r.1 r.2 fromDate toDate 1 ≠ none := by
        intro r hr
        obtain ⟨p, hp, rfl⟩ := List.mem_map.1 hr
        exact hterm p hp (hall p hp)
      obtain ⟨fuel, w, hw⟩ := walkRepos_returns client fromDate toDate _ hrefs
      exact ⟨fuel, _, by
        rw [main.releases_complete fuel client fromDate toDate reposFlag hall, hw]; rfl⟩
    · obtain ⟨pre, bad, post, hsplit, hpre, hbad⟩ := exists_first_malformed _ hall
      have hrefs : ∀ r ∈ pre.map repoRef, ∃ fuel,
          findAllReleasesWithinRange fuel client r.1 r.2 fromDate toDate 1 ≠ none := by
        intro r hr
        obtain ⟨p, hp, rfl⟩ := List.mem_map.1 hr
        exact hterm p (by rw [hsplit]; exact List.mem_append_left _ hp) (hpre p hp)
      obtain ⟨fuel, w, hw⟩ := walkRepos_returns client fromDate toDate _ hrefs
      exact ⟨fuel, _, by
        rw [main.releases_abort fuel client fromDate toDate reposFlag pre bad post hsplit hpre
          hbad, hw]; rfl⟩
  · intro fuel
    rw [main.releases_abort fuel client fromDate toDate "" [] "" [] (by decide)
      (fun p hp => absurd hp (List.not_mem_nil p)) hempty]
    rfl
  · intro fuel
    exact main.releases_abort fuel client fromDate toDate "a/b," ["a/b"] "" [] (by decide)
      hab hempty
  · intro fuel
    exact main.releases_abort fuel client fromDate toDate "a/b,,c/d" ["a/b"] "" ["c/d"]
      (by decide) hab hempty

/-- Witness for C10: a well-formed list of two repositories, the second one
with a leading blank that stays in its namespace. -/
theorem main_repository_list_witness :
    (∀ p ∈ strings.Split "a/b, c/d" ",", Occurs "/" p) ∧
    ∀ fuel, main.releases fuel failingClient sampleFrom sampleTo "a/b, c/d" =
      (walkRepos fuel failingClient sampleFrom sampleTo
        ((strings.Split "a/b, c/d" ",").map repoRef)).map
        (fun out => Outcome.completed out.1 out.2) :=
  have h : ∀ p ∈ strings.Split "a/b, c/d" ",", Occurs "/" p := by
    intro p hp
    have hs : strings.Split "a/b, c/d" "," = ["a/b", " c/d"] := by decide
    rw [hs] at hp
    rcases List.mem_cons.1 hp with rfl | hp'
    · exact ⟨"a", "b", by decide⟩
    · rw [List.mem_singleton] at hp'
      subst hp'
      exact ⟨" c", "d", by decide⟩
  ⟨h, (main_repository_list failingClient sampleFrom sampleTo "a/b, c/d").1 h⟩

/-! ## The calendar -/

set_option maxRecDepth 4000

theorem wrapUint64_id (x : Int) (h0 : 0 ≤ x) (h1 : x < 2 ^ 64) : wrapUint64 x = x := by
  unfold wrapUint64
  omega

theorem wrapInt64_id (x : Int) (h0 : -2 ^ 63 ≤ x) (h1 : x < 2 ^ 63) : wrapInt64 x = x := by
  unfold wrapInt64
  omega

/-- The days before a year, in closed form, for the years whose day count fits
the counter. -/
theorem time.daysSinceEpoch_closed (year : Int) (h0 : 0 ≤ year - absoluteZeroYear)
    (h1 : year - absoluteZeroYear ≤ 600000000000) :
    daysSinceEpoch year =
      365 * (year - absoluteZeroYear) + (year - absoluteZeroYear) / 4 -
        (year - absoluteZeroYear) / 100 + (year - absoluteZeroYear) / 400 := by
  unfold daysSinceEpoch
  generalize year - absoluteZeroYear = y at h0 h1
  simp only []
  rw [wrapUint64_id y h0 (by omega)]
  generalize hn1 : y / 400 = n1
  generalize hy1 : y - 400 * n1 = y1
  rw [wrapUint64_id (146097 * n1) (by omega) (by omega)]
  generalize hn2 : y1 / 100 = n2
  generalize hy2 : y1 - 100 * n2 = y2
  rw [wrapUint64_id (146097 * n1 + 36524 * n2) (by omega) (by omega)]
  generalize hn3 : y2 / 4 = n3
  generalize hy3 : y2 - 4 * n3 = y3
  rw [wrapUint64_id (146097 * n1 + 36524 * n2 + 1461 * n3) (by omega) (by omega)]
  rw [wrapUint64_id (146097 * n1 + 36524 * n2 + 1461 * n3 + 365 * y3) (by omega) (by omega)]
  omega

/-- The cycles that `absDate` cuts off a count of seconds. -/
theorem time.absDate_cycles (abs : Int) :
    ∃ n1 n2 n3 n4 d4 : Int,
      absDate abs = (400 * n1 + 100 * n2 + 4 * n3 + n4 + absoluteZeroYear, d4) ∧
      0 ≤ n2 ∧ n2 ≤ 3 ∧ 0 ≤ n3 ∧ n3 ≤ 24 ∧ 0 ≤ n4 ∧ n4 ≤ 3 ∧ 0 ≤ d4 ∧
      abs / 86400 = 146097 * n1 + 36524 * n2 + 1461 * n3 + 365 * n4 + d4 ∧
      (d4 ≤ 364 ∨ (d4 = 365 ∧ n4 = 3 ∧ (n3 < 24 ∨ n2 = 3))) := by
  unfold absDate
  simp only []
  generalize abs / 86400 = days
  generalize hn1 : days / 146097 = n1
  generalize hd1 : days - 146097 * n1 = d1
  have b1 : 0 ≤ d1 ∧ d1 < 146097 := by omega
  generalize hn2 : d1 / 36524 = n2r
  have b2 : 0 ≤ n2r ∧ n2r ≤ 4 := by omega
  generalize hn2' : n2r - n2r / 4 = n2
  have b2' : 0 ≤ n2 ∧ n2 ≤ 3 ∧ (n2r = 4 → n2 = 3) ∧ (n2r < 4 → n2 = n2r) := by omega
  generalize hd2 : d1 - 36524 * n2 = d2
  have b3 : 0 ≤ d2 ∧ d2 ≤ 36524 ∧ (d2 = 36524 → n2 = 3) := by omega
  generalize hn3 : d2 / 1461 = n3
  have b4 : 0 ≤ n3 ∧ n3 ≤ 24 := by omega
  generalize hd3 : d2 - 1461 * n3 = d3
  have b5 : 0 ≤ d3 ∧ d3 ≤ 1460 ∧ (d3 = 1460 → n3 < 24 ∨ n2 = 3) := by omega
  generalize hn4 : d3 / 365 = n4r
  have b6 : 0 ≤ n4r ∧ n4r ≤ 4 := by omega
  generalize hn4' : n4r - n4r / 4 = n4
  have b6' : 0 ≤ n4 ∧ n4 ≤ 3 ∧ (n4r = 4 → n4 = 3) ∧ (n4r < 4 → n4 = n4r) := by omega
  refine ⟨n1, n2, n3, n4, d3 - 365 * n4, rfl, ?_⟩
  omega

/-- The year and the day of the year that `absDate` returns put the day
number back together, and the day lies within the year. -/
theorem time.absDate_spec (abs : Int) (h0 : 0 ≤ abs) (h1 : abs < 2 ^ 64) :
    0 ≤ (absDate abs).1 - absoluteZeroYear ∧
    (absDate abs).1 - absoluteZeroYear ≤ 600000000000 ∧
    daysSinceEpoch (absDate abs).1 + (absDate abs).2 = abs / 86400 ∧ 0 ≤ (absDate abs).2 ∧
      (absDate abs).2 < (if isLeap (absDate abs).1 = true then 366 else 365) := by
  obtain ⟨n1, n2, n3, n4, d4, h, h2⟩ := time.absDate_cycles abs
  have hy0 : 0 ≤ 400 * n1 + 100 * n2 + 4 * n3 + n4 := by omega
  have hy1 : 400 * n1 + 100 * n2 + 4 * n3 + n4 ≤ 600000000000 := by omega
  rw [h]
  simp only []
  rw [time.daysSinceEpoch_closed _ (by omega) (by omega)]
  unfold isLeap absoluteZeroYear
  refine ⟨by omega, by omega, ?_⟩
  split_ifs with hl <;> simp only [decide_eq_true_eq] at hl <;> omega

/-- A later year starts after the earlier year has ended. -/
theorem time.daysSinceEpoch_mono (y1 y2 : Int) (h : y1 < y2)
    (h0 : 0 ≤ y1 - absoluteZeroYear) (h1 : y2 - absoluteZeroYear ≤ 600000000000) :
    daysSinceEpoch y1 + (if isLeap y1 = true then 366 else 365) ≤ daysSinceEpoch y2 := by
  rw [time.daysSinceEpoch_closed y1 h0 (by omega), time.daysSinceEpoch_closed y2 (by omega) h1]
  unfold isLeap
  unfold absoluteZeroYear at *
  split_ifs with hl <;> simp only [decide_eq_true_eq] at hl <;> omega

/-- The next year starts when the year has ended. -/
theorem time.daysSinceEpoch_succ (year : Int) (h0 : 0 ≤ year - absoluteZeroYear)
    (h1 : year + 1 - absoluteZeroYear ≤ 600000000000) :
    daysSinceEpoch (year + 1) =
      daysSinceEpoch year + (if isLeap year = true then 366 else 365) := by
  rw [time.daysSinceEpoch_closed year h0 (by omega),
    time.daysSinceEpoch_closed (year + 1) (by omega) h1]
  unfold isLeap
  unfold absoluteZeroYear at *
  split_ifs with hl <;> simp only [decide_eq_true_eq] at hl <;> omega

/-- A second of the day `yday` of the year `year` is found again by
`absDate`. -/
theorem time.absDate_unique (year yday s : Int) (hy0 : 0 ≤ year - absoluteZeroYear)
    (hy1 : year - absoluteZeroYear ≤ 500000000000) (h0 : 0 ≤ yday)
    (h1 : yday < (if isLeap year = true then 366 else 365)) (hs0 : 0 ≤ s) (hs1 : s < 86400) :
    absDate ((daysSinceEpoch year + yday) * 86400 + s) = (year, yday) := by
  have hc := time.daysSinceEpoch_closed year hy0 (by omega)
  have hlen : (if isLeap year = true then (366 : Int) else 365) ≤ 366 := by split_ifs <;> omega
  have hA0 : 0 ≤ (daysSinceEpoch year + yday) * 86400 + s := by omega
  have hA1 : (daysSinceEpoch year + yday) * 86400 + s < 2 ^ 64 := by omega
  obtain ⟨hr0, hr1, hs, hlo, hhi⟩ := time.absDate_spec _ hA0 hA1
  have hdiv : ((daysSinceEpoch year + yday) * 86400 + s) / 86400 = daysSinceEpoch year + yday := by
    omega
  rw [hdiv] at hs
  generalize absDate ((daysSinceEpoch year + yday) * 86400 + s) = r at hr0 hr1 hs hlo hhi
  obtain ⟨y', k'⟩ := r
  simp only at hr0 hr1 hs hlo hhi
  have hy : y' = year := by
    rcases lt_trichotomy y' year with hlt | heq | hgt
    · have := time.daysSinceEpoch_mono y' year hlt hr0 (by omega)
      omega
    · exact heq
    · have := time.daysSinceEpoch_mono year y' hgt hy0 hr1
      omega
  subst hy
  have hk : k' = yday := by omega
  rw [hk]

/-- The month and the day that `monthDay` returns for a day of the year: the
month is one of the twelve, and the days before the month plus the day of the
month give the day of the year back. -/
theorem time.monthDay_spec (leap : Bool) (yday : Int) (h0 : 0 ≤ yday)
    (h1 : yday < (if leap = true then 366 else 365)) :
    1 ≤ (monthDay leap yday).1 ∧ (monthDay leap yday).1 ≤ 12 ∧ 1 ≤ (monthDay leap yday).2 ∧
      daysBefore ((monthDay leap yday).1 - 1) +
          (if leap = true ∧ 3 ≤ (monthDay leap yday).1 then 1 else 0) +
          ((monthDay leap yday).2 - 1) = yday ∧
      yday < daysBefore (monthDay leap yday).1 +
          (if leap = true ∧ 2 ≤ (monthDay leap yday).1 then 1 else 0) := by
  cases leap
  · simp only [Bool.false_eq_true, if_false] at h1
    interval_cases yday <;> decide
  · simp only [if_true] at h1
    interval_cases yday <;> decide

/-! ## Zone lookups -/

theorem time.le_foldr_max (xs : List Nat) (x : Nat) (h : x ∈ xs) : x ≤ xs.foldr max 0 := by
  induction xs with
  | nil => cases h
  | cons a as ih =>
    simp only [List.foldr_cons]
    rcases List.mem_cons.1 h with rfl | h'
    · exact le_max_left _ _
    · exact le_trans (ih h') (le_max_right _ _)

theorem time.Location.maxOffset_nonneg (l : Location) : 0 ≤ l.maxOffset := by
  unfold Location.maxOffset
  omega

/-- The offset of a zone of a location is at most the largest offset in
size. -/
theorem time.Location.zoneAt_offset (l : Location) (i : Nat) :
    -l.maxOffset ≤ (l.zoneAt i).offset ∧ (l.zoneAt i).offset ≤ l.maxOffset := by
  unfold Location.zoneAt Location.maxOffset
  by_cases hi : i < l.zone.length
  · rw [List.getD_eq_getElem _ _ hi]
    have hmem : (l.zone[i]).offset.natAbs ∈ l.zone.map (fun z => z.offset.natAbs) :=
      List.mem_map.2 ⟨l.zone[i], List.getElem_mem _, rfl⟩
    have := time.le_foldr_max _ _ hmem
    omega
  · rw [List.getD_eq_default _ _ (by omega)]
    simp only []
    omega

/-- The offset that a lookup returns is at most the largest offset in size. -/
theorem time.Location.lookup_offset (l : Location) (sec : Int) :
    -l.maxOffset ≤ (l.lookup sec).offset ∧ (l.lookup sec).offset ≤ l.maxOffset := by
  have h0 := l.maxOffset_nonneg
  unfold Location.lookup
  split_ifs with hz
  · simp only []
    omega
  · split
    · exact l.zoneAt_offset _
    · split_ifs
      · exact l.zoneAt_offset _
      · exact l.zoneAt_offset _

/-- The transitions of a regular location are in the strict order of time, more
than twice the largest offset apart. -/
theorem time.Location.Regular.apart (l : Location) (h : l.Regular) (i j : Nat) (hij : i < j)
    (hj : j < l.tx.length) : (l.txAt i).when + 2 * l.maxOffset < (l.txAt j).when := by
  unfold Location.txAt
  rw [List.getD_eq_getElem _ _ (by omega), List.getD_eq_getElem _ _ hj]
  exact List.pairwise_iff_getElem.1 h.2 i j (by omega) hj hij

theorem time.Location.txAt_mem (l : Location) (i : Nat) (hi : i < l.tx.length) :
    l.txAt i ∈ l.tx := by
  unfold Location.txAt
  rw [List.getD_eq_getElem _ _ hi]
  exact List.getElem_mem _

/-- Two transitions of a regular location at different times are more than
twice the largest offset apart. -/
theorem time.Location.Regular.apart_mem (l : Location) (h : l.Regular) (a b : zoneTrans)
    (ha : a ∈ l.tx) (hb : b ∈ l.tx) (hab : a.when < b.when) :
    a.when + 2 * l.maxOffset < b.when := by
  have h0 := l.maxOffset_nonneg
  obtain ⟨i, hi, rfl⟩ := List.getElem_of_mem ha
  obtain ⟨j, hj, rfl⟩ := List.getElem_of_mem hb
  have e1 : l.txAt i = l.tx[i] := by
    unfold Location.txAt
    rw [List.getD_eq_getElem _ _ hi]
  have e2 : l.txAt j = l.tx[j] := by
    unfold Location.txAt
    rw [List.getD_eq_getElem _ _ hj]
  rw [← e1, ← e2] at hab ⊢
  rcases lt_trichotomy i j with hlt | heq | hgt
  · exact h.apart l i j hlt hj
  · subst heq
    omega
  · have := h.apart l j i hgt hi
    omega

/-- The binary search of `lookup` ends at the index `k` of a transition at or
before `sec` such that the next transition, if there is one, is after `sec`;
the end of the span is the time of that next transition. -/
theorem time.Location.search_spec (l : Location) (sec : Int) :
    ∀ (fuel lo hi : Nat) (end_ : Int), lo < hi → hi ≤ l.tx.length → hi - lo ≤ fuel →
      (l.txAt lo).when ≤ sec → (hi < l.tx.length → sec < (l.txAt hi).when ∧ end_ = (l.txAt hi).when) →
      (hi = l.tx.length → end_ = omega) →
      (l.search sec fuel lo hi end_).1 < l.tx.length ∧
      (l.txAt (l.search sec fuel lo hi end_).1).when ≤ sec ∧
      ((l.search sec fuel lo hi end_).1 + 1 < l.tx.length →
        sec < (l.txAt ((l.search sec fuel lo hi end_).1 + 1)).when ∧
        (l.search sec fuel lo hi end_).2 = (l.txAt ((l.search sec fuel lo hi end_).1 + 1)).when) ∧
      ((l.search sec fuel lo hi end_).1 + 1 = l.tx.length →
        (l.search sec fuel lo hi end_).2 = omega) := by
  intro fuel
  induction fuel with
  | zero =>
    intro lo hi end_ h1 h2 h3
    omega
  | succ fuel ih =>
    intro lo hi end_ h1 h2 h3 h4 h5 h6
    unfold Location.search
    by_cases hgap : hi - lo > 1
    · rw [if_pos hgap]
      simp only []
      have hm1 : lo < (lo + hi) / 2 := by omega
      have hm2 : (lo + hi) / 2 < hi := by omega
      by_cases hlt : sec < (l.txAt ((lo + hi) / 2)).when
      · rw [if_pos hlt]
        exact ih lo ((lo + hi) / 2) _ hm1 (by omega) (by omega) h4 (fun _ => ⟨hlt, rfl⟩)
          (fun h => by omega)
      · rw [if_neg hlt]
        exact ih ((lo + hi) / 2) hi end_ hm2 h2 (by omega) (by omega) h5 h6
    · rw [if_neg hgap]
      have hhi : hi = lo + 1 := by omega
      subst hhi
      exact ⟨by omega, h4, h5, h6⟩

/-- The span that a lookup in a regular location returns holds the second that
was looked up, every second of the span gives the same lookup, and the span is
bounded by transitions of the location or by the ends of time. -/
theorem time.Location.lookup_span (l : Location) (h : l.Regular) (sec : Int)
    (h0 : alpha ≤ sec) (h1 : sec < omega) :
    (l.lookup sec).start ≤ sec ∧ sec < (l.lookup sec).end_ ∧
    (∀ v, (l.lookup sec).start ≤ v → v < (l.lookup sec).end_ → l.lookup v = l.lookup sec) ∧
    ((l.lookup sec).start = alpha ∨ ∃ a ∈ l.tx, (l.lookup sec).start = a.when) ∧
    ((l.lookup sec).end_ = omega ∨ ∃ a ∈ l.tx, (l.lookup sec).end_ = a.when) := by
  have hM := l.maxOffset_nonneg
  unfold Location.lookup
  split_ifs with hz
  · exact ⟨h0, h1, fun _ _ _ => rfl, Or.inl rfl, Or.inl rfl⟩
  · cases htx : l.tx with
    | nil => exact ⟨h0, h1, fun _ _ _ => rfl, Or.inl rfl, Or.inl rfl⟩
    | cons tx0 rest =>
      simp only []
      have hlen : 0 < l.tx.length := by rw [htx]; simp
      have h00 : l.txAt 0 = tx0 := by
        unfold Location.txAt
        rw [htx]
        rfl
      have hmem0 : tx0 ∈ l.tx := by rw [htx]; exact List.mem_cons_self _ _
      by_cases hfirst : sec < tx0.when
      · rw [if_pos hfirst]
        refine ⟨h0, hfirst, ?_, Or.inl rfl, Or.inr ⟨tx0, by simp, rfl⟩⟩
        intro v _ hv
        simp only at hv
        rw [if_pos hv]
      · rw [if_neg hfirst]
        simp only []
        have hlen' : (tx0 :: rest).length = l.tx.length := by rw [htx]
        rw [hlen']
        obtain ⟨s1, s2, s3, s4⟩ := l.search_spec sec l.tx.length 0 l.tx.length omega hlen
          (le_refl _) (by omega) (by rw [h00]; omega) (fun hh => by omega) (fun _ => rfl)
        generalize l.search sec l.tx.length 0 l.tx.length omega = r at s1 s2 s3 s4
        obtain ⟨k, e⟩ := r
        simp only at s1 s2 s3 s4 ⊢
        have hend : sec < e := by
          by_cases hk : k + 1 < l.tx.length
          · rw [(s3 hk).2]; exact (s3 hk).1
          · rw [s4 (by omega)]; exact h1
        refine ⟨s2, hend, ?_, Or.inr ⟨l.txAt k, by rw [← htx]; exact l.txAt_mem k s1, rfl⟩, ?_⟩
        · intro v hv1 hv2
          have hv0 : ¬ v < tx0.when := by
            rw [← h00]
            by_cases hk0 : k = 0
            · subst hk0; omega
            · have := h.apart l 0 k (by omega) s1
              omega
          rw [if_neg hv0]
          obtain ⟨r1, r2, r3, r4⟩ := l.search_spec v l.tx.length 0 l.tx.length omega hlen
            (le_refl _) (by omega) (by rw [h00]; omega) (fun hh => by omega) (fun _ => rfl)
          generalize l.search v l.tx.length 0 l.tx.length omega = r' at r1 r2 r3 r4
          obtain ⟨k', e'⟩ := r'
          simp only at r1 r2 r3 r4 ⊢
          have hk : k' = k := by
            rcases lt_trichotomy k' k with hlt | heq | hgt
            · have a1 := r3 (by omega)
              have a2 : (l.txAt (k' + 1)).when ≤ (l.txAt k).when := by
                by_cases hkk : k' + 1 = k
                · rw [hkk]
                · have := h.apart l (k' + 1) k (by omega) s1
                  omega
              omega
            · exact heq
            · have a1 := s3 (by omega)
              have a2 : (l.txAt (k + 1)).when ≤ (l.txAt k').when := by
                by_cases hkk : k + 1 = k'
                · rw [hkk]
                · have := h.apart l (k + 1) k' (by omega) r1
                  omega
              omega
          subst hk
          have he : e' = e := by
            by_cases hk : k' + 1 < l.tx.length
            · rw [(s3 hk).2, (r3 hk).2]
            · rw [s4 (by omega), r4 (by omega)]
          rw [he]
        · by_cases hk : k + 1 < l.tx.length
          · exact Or.inr ⟨l.txAt (k + 1), by rw [← htx]; exact l.txAt_mem _ hk, (s3 hk).2⟩
          · exact Or.inl (s4 (by omega))

/-- Two ends of spans of a regular location that are times of transitions are
more than twice the largest offset apart. -/
theorem time.Location.Regular.ends_apart (l : Location) (h : l.Regular) (x y : Int)
    (hx : (x = alpha ∨ ∃ a ∈ l.tx, x = a.when) ∨ (x = omega ∨ ∃ a ∈ l.tx, x = a.when))
    (hy : (y = alpha ∨ ∃ a ∈ l.tx, y = a.when) ∨ (y = omega ∨ ∃ a ∈ l.tx, y = a.when))
    (hx1 : x ≠ alpha) (hx2 : x ≠ omega) (hy1 : y ≠ alpha) (hy2 : y ≠ omega) (hxy : x < y) :
    x + 2 * l.maxOffset < y := by
  have ex : ∃ a ∈ l.tx, x = a.when := by
    rcases hx with (hx | hx) | (hx | hx)
    · exact absurd hx hx1
    · exact hx
    · exact absurd hx hx2
    · exact hx
  have ey : ∃ a ∈ l.tx, y = a.when := by
    rcases hy with (hy | hy) | (hy | hy)
    · exact absurd hy hy1
    · exact hy
    · exact absurd hy hy2
    · exact hy
  obtain ⟨a, ha, rfl⟩ := ex
  obtain ⟨b, hb, rfl⟩ := ey
  exact h.apart_mem l a b ha hb hxy

/-- In a regular location `time.Date` finds every local time that the clock of
the location shows: when the clock reads the wall-clock second `unix` at some
instant `u`, it reads `unix` at the instant `unix - dateOffset unix` that
`time.Date` settles on. -/
theorem time.Location.dateOffset_spec (l : Location) (h : l.Regular) (unix : Int)
    (h0 : -2 ^ 63 + 2 ^ 32 ≤ unix) (h1 : unix ≤ 2 ^ 63 - 2 ^ 32)
    (u : Int) (hu0 : alpha ≤ u) (hu1 : u < omega) (hu : u + (l.lookup u).offset = unix) :
    (l.lookup (unix - l.dateOffset unix)).offset = l.dateOffset unix := by
  have hM := l.maxOffset_nonneg
  have hM2 := h.1
  obtain ⟨f1, f2, f3, f4, f5⟩ := l.lookup_span h unix (by unfold alpha; omega)
    (by unfold omega; omega)
  have fo := l.lookup_offset unix
  have uo := l.lookup_offset u
  unfold Location.dateOffset
  simp only []
  by_cases ho : (l.lookup unix).offset ≠ 0
  · rw [if_pos ho, wrapInt64_id _ (by omega) (by omega)]
    by_cases hout : unix - (l.lookup unix).offset < (l.lookup unix).start ∨
        unix - (l.lookup unix).offset ≥ (l.lookup unix).end_
    · rw [if_pos hout]
      obtain ⟨g1, g2, g3, g4, g5⟩ := l.lookup_span h (unix - (l.lookup unix).offset)
        (by unfold alpha; omega) (by unfold omega; omega)
      have s1 := fun (_ : Unit) => h.ends_apart l _ _ (Or.inl f4) (Or.inr f5)
      have s2 := fun (_ : Unit) => h.ends_apart l _ _ (Or.inr g5) (Or.inl f4)
      have s4 := fun (_ : Unit) => h.ends_apart l _ _ (Or.inr f5) (Or.inl g4)
      have s5 := fun (_ : Unit) => h.ends_apart l _ _ (Or.inl g4) (Or.inl f4)
      have s6 := fun (_ : Unit) => h.ends_apart l _ _ (Or.inr f5) (Or.inr g5)
      clear f4 f5 g4 g5
      have hnotF : ¬ ((l.lookup unix).start ≤ u ∧ u < (l.lookup unix).end_) := by
        rintro ⟨a1, a2⟩
        have := f3 u a1 a2
        rw [this] at hu
        omega
      have hne : l.lookup (unix - (l.lookup unix).offset) ≠ l.lookup unix := by
        intro e
        rw [e] at g1 g2
        omega
      have hdisj : (l.lookup (unix - (l.lookup unix).offset)).end_ ≤ (l.lookup unix).start ∨
          (l.lookup unix).end_ ≤ (l.lookup (unix - (l.lookup unix).offset)).start := by
        by_contra hc
        simp only [not_or, not_le] at hc
        by_cases hcase : (l.lookup (unix - (l.lookup unix).offset)).start ≤ (l.lookup unix).start
        · have e1 := g3 (l.lookup unix).start hcase hc.1
          have e2 := f3 (l.lookup unix).start (le_refl _) (by omega)
          exact hne (e1.symm.trans e2)
        · have e1 := f3 (l.lookup (unix - (l.lookup unix).offset)).start (by omega) hc.2
          have e2 := g3 (l.lookup (unix - (l.lookup unix).offset)).start (le_refl _) (by omega)
          exact hne (e2.symm.trans e1)
      clear f3 hne
      have key : (l.lookup (unix - (l.lookup unix).offset)).start ≤ u ∧
          u < (l.lookup (unix - (l.lookup unix).offset)).end_ := by
        unfold alpha omega at *
        rcases hout with hA | hB
        · have d1 : (l.lookup (unix - (l.lookup unix).offset)).end_ ≤ (l.lookup unix).start := by
            omega
          have d2 : (l.lookup (unix - (l.lookup unix).offset)).end_ = (l.lookup unix).start := by
            by_contra hne
            have := s2 () (by omega) (by omega) (by omega) (by omega) (by omega)
            omega
          have d3 : u < (l.lookup unix).start := by
            by_contra hc
            have := s1 () (by omega) (by omega) (by omega) (by omega) (by omega)
            omega
          refine ⟨?_, by omega⟩
          by_contra hc
          have := s5 () (by omega) (by omega) (by omega) (by omega) (by omega)
          omega
        · have d1 : (l.lookup unix).end_ ≤ (l.lookup (unix - (l.lookup unix).offset)).start := by
            omega
          have d2 : (l.lookup (unix - (l.lookup unix).offset)).start = (l.lookup unix).end_ := by
            by_contra hne
            have := s4 () (by omega) (by omega) (by omega) (by omega) (by omega)
            omega
          have d3 : (l.lookup unix).end_ ≤ u := by
            by_contra hc
            have := s1 () (by omega) (by omega) (by omega) (by omega) (by omega)
            omega
          refine ⟨by omega, ?_⟩
          by_contra hc
          have := s6 () (by omega) (by omega) (by omega) (by omega) (by omega)
          omega
      have key2 := g3 u key.1 key.2
      rw [← key2]
      have hux : unix - (l.lookup u).offset = u := by omega
      rw [hux]
    · rw [if_neg hout]
      have := f3 (unix - (l.lookup unix).offset) (by omega) (by omega)
      rw [this]
  · rw [if_neg ho]
    have : (l.lookup unix).offset = 0 := by
      by_contra hc
      exact ho hc
    rw [sub_zero, this]

/-! ## Dates and clocks -/

theorem time.wrapUint64_range (x : Int) : 0 ≤ wrapUint64 x ∧ wrapUint64 x < 2 ^ 64 := by
  unfold wrapUint64
  omega

theorem time.wrapInt64_range (x : Int) : -2 ^ 63 ≤ wrapInt64 x ∧ wrapInt64 x < 2 ^ 63 := by
  unfold wrapInt64
  omega

theorem time.Zoned.abs_range (t : Zoned) : 0 ≤ t.abs ∧ t.abs < 2 ^ 64 := by
  unfold Zoned.abs
  exact time.wrapUint64_range _

/-- The year and the day of the year depend on the day number only. -/
theorem time.absDate_congr (a b : Int) (h : a / 86400 = b / 86400) : absDate a = absDate b := by
  unfold absDate
  simp only []
  rw [h]

/-- Two times on the same day number have the same date. -/
theorem time.Zoned.Date_eq_of_day (t u : Zoned) (h : t.abs / 86400 = u.abs / 86400) :
    t.Date = u.Date := by
  unfold Zoned.Date
  rw [time.absDate_congr _ _ h]

/-- What `t.Date()` returns, in terms of the day number of `t`. -/
theorem time.Zoned.Date_spec (t : Zoned) :
    ∃ year month day yday : Int, t.Date = (year, month, day) ∧
      1 ≤ month ∧ month ≤ 12 ∧ 1 ≤ day ∧
      0 ≤ year - absoluteZeroYear ∧ year - absoluteZeroYear ≤ 600000000000 ∧
      t.abs / 86400 = daysSinceEpoch year + yday ∧
      daysBefore (month - 1) + (if isLeap year = true ∧ 3 ≤ month then 1 else 0) +
        (day - 1) = yday ∧
      yday < daysBefore month + (if isLeap year = true ∧ 2 ≤ month then 1 else 0) := by
  obtain ⟨hr0, hr1, hs, hlo, hhi⟩ := time.absDate_spec t.abs t.abs_range.1 t.abs_range.2
  obtain ⟨m1, m2, m3, m4, m5⟩ :=
    time.monthDay_spec (isLeap (absDate t.abs).1) (absDate t.abs).2 hlo hhi
  exact ⟨(absDate t.abs).1,
    (monthDay (isLeap (absDate t.abs).1) (absDate t.abs).2).1,
    (monthDay (isLeap (absDate t.abs).1) (absDate t.abs).2).2,
    (absDate t.abs).2, rfl, m1, m2, m3, hr0, hr1, hs.symm, m4, m5⟩

/-- The day number of `t` is fixed by the date of `t`. -/
theorem time.Zoned.day_eq_of_Date (t u : Zoned) (h : t.Date = u.Date) :
    t.abs / 86400 = u.abs / 86400 := by
  obtain ⟨y, m, d, yd, hd, -, -, -, -, -, h4, h5, -⟩ := time.Zoned.Date_spec t
  obtain ⟨y', m', d', yd', hd', -, -, -, -, -, h4', h5', -⟩ := time.Zoned.Date_spec u
  rw [hd, hd'] at h
  obtain ⟨rfl, h'⟩ := Prod.mk.inj h
  obtain ⟨rfl, rfl⟩ := Prod.mk.inj h'
  rw [h4, h4', ← h5, ← h5']

/-- Within the range, no counter of `t.abs()` wraps: the clock of the location
has counted the seconds of the instant and the offset in force. -/
theorem time.Zoned.abs_eq (t : Zoned) (hr : t.InRange) (hl : t.loc.maxOffset < 2 ^ 31) :
    t.unixSec = t.instant.sec + internalToUnix ∧
    t.abs = t.instant.sec + t.ZoneOffset + internalToAbsolute := by
  have hu : t.unixSec = t.instant.sec + internalToUnix := by
    unfold Zoned.unixSec internalToUnix
    unfold Zoned.InRange at hr
    rw [wrapInt64_id _ (by omega) (by omega)]
  refine ⟨hu, ?_⟩
  have ho := t.loc.lookup_offset t.unixSec
  unfold Zoned.abs Zoned.ZoneOffset
  simp only []
  generalize (t.loc.lookup t.unixSec).offset = o at ho
  rw [hu]
  unfold Zoned.InRange at hr
  unfold internalToUnix unixToInternal internalToAbsolute
  rw [wrapInt64_id _ (by omega) (by omega), wrapUint64_id _ (by omega) (by omega)]
  omega

theorem time.norm_id (hi lo base : Int) (h0 : 0 ≤ lo) (h1 : lo < base) :
    norm hi lo base = (hi, lo) := by
  unfold norm
  simp only [not_lt.2 h0, if_false, ge_iff_le, not_le.2 h1]

theorem time.daysBefore_values :
    daysBefore 0 = 0 ∧ daysBefore 1 = 31 ∧ daysBefore 2 = 59 ∧ daysBefore 3 = 90 ∧
    daysBefore 4 = 120 ∧ daysBefore 5 = 151 ∧ daysBefore 6 = 181 ∧ daysBefore 7 = 212 ∧
    daysBefore 8 = 243 ∧ daysBefore 9 = 273 ∧ daysBefore 10 = 304 ∧ daysBefore 11 = 334 ∧
    daysBefore 12 = 365 := by
  decide

theorem time.daysBefore_range (m : Int) (h0 : 0 ≤ m) (h1 : m ≤ 12) :
    0 ≤ daysBefore m ∧ daysBefore m ≤ 365 := by
  interval_cases m <;> decide

/-- The wall-clock second that `time.Date` counts for midnight of a day of a
month of a year: within the range no counter wraps. -/
theorem time.dateUnix_midnight (year month day : Int) (h1 : 1 ≤ month) (h2 : month ≤ 12)
    (hy0 : 1 ≤ year - absoluteZeroYear) (hy1 : year - absoluteZeroYear ≤ 500000000000)
    (hd0 : 0 ≤ day) (hd1 : day ≤ 31) :
    dateUnix year month day 0 0 0 0 =
      ((daysSinceEpoch year + daysBefore (month - 1) +
          (if isLeap year = true ∧ 3 ≤ month then 1 else 0) + (day - 1)) * 86400 +
        (absoluteToInternal + internalToUnix), 0) := by
  have hc := time.daysSinceEpoch_closed year (by omega) (by omega)
  have hb := time.daysBefore_range (month - 1) (by omega) (by omega)
  unfold dateUnix
  have n1 := time.norm_id year (month - 1) 12 (by omega) (by omega)
  have n2 := time.norm_id 0 0 1000000000 (by decide) (by decide)
  have n3 := time.norm_id 0 0 60 (by decide) (by decide)
  have n4 := time.norm_id day 0 24 (by decide) (by decide)
  simp only [n1, n2, n3, n4, ge_iff_le, sub_add_cancel]
  generalize daysSinceEpoch year = d0 at hc ⊢
  generalize daysBefore (month - 1) = db at hb ⊢
  generalize year - absoluteZeroYear = y at hy0 hy1 hc
  have hd0' : 365 ≤ d0 ∧ d0 ≤ 366 * 500000000000 := by omega
  unfold wrapUint64 wrapInt64 absoluteToInternal internalToUnix
  by_cases hl : isLeap year = true ∧ 3 ≤ month
  · simp only [hl, and_self, if_true]
    congr 1
    omega
  · simp only [hl, if_false]
    congr 1
    omega

theorem time.Location.dateOffset_range (l : Location) (unix : Int) :
    -l.maxOffset ≤ l.dateOffset unix ∧ l.dateOffset unix ≤ l.maxOffset := by
  have h0 := l.maxOffset_nonneg
  unfold Location.dateOffset
  simp only []
  split_ifs
  · exact l.lookup_offset _
  · exact l.lookup_offset _
  · omega

/-- The instant that `time.Date` returns for midnight of the day with the day
number `D`: the wall-clock second less the offset that `time.Date` settles
on. -/
theorem time.Date_midnight (year month day : Int) (loc : Location) (D : Int)
    (hU : dateUnix year month day 0 0 0 0 =
      (D * 86400 + (absoluteToInternal + internalToUnix), 0))
    (hD0 : 2 ^ 61 ≤ D * 86400) (hD1 : D * 86400 ≤ 2 ^ 63 + 2 ^ 62 + 2 ^ 61)
    (hl : loc.maxOffset < 2 ^ 31) :
    Date year month day 0 0 0 0 loc =
      ⟨⟨D * 86400 + (absoluteToInternal + internalToUnix) -
          loc.dateOffset (D * 86400 + (absoluteToInternal + internalToUnix)) + unixToInternal,
        0⟩, loc⟩ := by
  have ho := loc.dateOffset_range (D * 86400 + (absoluteToInternal + internalToUnix))
  unfold Date
  rw [hU]
  simp only []
  generalize loc.dateOffset (D * 86400 + (absoluteToInternal + internalToUnix)) = o at ho
  unfold absoluteToInternal internalToUnix unixToInternal
  rw [wrapInt64_id (D * 86400 + (-9223371966579724800 + -62135596800) - o) (by omega) (by omega),
    wrapInt64_id _ (by omega) (by omega)]
  rfl

/-- A midnight that the clock of a location reads is read at a Unix second:
there the offset in force, added to the second, gives the wall-clock second of
the midnight. -/
theorem time.Location.HasMidnight.unix (l : Location) (year month day : Int)
    (hl : l.maxOffset < 2 ^ 31) (h : l.HasMidnight year month day) (D : Int)
    (hD : D = daysSinceEpoch year + daysBefore (month - 1) +
      (if isLeap year = true ∧ 3 ≤ month then 1 else 0) + (day - 1))
    (hD0 : 2 ^ 61 ≤ D * 86400) (hD1 : D * 86400 ≤ 2 ^ 63 + 2 ^ 62 + 2 ^ 61) :
    ∃ v : Time, (Zoned.mk v l).Date = (year, month, day) ∧ (Zoned.mk v l).Clock = (0, 0, 0) ∧
      (Zoned.mk v l).abs = D * 86400 ∧
      ∃ u : Int, alpha ≤ u ∧ u < omega ∧
        u + (l.lookup u).offset = D * 86400 + (absoluteToInternal + internalToUnix) := by
  obtain ⟨v, hdate, hclock⟩ := h
  obtain ⟨y', m', d', yd, hd, -, -, -, -, -, h4, h5, -⟩ := time.Zoned.Date_spec ⟨v, l⟩
  rw [hdate] at hd
  obtain ⟨rfl, hd'⟩ := Prod.mk.inj hd
  obtain ⟨rfl, rfl⟩ := Prod.mk.inj hd'
  have hday : (Zoned.mk v l).abs / 86400 = D := by
    rw [h4, hD, ← h5]
    ring
  have hsec : (Zoned.mk v l).abs % 86400 = 0 := by
    unfold Zoned.Clock at hclock
    simp only [Prod.mk.injEq] at hclock
    omega
  have habs : (Zoned.mk v l).abs = D * 86400 := by omega
  refine ⟨v, hdate, hclock, habs, (Zoned.mk v l).unixSec, ?_⟩
  have hr := time.wrapInt64_range ((Zoned.mk v l).instant.sec + internalToUnix)
  have ho := l.lookup_offset (Zoned.mk v l).unixSec
  have hM := l.maxOffset_nonneg
  unfold Zoned.abs at habs
  simp only [] at habs
  clear hday hsec hdate hclock h4
  unfold Zoned.unixSec at habs ho ⊢
  generalize wrapInt64 ((Zoned.mk v l).instant.sec + internalToUnix) = us at habs ho hr ⊢
  generalize (l.lookup us).offset = o at habs ho ⊢
  have hr2 := time.wrapInt64_range (us + o)
  have e1 : wrapInt64 (us + o) = D * 86400 + (absoluteToInternal + internalToUnix) := by
    generalize wrapInt64 (us + o) = s1 at habs hr2
    unfold wrapUint64 unixToInternal internalToAbsolute at habs
    unfold absoluteToInternal internalToUnix
    omega
  have e2 : us + o = D * 86400 + (absoluteToInternal + internalToUnix) := by
    unfold wrapInt64 at e1
    unfold absoluteToInternal internalToUnix at e1 ⊢
    omega
  unfold alpha omega
  unfold absoluteToInternal internalToUnix at e2 ⊢
  omega

/-- `time.Date` at a midnight that the clock of a regular location reads: the
result is an instant at which the clock reads that midnight. -/
theorem time.Date_reads (year month day : Int) (loc : Location) (hreg : loc.Regular)
    (y m d D : Int)
    (hD : D = daysSinceEpoch y + daysBefore (m - 1) +
      (if isLeap y = true ∧ 3 ≤ m then 1 else 0) + (d - 1))
    (hU : dateUnix year month day 0 0 0 0 =
      (D * 86400 + (absoluteToInternal + internalToUnix), 0))
    (hD0 : 2 ^ 61 ≤ D * 86400) (hD1 : D * 86400 ≤ 2 ^ 63 + 2 ^ 62 + 2 ^ 61)
    (hmid : loc.HasMidnight y m d) :
    (Date year month day 0 0 0 0 loc).abs = D * 86400 ∧
    (Date year month day 0 0 0 0 loc).Date = (y, m, d) ∧
    (Date year month day 0 0 0 0 loc).Clock = (0, 0, 0) ∧
    (Date year month day 0 0 0 0 loc).instant.nsec = 0 ∧
    (Date year month day 0 0 0 0 loc).loc = loc ∧
    (Date year month day 0 0 0 0 loc).instant.sec +
      (Date year month day 0 0 0 0 loc).ZoneOffset + internalToAbsolute = D * 86400 := by
  obtain ⟨v, hvd, hvc, hva, u, hu0, hu1, hu⟩ :=
    time.Location.HasMidnight.unix loc y m d hreg.1 hmid D hD hD0 hD1
  have hspec := loc.dateOffset_spec hreg (D * 86400 + (absoluteToInternal + internalToUnix))
    (by unfold absoluteToInternal internalToUnix; omega)
    (by unfold absoluteToInternal internalToUnix; omega) u hu0 hu1 hu
  have ho := loc.dateOffset_range (D * 86400 + (absoluteToInternal + internalToUnix))
  have hM := hreg.1
  rw [time.Date_midnight year month day loc D hU hD0 hD1 hreg.1]
  generalize loc.dateOffset (D * 86400 + (absoluteToInternal + internalToUnix)) = o at hspec ho
  have hus : (Zoned.mk ⟨D * 86400 + (absoluteToInternal + internalToUnix) - o + unixToInternal, 0⟩
      loc).unixSec = D * 86400 + (absoluteToInternal + internalToUnix) - o := by
    unfold Zoned.unixSec
    simp only []
    unfold absoluteToInternal internalToUnix unixToInternal
    rw [wrapInt64_id _ (by omega) (by omega)]
    omega
  have hzo : (Zoned.mk ⟨D * 86400 + (absoluteToInternal + internalToUnix) - o + unixToInternal, 0⟩
      loc).ZoneOffset = o := by
    unfold Zoned.ZoneOffset
    rw [hus]
    exact hspec
  have habs : (Zoned.mk ⟨D * 86400 + (absoluteToInternal + internalToUnix) - o + unixToInternal, 0⟩
      loc).abs = D * 86400 := by
    unfold Zoned.abs
    simp only []
    rw [hus, hspec]
    unfold absoluteToInternal internalToUnix unixToInternal internalToAbsolute
    rw [wrapInt64_id _ (by omega) (by omega), wrapUint64_id _ (by omega) (by omega)]
    omega
  refine ⟨habs, ?_, ?_, rfl, rfl, ?_⟩
  · rw [time.Zoned.Date_eq_of_day _ ⟨v, loc⟩ (by rw [habs, hva]), hvd]
  · unfold Zoned.Clock at hvc ⊢
    rw [habs, ← hva]
    exact hvc
  · rw [hzo]
    simp only []
    unfold absoluteToInternal internalToUnix unixToInternal internalToAbsolute
    omega

/-! ## The quarter functions -/

theorem getQuarterStartDate_eq (t : Zoned) (year month day : Int)
    (h : t.Date = (year, month, day)) :
    getQuarterStartDate t = Date year ((month - 1) / 3 * 3 + 1) 1 0 0 0 0 t.loc := by
  unfold getQuarterStartDate
  rw [h]
  rfl

theorem getQuarterEndDate_eq (t : Zoned) (year month day : Int)
    (h : t.Date = (year, month, day)) :
    getQuarterEndDate t =
      Date (if ((month - 1) / 3 * 3 + 1 + 2) % 12 < (month - 1) / 3 * 3 + 1 then year + 1
        else year) (((month - 1) / 3 * 3 + 1 + 2) % 12 + 1) 0 0 0 0 0 t.loc := by
  unfold getQuarterEndDate
  rw [h]
  rfl

/-- Within the range, the year of `t` is far from the ends of the counters. -/
theorem time.Zoned.year_range (t : Zoned) (hr : t.InRange) (hl : t.loc.maxOffset < 2 ^ 31)
    (year yday : Int) (hy0 : 0 ≤ year - absoluteZeroYear)
    (hy1 : year - absoluteZeroYear ≤ 600000000000)
    (h4 : t.abs / 86400 = daysSinceEpoch year + yday) (h0 : 0 ≤ yday) (h1 : yday ≤ 365) :
    1000 ≤ year - absoluteZeroYear ∧ year + 1 - absoluteZeroYear ≤ 500000000000 ∧
    2 ^ 61 ≤ daysSinceEpoch year * 86400 ∧
    (daysSinceEpoch year + 400) * 86400 ≤ 2 ^ 63 + 2 ^ 62 + 2 ^ 61 := by
  have hc := time.daysSinceEpoch_closed year hy0 hy1
  have ha := (t.abs_eq hr hl).2
  have ho := t.loc.lookup_offset t.unixSec
  unfold Zoned.InRange at hr
  unfold Zoned.ZoneOffset at ha
  generalize (t.loc.lookup t.unixSec).offset = o at ha ho
  generalize daysSinceEpoch year = d0 at hc h4 ⊢
  have hy : year + 1 - absoluteZeroYear = year - absoluteZeroYear + 1 := by omega
  rw [hy]
  generalize year - absoluteZeroYear = y at hy0 hy1 hc ⊢
  unfold internalToAbsolute at ha
  generalize t.abs = a at ha h4
  have hd : 26687997771000 ≤ d0 ∧ d0 ≤ 160127986800000 := by omega
  omega

/-- The days of the year that start and end the quarter of a day of the
year. -/
theorem time.quarter_day_numbers (leap : Bool) (month day : Int) (h1 : 1 ≤ month)
    (h2 : month ≤ 12) (h3 : 1 ≤ day)
    (h6 : daysBefore (month - 1) + (if leap = true ∧ 3 ≤ month then 1 else 0) + (day - 1) <
      daysBefore month + (if leap = true ∧ 2 ≤ month then 1 else 0)) :
    daysBefore ((month - 1) / 3 * 3 + 1 - 1) +
        (if leap = true ∧ 3 ≤ (month - 1) / 3 * 3 + 1 then 1 else 0) + (1 - 1) ≤
      daysBefore (month - 1) + (if leap = true ∧ 3 ≤ month then 1 else 0) + (day - 1) ∧
    daysBefore (month - 1) + (if leap = true ∧ 3 ≤ month then 1 else 0) + (day - 1) ≤
      daysBefore ((month - 1) / 3 * 3 + 3 - 1) +
        (if leap = true ∧ 3 ≤ (month - 1) / 3 * 3 + 3 then 1 else 0) +
        ((if (month - 1) / 3 * 3 + 3 = 6 ∨ (month - 1) / 3 * 3 + 3 = 9 then 30 else 31) - 1) := by
  obtain ⟨v0, v1, v2, v3, v4, v5, v6, v7, v8, v9, v10, v11, v12⟩ := time.daysBefore_values
  cases leap <;> interval_cases month <;>
    simp only [Int.reduceSub, Int.reduceDiv, Int.reduceMul, Int.reduceAdd, Int.reduceLE,
      Int.reduceEq, Bool.false_eq_true, false_and, true_and, and_true, and_false, or_false,
      or_true, false_or, if_true, if_false, v0, v1, v2, v3, v4, v5, v6, v7, v8, v9, v10, v11,
      v12] at h6 ⊢ <;>
    omega

/-- The wall-clock second of the midnight that `getQuarterEndDate` asks
`time.Date` for, day 0 of the month after the quarter, is the one of the last
day of the quarter. -/
theorem time.quarter_end_unix (year month : Int) (h1 : 1 ≤ month) (h2 : month ≤ 12)
    (hy0 : 1 ≤ year - absoluteZeroYear) (hy1 : year + 1 - absoluteZeroYear ≤ 500000000000) :
    dateUnix (if ((month - 1) / 3 * 3 + 1 + 2) % 12 < (month - 1) / 3 * 3 + 1 then year + 1
        else year) (((month - 1) / 3 * 3 + 1 + 2) % 12 + 1) 0 0 0 0 0 =
      ((daysSinceEpoch year + daysBefore ((month - 1) / 3 * 3 + 3 - 1) +
          (if isLeap year = true ∧ 3 ≤ (month - 1) / 3 * 3 + 3 then 1 else 0) +
          ((if (month - 1) / 3 * 3 + 3 = 6 ∨ (month - 1) / 3 * 3 + 3 = 9 then 30 else 31) - 1)) *
          86400 + (absoluteToInternal + internalToUnix), 0) := by
  obtain ⟨v0, v1, v2, v3, v4, v5, v6, v7, v8, v9, v10, v11, v12⟩ := time.daysBefore_values
  have hsucc := time.daysSinceEpoch_succ year (by omega) (by omega)
  have m4 := time.dateUnix_midnight year 4 0 (by decide) (by decide) hy0 (by omega)
    (by decide) (by decide)
  have m7 := time.dateUnix_midnight year 7 0 (by decide) (by decide) hy0 (by omega)
    (by decide) (by decide)
  have m10 := time.dateUnix_midnight year 10 0 (by decide) (by decide) hy0 (by omega)
    (by decide) (by decide)
  have m1 := time.dateUnix_midnight (year + 1) 1 0 (by decide) (by decide) (by omega) hy1
    (by decide) (by decide)
  rw [hsucc] at m1
  cases hl : isLeap year <;> rw [hl] at m1 m4 m7 m10 <;> interval_cases month <;>
    simp only [Int.reduceSub, Int.reduceDiv, Int.reduceMul, Int.reduceAdd, Int.reduceMod,
      Int.reduceLT, Int.reduceLE, Int.reduceEq, Bool.false_eq_true, false_and, true_and,
      and_true, and_false, or_false, or_true, false_or, if_true, if_false, v0, v2, v3, v5, v6,
      v8, v9, v11, m1, m4, m7, m10, add_zero, Int.reduceNeg, Prod.mk.injEq] at m1 m4 m7 m10 ⊢ <;>
    omega

theorem time.leap_day_range (p : Prop) [Decidable p] :
    (0 : Int) ≤ (if p then 1 else 0) ∧ (if p then 1 else 0) ≤ (1 : Int) := by
  split_ifs <;> omega

/-- The start of the quarter of `t`, read on the clock of the location of `t`:
midnight of the first day of the quarter, a day at or before the day of
`t`. -/
theorem getQuarterStartDate_reads (t : Zoned) (hr : t.InRange) (hreg : t.loc.Regular)
    (hmid : t.loc.HasMidnight t.Date.1 ((t.Date.2.1 - 1) / 3 * 3 + 1) 1) :
    ∃ dS : Int, (getQuarterStartDate t).abs = dS * 86400 ∧
      (getQuarterStartDate t).Date = (t.Date.1, (t.Date.2.1 - 1) / 3 * 3 + 1, 1) ∧
      (getQuarterStartDate t).Clock = (0, 0, 0) ∧
      (getQuarterStartDate t).instant.nsec = 0 ∧
      (getQuarterStartDate t).loc = t.loc ∧
      (getQuarterStartDate t).instant.sec + (getQuarterStartDate t).ZoneOffset +
        internalToAbsolute = dS * 86400 ∧
      dS ≤ t.abs / 86400 := by
  obtain ⟨year, month, day, yday, hd, h1, h2, h3, hy0, hy1, h4, h5, h6⟩ := time.Zoned.Date_spec t
  rw [hd] at hmid ⊢
  simp only [] at hmid ⊢
  have hq := time.quarter_day_numbers (isLeap year) month day h1 h2 h3 (by rw [h5]; exact h6)
  have hb := time.daysBefore_range (month - 1) (by omega) (by omega)
  have hb' := time.daysBefore_range month (by omega) (by omega)
  have hbq := time.daysBefore_range ((month - 1) / 3 * 3 + 1 - 1) (by omega) (by omega)
  have l1 := time.leap_day_range (isLeap year = true ∧ 3 ≤ month)
  have l2 := time.leap_day_range (isLeap year = true ∧ 2 ≤ month)
  have l3 := time.leap_day_range (isLeap year = true ∧ 3 ≤ (month - 1) / 3 * 3 + 1)
  obtain ⟨r1, r2, r3, r4⟩ := t.year_range hr hreg.1 year yday hy0 hy1 h4 (by omega) (by omega)
  have hU := time.dateUnix_midnight year ((month - 1) / 3 * 3 + 1) 1 (by omega) (by omega)
    (by omega) (by omega) (by decide) (by decide)
  rw [getQuarterStartDate_eq t year month day hd]
  obtain ⟨a1, a2, a3, a4, a5, a6⟩ := time.Date_reads year _ 1 t.loc hreg year _ 1 _ rfl hU
    (by omega) (by omega) hmid
  exact ⟨_, a1, a2, a3, a4, a5, a6, by rw [h4, ← h5]; omega⟩

/-- The end of the quarter of `t`, read on the clock of the location of `t`:
midnight of the last day of the quarter, a day at or after the day of `t`. -/
theorem getQuarterEndDate_reads (t : Zoned) (hr : t.InRange) (hreg : t.loc.Regular)
    (hmid : t.loc.HasMidnight t.Date.1 ((t.Date.2.1 - 1) / 3 * 3 + 3)
      (if (t.Date.2.1 - 1) / 3 * 3 + 3 = 6 ∨ (t.Date.2.1 - 1) / 3 * 3 + 3 = 9 then 30 else 31)) :
    ∃ dE : Int, (getQuarterEndDate t).abs = dE * 86400 ∧
      (getQuarterEndDate t).Date = (t.Date.1, (t.Date.2.1 - 1) / 3 * 3 + 3,
        if (t.Date.2.1 - 1) / 3 * 3 + 3 = 6 ∨ (t.Date.2.1 - 1) / 3 * 3 + 3 = 9 then 30
        else 31) ∧
      (getQuarterEndDate t).Clock = (0, 0, 0) ∧
      (getQuarterEndDate t).instant.nsec = 0 ∧
      (getQuarterEndDate t).loc = t.loc ∧
      (getQuarterEndDate t).instant.sec + (getQuarterEndDate t).ZoneOffset +
        internalToAbsolute = dE * 86400 ∧
      t.abs / 86400 ≤ dE := by
  obtain ⟨year, month, day, yday, hd, h1, h2, h3, hy0, hy1, h4, h5, h6⟩ := time.Zoned.Date_spec t
  rw [hd] at hmid ⊢
  simp only [] at hmid ⊢
  have hq := time.quarter_day_numbers (isLeap year) month day h1 h2 h3 (by rw [h5]; exact h6)
  have hb := time.daysBefore_range (month - 1) (by omega) (by omega)
  have hb' := time.daysBefore_range month (by omega) (by omega)
  have l1 := time.leap_day_range (isLeap year = true ∧ 3 ≤ month)
  have l2 := time.leap_day_range (isLeap year = true ∧ 2 ≤ month)
  obtain ⟨r1, r2, r3, r4⟩ := t.year_range hr hreg.1 year yday hy0 hy1 h4 (by omega) (by omega)
  have hbe := time.daysBefore_range ((month - 1) / 3 * 3 + 3 - 1) (by omega) (by omega)
  have l3 := time.leap_day_range (isLeap year = true ∧ 3 ≤ (month - 1) / 3 * 3 + 3)
  have hU := time.quarter_end_unix year month h1 h2 (by omega) r2
  rw [getQuarterEndDate_eq t year month day hd]
  obtain ⟨a1, a2, a3, a4, a5, a6⟩ := time.Date_reads _ _ 0 t.loc hreg year _ _ _ rfl hU
    (by omega) (by omega) hmid
  exact ⟨_, a1, a2, a3, a4, a5, a6, by rw [h4, ← h5]; omega⟩

/-! ## The claims on the quarter functions -/

/-- No date of the third month of a quarter has a later day than the 31st, or
than the 30th in June and September. -/
theorem time.Zoned.Date_day_le (u : Zoned) (m : Int)
    (hm : m = 3 ∨ m = 6 ∨ m = 9 ∨ m = 12) (h : u.Date.2.1 = m) :
    u.Date.2.2 ≤ (if m = 6 ∨ m = 9 then 30 else 31) := by
  obtain ⟨v0, v1, v2, v3, v4, v5, v6, v7, v8, v9, v10, v11, v12⟩ := time.daysBefore_values
  obtain ⟨year, month, day, yday, hd, h1, h2, h3, -, -, -, h5, h6⟩ := time.Zoned.Date_spec u
  rw [hd] at h ⊢
  simp only [] at h ⊢
  subst h
  rw [← h5] at h6
  rcases hm with rfl | rfl | rfl | rfl <;>
    simp only [Int.reduceSub, Int.reduceLE, Int.reduceEq, and_true, or_false, or_true, false_or,
      if_true, if_false, v2, v3, v5, v6, v8, v9, v11, v12] at h6 ⊢ <;>
    split_ifs at h6 <;> omega

/-- C13 (amended): for every instant `t` within `2^62` seconds of the year 1,
in a regular location whose clock reads 00:00:00 on the first day of the
quarter of `t`, `getQuarterStartDate(t)` is the instant with the year of `t`,
month `((m-1)/3)*3 + 1` for the month `m` of `t` (so 1, 4, 7 or 10), day 1 and
time 00:00:00.0, in the location of `t`; its month is at most `m` and more
than `m-3`. -/
theorem getQuarterStartDate_spec (t : Zoned) (hrange : t.InRange) (hloc : t.loc.Regular)
    (hmid : t.loc.HasMidnight t.Date.1 ((t.Date.2.1 - 1) / 3 * 3 + 1) 1) :
    1 ≤ t.Date.2.1 ∧ t.Date.2.1 ≤ 12 ∧
    (getQuarterStartDate t).Date = (t.Date.1, (t.Date.2.1 - 1) / 3 * 3 + 1, 1) ∧
    (getQuarterStartDate t).Clock = (0, 0, 0) ∧
    (getQuarterStartDate t).instant.nsec = 0 ∧
    (getQuarterStartDate t).Location = t.Location ∧
    ((t.Date.2.1 - 1) / 3 * 3 + 1 = 1 ∨ (t.Date.2.1 - 1) / 3 * 3 + 1 = 4 ∨
      (t.Date.2.1 - 1) / 3 * 3 + 1 = 7 ∨ (t.Date.2.1 - 1) / 3 * 3 + 1 = 10) ∧
    (t.Date.2.1 - 1) / 3 * 3 + 1 ≤ t.Date.2.1 ∧
    t.Date.2.1 - 3 < (t.Date.2.1 - 1) / 3 * 3 + 1 := by
  obtain ⟨dS, -, a2, a3, a4, a5, -, -⟩ := getQuarterStartDate_reads t hrange hloc hmid
  obtain ⟨year, month, day, yday, hd, h1, h2, -⟩ := time.Zoned.Date_spec t
  rw [hd] at a2 ⊢
  simp only [] at a2 ⊢
  exact ⟨h1, h2, a2, a3, a4, a5, by omega, by omega, by omega⟩

/-- C11 (amended): for every instant `t` within `2^62` seconds of the year 1,
in a regular location whose clock reads 00:00:00 on the last day of the quarter
of `t`, `getQuarterEndDate(t)` is midnight, in the location of `t`, of the last
day of the third month of the quarter of `t`, in the year of `t`: March 31,
June 30, September 30 or December 31 (no date of that month has a later day);
for `t` in October, November or December it is December 31 of the year of
`t`. -/
theorem getQuarterEndDate_spec (t : Zoned) (hrange : t.InRange) (hloc : t.loc.Regular)
    (hmid : t.loc.HasMidnight t.Date.1 ((t.Date.2.1 - 1) / 3 * 3 + 3)
      (if (t.Date.2.1 - 1) / 3 * 3 + 3 = 6 ∨ (t.Date.2.1 - 1) / 3 * 3 + 3 = 9 then 30 else 31)) :
    1 ≤ t.Date.2.1 ∧ t.Date.2.1 ≤ 12 ∧
    (getQuarterEndDate t).Date =
      (t.Date.1, (t.Date.2.1 - 1) / 3 * 3 + 3,
        if (t.Date.2.1 - 1) / 3 * 3 + 3 = 6 ∨ (t.Date.2.1 - 1) / 3 * 3 + 3 = 9 then 30
        else 31) ∧
    (getQuarterEndDate t).Clock = (0, 0, 0) ∧
    (getQuarterEndDate t).instant.nsec = 0 ∧
    (getQuarterEndDate t).Location = t.Location ∧
    ((getQuarterEndDate t).Date = (t.Date.1, 3, 31) ∨
      (getQuarterEndDate t).Date = (t.Date.1, 6, 30) ∨
      (getQuarterEndDate t).Date = (t.Date.1, 9, 30) ∨
      (getQuarterEndDate t).Date = (t.Date.1, 12, 31)) ∧
    (10 ≤ t.Date.2.1 → (getQuarterEndDate t).Date = (t.Date.1, 12, 31)) ∧
    (∀ u : Zoned, u.Date.2.1 = (getQuarterEndDate t).Date.2.1 →
      u.Date.2.2 ≤ (getQuarterEndDate t).Date.2.2) := by
  obtain ⟨dE, -, a2, a3, a4, a5, -, -⟩ := getQuarterEndDate_reads t hrange hloc hmid
  obtain ⟨year, month, day, yday, hd, h1, h2, -⟩ := time.Zoned.Date_spec t
  rw [hd] at a2 ⊢
  simp only [] at a2 ⊢
  refine ⟨h1, h2, a2, a3, a4, a5, ?_, ?_, ?_⟩
  · rw [a2]
    interval_cases month <;> simp
  · intro h10
    rw [a2]
    interval_cases month <;> first | omega | simp
  · intro u hu
    rw [a2] at hu ⊢
    simp only [] at hu ⊢
    exact time.Zoned.Date_day_le u _ (by omega) hu

/-- C12 (amended): for every instant `t` within `2^62` seconds of the year 1,
in a regular location.  When the clock of the location reads the midnight of
the first day of the quarter of `t`: on that clock `getQuarterStartDate(t)` is
at or before `t`, and as instants `getQuarterStartDate(t) <= t` when the offset
at `t` is at most the offset at the start, or when `t` is past the first day
and the offset has grown by a day at most.  When the clock reads the midnight
of the last day of the quarter: on that clock `t` is before the end of the day
that `getQuarterEndDate(t)` starts, as instants
`t < getQuarterEndDate(t) + 24h` when the offset at `t` is at least the offset
at the end, and with equal offsets `t <= getQuarterEndDate(t)` holds exactly
when `t` is not on that last day of the quarter or is its midnight. -/
theorem quarter_bounds (t : Zoned) (hrange : t.InRange) (hloc : t.loc.Regular) :
    (t.loc.HasMidnight t.Date.1 ((t.Date.2.1 - 1) / 3 * 3 + 1) 1 →
      (getQuarterStartDate t).instant.sec + (getQuarterStartDate t).ZoneOffset ≤
        t.instant.sec + t.ZoneOffset ∧
      (t.ZoneOffset ≤ (getQuarterStartDate t).ZoneOffset →
        (getQuarterStartDate t).instant.instant ≤ t.instant.instant) ∧
      (t.Date ≠ (getQuarterStartDate t).Date →
        t.ZoneOffset ≤ (getQuarterStartDate t).ZoneOffset + 86400 →
        (getQuarterStartDate t).instant.instant ≤ t.instant.instant)) ∧
    (t.loc.HasMidnight t.Date.1 ((t.Date.2.1 - 1) / 3 * 3 + 3)
        (if (t.Date.2.1 - 1) / 3 * 3 + 3 = 6 ∨ (t.Date.2.1 - 1) / 3 * 3 + 3 = 9 then 30
          else 31) →
      t.instant.sec + t.ZoneOffset <
        (getQuarterEndDate t).instant.sec + (getQuarterEndDate t).ZoneOffset + 86400 ∧
      ((getQuarterEndDate t).ZoneOffset ≤ t.ZoneOffset →
        t.instant.instant < (getQuarterEndDate t).instant.instant + 86400 * 1000000000) ∧
      (t.ZoneOffset = (getQuarterEndDate t).ZoneOffset →
        (t.instant.instant ≤ (getQuarterEndDate t).instant.instant ↔
          t.Date ≠ (getQuarterEndDate t).Date ∨
            t.instant = (getQuarterEndDate t).instant))) := by
  have ha := (t.abs_eq hrange hloc.1).2
  have hn := t.instant.nsec.isLt
  have hti : t.instant.instant = t.instant.sec * 1000000000 + (t.instant.nsec.val : Int) := rfl
  constructor
  · intro hstart
    obtain ⟨dS, s1, -, -, s4, -, s6, s7⟩ := getQuarterStartDate_reads t hrange hloc hstart
    have hSi : (getQuarterStartDate t).instant.instant =
        (getQuarterStartDate t).instant.sec * 1000000000 := by
      unfold Time.instant
      rw [s4]
      simp
    have hSday : (getQuarterStartDate t).abs / 86400 = dS := by rw [s1]; omega
    refine ⟨by omega, fun _ => by omega, ?_⟩
    intro hdate hoff
    have hne : t.abs / 86400 ≠ dS := by
      intro h
      apply hdate
      apply time.Zoned.Date_eq_of_day
      rw [hSday, h]
    omega
  · intro hend
    obtain ⟨dE, e1, -, -, e4, -, e6, e7⟩ := getQuarterEndDate_reads t hrange hloc hend
    have hEi : (getQuarterEndDate t).instant.instant =
        (getQuarterEndDate t).instant.sec * 1000000000 := by
      unfold Time.instant
      rw [e4]
      simp
    have hEday : (getQuarterEndDate t).abs / 86400 = dE := by rw [e1]; omega
    refine ⟨by omega, fun _ => by omega, ?_⟩
    intro hoff
    constructor
    · intro hle
      by_cases hdate : t.Date = (getQuarterEndDate t).Date
      · right
        have hday := time.Zoned.day_eq_of_Date t _ hdate
        rw [hEday] at hday
        have hsec : t.instant.sec = (getQuarterEndDate t).instant.sec := by omega
        have hns : (t.instant.nsec.val : Int) = 0 := by omega
        cases ht : t.instant with
        | mk sec nsec =>
          cases hq : (getQuarterEndDate t).instant with
          | mk sec' nsec' =>
            rw [ht, hq] at hsec
            rw [ht] at hns
            rw [hq] at e4
            simp only at hsec hns e4
            subst hsec
            congr 1
            rw [e4]
            apply Fin.ext
            have : nsec.val = 0 := by omega
            rw [this]
            rfl
      · left; exact hdate
    · rintro (hdate | heq)
      · have hne : t.abs / 86400 ≠ dE := by
          intro h
          apply hdate
          apply time.Zoned.Date_eq_of_day
          rw [hEday, h]
        omega
      · rw [heq]

/-- Counterexample to C13 as stated: in Asuncion the clocks go from 23:59:59 of
September 30, 2023 to 01:00:00 of October 1, so that no instant is read
00:00:00 on October 1; for noon of November 15, 2023
`getQuarterStartDate` returns an instant that is read 23:00:00 on
September 30. -/
theorem getQuarterStartDate_counterexample :
    asuncion.Regular ∧ asuncionNovember.loc = asuncion ∧
    asuncionNovember.Date = (2023, 11, 15) ∧
    ¬ asuncion.HasMidnight 2023 10 1 ∧
    (getQuarterStartDate asuncionNovember).Date = (2023, 9, 30) ∧
    (getQuarterStartDate asuncionNovember).Clock = (23, 0, 0) ∧
    (getQuarterStartDate asuncionNovember).Date ≠
      (asuncionNovember.Date.1, (asuncionNovember.Date.2.1 - 1) / 3 * 3 + 1, 1) := by
  have hreg : asuncion.Regular := by unfold Location.Regular; decide
  have hr : asuncionNovember.InRange := by unfold Zoned.InRange; decide
  have hdate : asuncionNovember.Date = (2023, 11, 15) := by decide
  have hqs : (getQuarterStartDate asuncionNovember).Date = (2023, 9, 30) := by decide
  refine ⟨hreg, rfl, hdate, ?_, hqs, by decide, by decide⟩
  intro hmid
  obtain ⟨dS, -, a2, -⟩ := getQuarterStartDate_reads asuncionNovember hr hreg
    (by rw [hdate]; exact hmid)
  rw [hqs, hdate] at a2
  exact absurd a2 (by decide)

/-- Counterexample to C11 as stated: in Beirut the clocks go from 23:59:59 of
March 30, 2024 to 01:00:00 of March 31, so that no instant is read 00:00:00 on
March 31; for noon of February 15, 2024 `getQuarterEndDate` returns an instant
that is read 01:00:00 on March 31, not midnight. -/
theorem getQuarterEndDate_counterexample :
    beirut.Regular ∧ beirutFebruary.loc = beirut ∧
    beirutFebruary.Date = (2024, 2, 15) ∧
    ¬ beirut.HasMidnight 2024 3 31 ∧
    (getQuarterEndDate beirutFebruary).Date = (2024, 3, 31) ∧
    (getQuarterEndDate beirutFebruary).Clock = (1, 0, 0) ∧
    (getQuarterEndDate beirutFebruary).Clock ≠ (0, 0, 0) := by
  have hreg : beirut.Regular := by unfold Location.Regular; decide
  have hr : beirutFebruary.InRange := by unfold Zoned.InRange; decide
  have hdate : beirutFebruary.Date = (2024, 2, 15) := by decide
  have hqe : (getQuarterEndDate beirutFebruary).Clock = (1, 0, 0) := by decide
  refine ⟨hreg, rfl, hdate, ?_, by decide, hqe, by decide⟩
  intro hmid
  obtain ⟨dE, -, -, a3, -⟩ := getQuarterEndDate_reads beirutFebruary hr hreg
    (by rw [hdate]; exact hmid)
  rw [hqe] at a3
  exact absurd a3 (by decide)

/-- Counterexample to C12 as stated: at noon of March 31, 2023 in UTC the end
of the quarter, midnight of that same day, is already past. -/
theorem quarter_bounds_counterexample :
    lastDayNoon.Date = (2023, 3, 31) ∧ lastDayNoon.Clock = (12, 0, 0) ∧
    (getQuarterEndDate lastDayNoon).Date = (2023, 3, 31) ∧
    (getQuarterEndDate lastDayNoon).Clock = (0, 0, 0) ∧
    (getQuarterEndDate lastDayNoon).instant.instant < lastDayNoon.instant.instant := by
  decide

/-- Witness for C13: noon of May 15, 2023 in New York, where the quarter starts
at 00:00 of April 1, Eastern Daylight Time. -/
theorem getQuarterStartDate_spec_witness :
    newYorkMay.InRange ∧ newYork.Regular ∧ newYork.HasMidnight 2023 4 1 ∧
    newYorkMay.Date = (2023, 5, 15) ∧
    (getQuarterStartDate newYorkMay).Date = (2023, 4, 1) ∧
    (getQuarterStartDate newYorkMay).Clock = (0, 0, 0) := by
  have hreg : newYork.Regular := by unfold Location.Regular; decide
  have hr : newYorkMay.InRange := by unfold Zoned.InRange; decide
  have hdate : newYorkMay.Date = (2023, 5, 15) := by decide
  have hmid : newYork.HasMidnight 2023 4 1 := ⟨Unix 1680321600 0, by decide, by decide⟩
  have h := getQuarterStartDate_spec newYorkMay hr hreg (by rw [hdate]; exact hmid)
  rw [hdate] at h
  exact ⟨hr, hreg, hmid, hdate, h.2.2.1, h.2.2.2.1⟩

/-- Witness for C11: noon of May 15, 2023 in New York, where the last day of
the quarter starts at 00:00 of June 30, Eastern Daylight Time. -/
theorem getQuarterEndDate_spec_witness :
    newYorkMay.InRange ∧ newYork.Regular ∧ newYork.HasMidnight 2023 6 30 ∧
    newYorkMay.Date = (2023, 5, 15) ∧
    (getQuarterEndDate newYorkMay).Date = (2023, 6, 30) ∧
    (getQuarterEndDate newYorkMay).Clock = (0, 0, 0) := by
  have hreg : newYork.Regular := by unfold Location.Regular; decide
  have hr : newYorkMay.InRange := by unfold Zoned.InRange; decide
  have hdate : newYorkMay.Date = (2023, 5, 15) := by decide
  have hmid : newYork.HasMidnight 2023 6 30 := ⟨Unix 1688097600 0, by decide, by decide⟩
  have h := getQuarterEndDate_spec newYorkMay hr hreg (by rw [hdate]; exact hmid)
  rw [hdate] at h
  exact ⟨hr, hreg, hmid, hdate, h.2.2.1, h.2.2.2.1⟩

/-- Witness for C12: noon of May 15, 2023 in New York; the offset is the same
at the start of the quarter, at that noon and at the end of the quarter. -/
theorem quarter_bounds_witness :
    newYorkMay.InRange ∧ newYork.Regular ∧ newYork.HasMidnight 2023 4 1 ∧
    newYork.HasMidnight 2023 6 30 ∧
    (getQuarterStartDate newYorkMay).instant.instant ≤ newYorkMay.instant.instant ∧
    newYorkMay.instant.instant <
      (getQuarterEndDate newYorkMay).instant.instant + 86400 * 1000000000 := by
  have hreg : newYork.Regular := by unfold Location.Regular; decide
  have hr : newYorkMay.InRange := by unfold Zoned.InRange; decide
  have hdate : newYorkMay.Date = (2023, 5, 15) := by decide
  have hs : newYork.HasMidnight 2023 4 1 := ⟨Unix 1680321600 0, by decide, by decide⟩
  have he : newYork.HasMidnight 2023 6 30 := ⟨Unix 1688097600 0, by decide, by decide⟩
  have h := quarter_bounds newYorkMay hr hreg
  exact ⟨hr, hreg, hs, he, (h.1 (by rw [hdate]; exact hs)).2.1 (by decide),
    (h.2 (by rw [hdate]; exact he)).2.1 (by decide)⟩

/-! ## Locations without transitions, and samples -/

/-- The day of the year of a day of a month is read back by `monthDay` as that
month and day. -/
theorem time.monthDay_unique (leap : Bool) (month day : Int) (h1 : 1 ≤ month)
    (h2 : month ≤ 12) (h3 : 1 ≤ day)
    (h4 : daysBefore (month - 1) + (if leap = true ∧ 3 ≤ month then 1 else 0) + (day - 1) <
      daysBefore month + (if leap = true ∧ 2 ≤ month then 1 else 0)) :
    monthDay leap
        (daysBefore (month - 1) + (if leap = true ∧ 3 ≤ month then 1 else 0) + (day - 1)) =
      (month, day) := by
  obtain ⟨v0, v1, v2, v3, v4, v5, v6, v7, v8, v9, v10, v11, v12⟩ := time.daysBefore_values
  have hd : day ≤ 31 := by
    cases leap <;> interval_cases month <;>
      simp only [Int.reduceSub, Int.reduceLE, Bool.false_eq_true, false_and, true_and, and_true,
        and_false, if_true, if_false, v0, v1, v2, v3, v4, v5, v6, v7, v8, v9, v10, v11,
        v12] at h4 <;>
      omega
  cases leap <;> interval_cases month <;> interval_cases day <;>
    first
    | decide
    | (exfalso
       simp only [Int.reduceSub, Int.reduceLE, Int.reduceAdd, Int.reduceLT, Bool.false_eq_true,
         false_and, true_and, and_true, and_false, if_true, if_false, v0, v1, v2, v3, v4, v5, v6,
         v7, v8, v9, v10, v11, v12] at h4)

/-- In a location whose offset never changes the clock reads the midnight of
every day of the calendar. -/
theorem time.Location.HasMidnight_of_constant (l : Location) (o : Int) (ho0 : -2 ^ 31 < o)
    (ho1 : o < 2 ^ 31) (hconst : ∀ u, (l.lookup u).offset = o) (year month day : Int)
    (hy0 : 1000 ≤ year - absoluteZeroYear) (hy1 : year - absoluteZeroYear ≤ 500000000000)
    (h1 : 1 ≤ month) (h2 : month ≤ 12) (h3 : 1 ≤ day)
    (h4 : daysBefore (month - 1) + (if isLeap year = true ∧ 3 ≤ month then 1 else 0) +
        (day - 1) <
      daysBefore month + (if isLeap year = true ∧ 2 ≤ month then 1 else 0)) :
    l.HasMidnight year month day := by
  have hc := time.daysSinceEpoch_closed year (by omega) (by omega)
  have hb := time.daysBefore_range (month - 1) (by omega) (by omega)
  have hb' := time.daysBefore_range month (by omega) (by omega)
  have l1 := time.leap_day_range (isLeap year = true ∧ 3 ≤ month)
  have l2 := time.leap_day_range (isLeap year = true ∧ 2 ≤ month)
  have hm := time.monthDay_unique (isLeap year) month day h1 h2 h3 h4
  have hlen : daysBefore month + (if isLeap year = true ∧ 2 ≤ month then 1 else 0) ≤
      (if isLeap year = true then 366 else 365) := by
    obtain ⟨v0, v1, v2, v3, v4, v5, v6, v7, v8, v9, v10, v11, v12⟩ := time.daysBefore_values
    cases isLeap year <;> interval_cases month <;> simp [v1, v2, v3, v4, v5, v6, v7, v8, v9, v10,
      v11, v12]
  have hu := time.absDate_unique year
    (daysBefore (month - 1) + (if isLeap year = true ∧ 3 ≤ month then 1 else 0) + (day - 1)) 0
    (by omega) hy1 (by omega) (by omega) (by decide) (by decide)
  generalize hyd : daysBefore (month - 1) + (if isLeap year = true ∧ 3 ≤ month then 1 else 0) +
    (day - 1) = yd at hm hu h4
  have hyd0 : 0 ≤ yd ∧ yd ≤ 365 := by omega
  generalize hd0 : daysSinceEpoch year = d0 at hc hu
  have hd0r : 365000 ≤ d0 ∧ d0 ≤ 366 * 500000000000 := by omega
  have habs : (Zoned.mk ⟨(d0 + yd) * 86400 - internalToAbsolute - o, 0⟩ l).abs =
      (d0 + yd) * 86400 + 0 := by
    unfold Zoned.abs Zoned.unixSec
    simp only []
    unfold internalToAbsolute internalToUnix unixToInternal
    have hus : wrapInt64 ((d0 + yd) * 86400 - 9223371966579724800 - o + -62135596800) =
        (d0 + yd) * 86400 - 9223371966579724800 - o + -62135596800 :=
      wrapInt64_id _ (by omega) (by omega)
    rw [hus, hconst, wrapInt64_id _ (by omega) (by omega),
      wrapUint64_id _ (by omega) (by omega)]
    omega
  refine ⟨⟨(d0 + yd) * 86400 - internalToAbsolute - o, 0⟩, ?_, ?_⟩
  · unfold Zoned.Date
    rw [habs, hu]
    simp only []
    rw [hm]
  · unfold Zoned.Clock
    rw [habs]
    have : ((d0 + yd) * 86400 + 0) % 86400 = 0 := by omega
    rw [this]
    rfl

theorem time.UTC_lookup (u : Int) : (UTC.lookup u).offset = 0 := rfl

theorem time.FixedZone_lookup (name : String) (o u : Int) :
    ((FixedZone name o).lookup u).offset = o := by
  have h1 : (FixedZone name o).lookupFirstZone = 0 := rfl
  have h2 : (FixedZone name o).search u 1 0 1 omega = (0, omega) := rfl
  have h3 : (FixedZone name o).zoneAt 0 = ⟨name, o, false⟩ := rfl
  have h4 : ((FixedZone name o).txAt 0).index = 0 := rfl
  have h5 : (FixedZone name o).tx = [⟨-2 ^ 63, 0⟩] := rfl
  have h6 : ¬ (FixedZone name o).zone.length = 0 := by
    show ¬ (1 = 0)
    decide
  unfold Location.lookup
  rw [if_neg h6, h5]
  simp only [List.length_cons, List.length_nil, zero_add]
  split_ifs
  · rw [h1, h3]
  · rw [h2]
    simp only []
    rw [h4, h3]

/-- In a location whose offset never changes, the clock reads the midnights
that the quarter functions ask for, for every `t` within the range. -/
theorem quarter_midnights_of_constant (t : Zoned) (hrange : t.InRange)
    (hl : t.loc.maxOffset < 2 ^ 31) (o : Int) (hconst : ∀ u, (t.loc.lookup u).offset = o) :
    t.loc.HasMidnight t.Date.1 ((t.Date.2.1 - 1) / 3 * 3 + 1) 1 ∧
    t.loc.HasMidnight t.Date.1 ((t.Date.2.1 - 1) / 3 * 3 + 3)
      (if (t.Date.2.1 - 1) / 3 * 3 + 3 = 6 ∨ (t.Date.2.1 - 1) / 3 * 3 + 3 = 9 then 30 else 31) := by
  obtain ⟨v0, v1, v2, v3, v4, v5, v6, v7, v8, v9, v10, v11, v12⟩ := time.daysBefore_values
  obtain ⟨year, month, day, yday, hd, h1, h2, h3, hy0, hy1, h4, h5, h6⟩ := time.Zoned.Date_spec t
  have hb := time.daysBefore_range (month - 1) (by omega) (by omega)
  have hb' := time.daysBefore_range month (by omega) (by omega)
  have l1 := time.leap_day_range (isLeap year = true ∧ 3 ≤ month)
  have l2 := time.leap_day_range (isLeap year = true ∧ 2 ≤ month)
  have ho := t.loc.lookup_offset 0
  rw [hconst] at ho
  obtain ⟨r1, r2, -, -⟩ := t.year_range hrange hl year yday hy0 hy1 h4 (by omega) (by omega)
  rw [hd]
  simp only []
  constructor
  · apply time.Location.HasMidnight_of_constant t.loc o (by omega) (by omega) hconst
      year _ 1 r1 (by omega) (by omega) (by omega) (by decide)
    cases isLeap year <;> interval_cases month <;> simp [v0, v1, v3, v4, v6, v7, v9, v10]
  · apply time.Location.HasMidnight_of_constant t.loc o (by omega) (by omega) hconst
      year _ _ r1 (by omega) (by omega) (by omega)
    · interval_cases month <;> simp
    · cases isLeap year <;> interval_cases month <;> simp [v2, v3, v5, v6, v8, v9, v11, v12]

/-- In UTC the clock reads the midnights that the quarter functions ask for,
for every `t` within the range. -/
theorem quarter_midnights_UTC (t : Zoned) (hrange : t.InRange) (hloc : t.loc = UTC) :
    t.loc.Regular ∧
    t.loc.HasMidnight t.Date.1 ((t.Date.2.1 - 1) / 3 * 3 + 1) 1 ∧
    t.loc.HasMidnight t.Date.1 ((t.Date.2.1 - 1) / 3 * 3 + 3)
      (if (t.Date.2.1 - 1) / 3 * 3 + 3 = 6 ∨ (t.Date.2.1 - 1) / 3 * 3 + 3 = 9 then 30 else 31) := by
  have hreg : t.loc.Regular := by
    rw [hloc]
    unfold Location.Regular
    decide
  exact ⟨hreg, quarter_midnights_of_constant t hrange hreg.1 0
    (fun u => by rw [hloc]; exact time.UTC_lookup u)⟩

/-- In a zone made by `time.FixedZone` with an offset below `2^31` seconds in
size, the clock reads the midnights that the quarter functions ask for, for
every `t` within the range. -/
theorem quarter_midnights_FixedZone (t : Zoned) (hrange : t.InRange) (name : String) (o : Int)
    (ho0 : -2 ^ 31 < o) (ho1 : o < 2 ^ 31) (hloc : t.loc = FixedZone name o) :
    t.loc.Regular ∧
    t.loc.HasMidnight t.Date.1 ((t.Date.2.1 - 1) / 3 * 3 + 1) 1 ∧
    t.loc.HasMidnight t.Date.1 ((t.Date.2.1 - 1) / 3 * 3 + 3)
      (if (t.Date.2.1 - 1) / 3 * 3 + 3 = 6 ∨ (t.Date.2.1 - 1) / 3 * 3 + 3 = 9 then 30 else 31) := by
  have hreg : t.loc.Regular := by
    rw [hloc]
    unfold Location.Regular Location.maxOffset FixedZone
    simp only [List.map_cons, List.map_nil, List.foldr_cons, List.foldr_nil, List.pairwise_cons,
      List.Pairwise.nil, and_true]
    refine ⟨by omega, ?_⟩
    intro a ha
    cases ha
  exact ⟨hreg, quarter_midnights_of_constant t hrange hreg.1 o
    (fun u => by rw [hloc]; exact time.FixedZone_lookup name o u)⟩

/-- A sample in a zone with transitions: for January 29, 2023 in New York the
quarter starts at 00:00 of January 1, Eastern Standard Time, which is 05:00
UTC. -/
theorem getQuarterStartDate_newYork :
    (Zoned.mk (Unix 1675000000 0) newYork).Date = (2023, 1, 29) ∧
    getQuarterStartDate ⟨Unix 1675000000 0, newYork⟩ = ⟨Unix 1672549200 0, newYork⟩ := by
  decide

/-- At the earliest Unix second the counter of `t.abs()` wraps around, and the
date is read in a year far in the future. -/
theorem time.Zoned.Date_wraps :
    (Zoned.mk (Unix (-9223372036854775808) 0) UTC).Date = (292277026596, 12, 4) ∧
    ¬ (Zoned.mk (Unix (-9223372036854775808) 0) UTC).InRange := by
  unfold Zoned.InRange
  decide

/-- Outside the range, the end of a quarter can lie behind the wrap-around of
the seconds of a `Time`: for an instant in December of the year 292277024627,
`getQuarterEndDate` returns an instant that is read on December 31 of that
year and compares as earlier by more than 24 hours. -/
theorem quarter_bounds_wraps :
    ¬ farFuture.InRange ∧ farFuture.Date = (292277024627, 12, 6) ∧
    (getQuarterEndDate farFuture).Date = (292277024627, 12, 31) ∧
    (getQuarterEndDate farFuture).instant.sec = -9223372036852671616 ∧
    (getQuarterEndDate farFuture).instant.instant + 86400 * 1000000000 <
      farFuture.instant.instant := by
  unfold Zoned.InRange
  decide

/-- In a location that is not regular, `time.Date` can miss a midnight that the
clock of the location reads: the clock reads 00:00:00 of April 1, 2023 at some
instant, and `getQuarterStartDate` returns an instant that is read 00:33:20. -/
theorem getQuarterStartDate_irregular :
    ¬ oddZone.Regular ∧ oddZoneMay.InRange ∧ oddZoneMay.Date = (2023, 5, 16) ∧
    oddZone.HasMidnight 2023 4 1 ∧
    (getQuarterStartDate oddZoneMay).Date = (2023, 4, 1) ∧
    (getQuarterStartDate oddZoneMay).Clock = (0, 33, 20) := by
  refine ⟨?_, ?_, by decide, ⟨Unix 1680312200 0, by decide, by decide⟩, by decide, by decide⟩
  · unfold Location.Regular
    decide
  · unfold Zoned.InRange
    decide

/-- On a day of 25 hours that ends a quarter, an instant late in the evening is
more than 24 hours after the midnight that `getQuarterEndDate` returns; the
offset at that instant is smaller than the offset at that midnight. -/
theorem quarter_bounds_long_day :
    sydney.Regular ∧ sydneyLateEvening.Date = (2002, 3, 31) ∧
    sydneyLateEvening.Clock = (23, 30, 0) ∧
    (getQuarterEndDate sydneyLateEvening).Date = (2002, 3, 31) ∧
    (getQuarterEndDate sydneyLateEvening).Clock = (0, 0, 0) ∧
    sydneyLateEvening.ZoneOffset = 36000 ∧
    (getQuarterEndDate sydneyLateEvening).ZoneOffset = 39600 ∧
    (getQuarterEndDate sydneyLateEvening).instant.instant + 86400 * 1000000000 <
      sydneyLateEvening.instant.instant := by
  unfold Location.Regular
  decide

/-! ## The counts per day -/

/-- The loop that increments one key per record, from any map: the value under
a key grows by the number of records with that key, and a key without record
keeps what the map had. -/
theorem CountsMap.foldl_increment (key : Build → String) (releases : List Build)
    (m : CountsMap) (d : String) :
    releases.foldl (fun heatmapData build => heatmapData.increment (key build)) m d =
      if (releases.filter (fun b => decide (key b = d))).length = 0 then m d
      else some ((m d).getD 0 + ((releases.filter (fun b => decide (key b = d))).length : Int)) := by
  induction releases generalizing m with
  | nil => simp
  | cons b rest ih =>
    rw [List.foldl_cons, ih]
    by_cases hk : key b = d
    · have hf : (b :: rest).filter (fun b => decide (key b = d)) =
          b :: rest.filter (fun b => decide (key b = d)) := by
        simp [hk]
      have hm : CountsMap.increment m (key b) d = some ((m d).getD 0 + 1) := by
        unfold CountsMap.increment
        rw [hk, if_pos rfl]
      rw [hf, hm, List.length_cons]
      by_cases h0 : (rest.filter (fun b => decide (key b = d))).length = 0
      · rw [if_pos h0, if_neg (Nat.succ_ne_zero _), h0]
        simp
      · rw [if_neg h0, if_neg (Nat.succ_ne_zero _)]
        simp only [Option.getD_some, Nat.cast_add, Nat.cast_one]
        congr 1
        omega
    · have hf : (b :: rest).filter (fun b => decide (key b = d)) =
          rest.filter (fun b => decide (key b = d)) := by
        simp [hk]
      have hm : CountsMap.increment m (key b) d = m d := by
        unfold CountsMap.increment
        rw [if_neg (fun h => hk h.symm)]
      rw [hf, hm]

/-- The value that the counts map of `main` holds under a day. -/
theorem main.heatmapData_apply (localZone : time.Location) (releases : List Build)
    (d : String) :
    main.heatmapData localZone releases d =
      if (releases.filter (fun b => decide (releaseDay localZone b = d))).length = 0 then none
      else some ((releases.filter (fun b => decide (releaseDay localZone b = d))).length : Int) := by
  unfold main.heatmapData
  rw [CountsMap.foldl_increment (releaseDay localZone) releases CountsMap.empty d]
  simp [CountsMap.empty]

/-- C14: the counts map maps a day to the number of records whose creation
time formats to that day, and has the day as a key only if some record formats
to it; records on 2023-01-01, 2023-01-01 and 2023-01-02 give
`{"2023-01-01": 2, "2023-01-02": 1}`. -/
theorem main_heatmapData_counts (localZone : time.Location) (releases : List Build)
    (d : String) :
    (main.heatmapData localZone releases d =
      if (releases.filter (fun b => decide (releaseDay localZone b = d))).length = 0 then none
      else some
        ((releases.filter (fun b => decide (releaseDay localZone b = d))).length : Int)) ∧
    (main.heatmapData localZone releases d ≠ none ↔
      ∃ b ∈ releases, releaseDay localZone b = d) ∧
    main.heatmapData localZone releases d ≠ some 0 ∧
    main.heatmapData UTC newYearReleases =
      fun day => if day = "2023-01-01" then some 2 else if day = "2023-01-02" then some 1
        else none := by
  have h := main.heatmapData_apply localZone releases d
  refine ⟨h, ?_, ?_, ?_⟩
  · rw [h]
    constructor
    · intro hne
      by_contra hex
      apply hne
      rw [if_pos]
      rw [List.length_eq_zero, List.filter_eq_nil_iff]
      intro b hb hk
      exact hex ⟨b, hb, of_decide_eq_true hk⟩
    · rintro ⟨b, hb, hk⟩
      have hmem : b ∈ releases.filter (fun b => decide (releaseDay localZone b = d)) :=
        List.mem_filter.2 ⟨hb, decide_eq_true hk⟩
      have hpos : (releases.filter (fun b => decide (releaseDay localZone b = d))).length ≠ 0 := by
        intro h0
        rw [List.length_eq_zero] at h0
        rw [h0] at hmem
        exact absurd hmem (List.not_mem_nil b)
      rw [if_neg hpos]
      simp
  · rw [h]
    split_ifs with h0
    · simp
    · intro hs
      have := Option.some.inj hs
      omega
  · funext day
    rw [main.heatmapData_apply]
    have k1 : releaseDay UTC (release 1 1672531200) = "2023-01-01" := by decide
    have k2 : releaseDay UTC (release 2 1672570800) = "2023-01-01" := by decide
    have k3 : releaseDay UTC (release 3 1672617600) = "2023-01-02" := by decide
    unfold newYearReleases
    simp only [List.filter_cons, List.filter_nil, k1, k2, k3]
    by_cases h1 : day = "2023-01-01"
    · subst h1
      simp
    · by_cases h2 : day = "2023-01-02"
      · subst h2
        simp
      · have h1' : ¬ "2023-01-01" = day := fun h => h1 h.symm
        have h2' : ¬ "2023-01-02" = day := fun h => h2 h.symm
        simp [h1, h2, h1', h2']

/-- C15: the values of the counts map, summed over all its keys, give the
number of records. -/
theorem main_heatmapData_total (localZone : time.Location) (releases : List Build) :
    ∃ keys : Finset String,
      (∀ d, d ∈ keys ↔ main.heatmapData localZone releases d ≠ none) ∧
      (∑ d in keys, (main.heatmapData localZone releases d).getD 0) =
        (releases.length : Int) := by
  have hcount : ∀ d, (releases.filter (fun b => decide (releaseDay localZone b = d))).length =
      (releases.map (releaseDay localZone)).count d := by
    intro d
    rw [List.count_eq_countP, List.countP_map, List.countP_eq_length_filter]
    congr 2
  refine ⟨(releases.map (releaseDay localZone)).toFinset, ?_, ?_⟩
  · intro d
    rw [main.heatmapData_apply, hcount, List.mem_toFinset]
    constructor
    · intro hmem
      have : (releases.map (releaseDay localZone)).count d ≠ 0 :=
        Nat.pos_iff_ne_zero.1 (List.count_pos_iff.2 hmem)
      rw [if_neg this]
      simp
    · intro hne
      by_contra hmem
      apply hne
      rw [if_pos (List.count_eq_zero_of_not_mem hmem)]
  · have hval : ∀ d, (main.heatmapData localZone releases d).getD 0 =
        (((releases.map (releaseDay localZone)).count d : Nat) : Int) := by
      intro d
      rw [main.heatmapData_apply, hcount]
      split_ifs with h0
      · rw [h0]; rfl
      · rfl
    simp only [hval]
    rw [← Nat.cast_sum, List.sum_toFinset_count_eq_length, List.length_map]

/-- C19: record sequences that are permutations of each other give the same
counts map. -/
theorem main_heatmapData_perm (localZone : time.Location) (releases releases' : List Build)
    (h : releases.Perm releases') :
    main.heatmapData localZone releases = main.heatmapData localZone releases' := by
  funext d
  rw [main.heatmapData_apply, main.heatmapData_apply,
    (h.filter (fun b => decide (releaseDay localZone b = d))).length_eq]

/-- Witness for C19: the sample releases in two orders. -/
theorem main_heatmapData_perm_witness :
    newYearReleases.Perm newYearReleases.reverse ∧
    main.heatmapData UTC newYearReleases = main.heatmapData UTC newYearReleases.reverse :=
  ⟨(List.reverse_perm newYearReleases).symm,
    main_heatmapData_perm UTC newYearReleases newYearReleases.reverse
      (List.reverse_perm newYearReleases).symm⟩

/-! ## Inverted windows -/

/-- C16: when `to` is strictly before `from`, `filterReleasesByDate` returns
the empty list, and so does every walk that returns. -/
theorem inverted_window_empty (from_ to_ : Time) (h : to_.instant < from_.instant) :
    (∀ builds, filterReleasesByDate builds from_ to_ = []) ∧
    (∀ (client : Client) (owner repo : String) (page : Int) (fuel : Nat)
        (out : List Build × List Request),
      findAllReleasesWithinRange fuel client owner repo from_ to_ page = some out →
        out.1 = []) := by
  have hno : ∀ b, ¬ isReleaseWithin from_ to_ b := by
    intro b hw
    have h1 := hw.2.2.1
    have h2 := hw.2.2.2
    omega
  constructor
  · intro builds
    rw [filterReleasesByDate_eq_filter, List.filter_eq_nil_iff]
    intro b _ hd
    exact hno b (of_decide_eq_true hd)
  · intro client owner repo page fuel out hout
    rw [List.eq_nil_iff_forall_not_mem]
    intro b hb
    exact hno b (findAll_mem fuel client owner repo from_ to_ page out hout b hb).1

/-- Witness for C16: the sample window turned around. -/
theorem inverted_window_empty_witness :
    sampleFrom.instant < sampleTo.instant ∧
    filterReleasesByDate [release 9 4000, release 8 3000] sampleTo sampleFrom = [] :=
  ⟨by decide, (inverted_window_empty sampleTo sampleFrom (by decide)).1 _⟩

/-! ## Round trip of a repository name -/

/-- C20: when `sep` occurs exactly once in `s`, `DroneRepo.Split` succeeds and
its two parts, joined by `sep`, give `s` back; on `a/b/c` they give `a/b`. -/
theorem DroneRepo.Split_round_trip (s sep : String) (hsep : sep ≠ "")
    (honce : ∃ a b : String, s = a ++ sep ++ b ∧
      ∀ a' b' : String, s = a' ++ sep ++ b' → a' = a ∧ b' = b) :
    (DroneRepo.Split s sep).2.2 = none ∧
    (DroneRepo.Split s sep).1 ++ sep ++ (DroneRepo.Split s sep).2.1 = s ∧
    (DroneRepo.Split "a/b/c" "/").2.2 = none ∧
    (DroneRepo.Split "a/b/c" "/").1 ++ "/" ++ (DroneRepo.Split "a/b/c" "/").2.1 = "a/b" ∧
    (DroneRepo.Split "a/b/c" "/").1 ++ "/" ++ (DroneRepo.Split "a/b/c" "/").2.1 ≠ "a/b/c" := by
  obtain ⟨a, b, hab, huniq⟩ := honce
  have hnone : (DroneRepo.Split s sep).2.2 = none := by
    by_contra hne
    exact (DroneRepo.Split_error_iff s sep hsep).1 hne ⟨a, b, hab⟩
  have hlen : 1 ≤ sep.length := by
    have := data_ne_nil_of_ne_empty sep hsep
    show 1 ≤ sep.data.length
    cases hd : sep.data with
    | nil => exact absurd hd this
    | cons c t => simp
  refine ⟨hnone, ?_, by decide, by decide, by decide⟩
  obtain ⟨owner, name, hon⟩ : ∃ owner name, DroneRepo.Split s sep = (owner, name, none) :=
    ⟨(DroneRepo.Split s sep).1, (DroneRepo.Split s sep).2.1, by rw [← hnone]⟩
  obtain ⟨rest, hcut, hname⟩ := DroneRepo.Split_ok s sep hsep owner name hon
  rw [hon]
  simp only []
  rcases hname with ⟨_, heq⟩ | ⟨rest', hcut'⟩
  · rw [heq]; exact hcut.1.symm
  · exfalso
    have h1 := (huniq _ _ hcut.1).1
    have hs : s = owner ++ sep ++ name ++ sep ++ rest' :=
      hcut.1.trans (by rw [hcut'.1]; simp [String.append_assoc])
    have h2 := (huniq (owner ++ sep ++ name) rest' hs).1
    have h3 := congrArg String.length (h2.trans h1.symm)
    simp only [String.length_append] at h3
    omega

/-- The one way to cut `a/b` at a slash. -/
theorem slash_once_in_sample :
    ∃ a b : String, "a/b" = a ++ "/" ++ b ∧
      ∀ a' b' : String, "a/b" = a' ++ "/" ++ b' → a' = a ∧ b' = b := by
  refine ⟨"a", "b", by decide, ?_⟩
  intro a' b' h
  have hd : ['a', '/', 'b'] = a'.data ++ ['/'] ++ b'.data := by
    have := congrArg String.data h
    simpa [String.data_append] using this
  obtain ⟨la⟩ := a'
  obtain ⟨lb⟩ := b'
  simp only at hd
  match la, hd with
  | [], hd => simp at hd
  | [x], hd =>
    simp at hd
    obtain ⟨rfl, rfl⟩ := hd
    exact ⟨rfl, rfl⟩
  | [x, y], hd => simp at hd
  | [x, y, z], hd => simp at hd
  | x :: y :: z :: w :: l, hd => simp at hd

/-- Witness for C20 on a name with one slash. -/
theorem DroneRepo.Split_round_trip_witness :
    ("/" : String) ≠ "" ∧
    (∃ a b : String, "a/b" = a ++ "/" ++ b ∧
      ∀ a' b' : String, "a/b" = a' ++ "/" ++ b' → a' = a ∧ b' = b) ∧
    (DroneRepo.Split "a/b" "/").1 ++ "/" ++ (DroneRepo.Split "a/b" "/").2.1 = "a/b" :=
  ⟨by decide, slash_once_in_sample,
    (DroneRepo.Split_round_trip "a/b" "/" (by decide) slash_once_in_sample).2.1⟩

/-! ## The page walk as a whole -/

/-- A page at which the walk does not stop is a non-empty page whose index-0
record is not before `from`. -/
theorem not_stopsAt (client : Client) (owner repo : String) (from_ : Time) (page : Int)
    (h : ¬ StopsAt client owner repo from_ page) :
    ∃ b rest, client owner repo ⟨page, 25⟩ = .ok (b :: rest) ∧
      ¬ (buildTime b).Before from_ := by
  cases hc : client owner repo ⟨page, 25⟩ with
  | error e => exact absurd (Or.inl (Or.inl ⟨e, hc⟩)) h
  | ok bs =>
    cases bs with
    | nil => exact absurd (Or.inl (Or.inr hc)) h
    | cons b rest =>
      refine ⟨b, rest, rfl, ?_⟩
      intro hb
      exact h (Or.inr ⟨b, rest, hc, (Time.before_iff _ _).1 hb⟩)

/-- A page at which the walk stops: one request, nothing returned. -/
theorem findAll_succ_stops (fuel : Nat) (client : Client) (owner repo : String)
    (from_ to_ : Time) (page : Int) (h : StopsAt client owner repo from_ page) :
    findAllReleasesWithinRange (fuel + 1) client owner repo from_ to_ page =
      some ([], [pageRequest owner repo page]) := by
  rcases h with h | ⟨b, rest, hc, hb⟩
  · exact findAll_succ_ends fuel client owner repo from_ to_ page h
  · exact findAll_succ_old fuel client owner repo from_ to_ page b rest hc
      ((Time.before_iff _ _).2 hb)

/-- The walk over `n` pages at which it does not stop: their filtered records
in page order, their requests in page order, then the walk from the page
behind them. -/
theorem findAll_run (client : Client) (owner repo : String) (from_ to_ : Time) (n : Nat)
    (p : Int) (hp : -2 ^ 63 ≤ p) (hrange : p + n < 2 ^ 63)
    (hcont : ∀ i : Nat, i < n → ¬ StopsAt client owner repo from_ (p + i)) (fuel : Nat) :
    findAllReleasesWithinRange (fuel + n) client owner repo from_ to_ p =
      (findAllReleasesWithinRange fuel client owner repo from_ to_ (p + n)).map
        (fun out =>
          (((List.range n).map (fun i : Nat =>
              filterReleasesByDate (pageOf client owner repo (p + i)) from_ to_)).flatten ++ out.1,
            (List.range n).map (fun i : Nat => pageRequest owner repo (p + i)) ++ out.2)) := by
  induction n generalizing p with
  | zero =>
    simp only [Nat.add_zero, Nat.cast_zero, add_zero, List.range_zero, List.map_nil,
      List.flatten_nil, List.nil_append]
    cases findAllReleasesWithinRange fuel client owner repo from_ to_ p with
    | none => rfl
    | some out => rfl
  | succ n ih =>
    obtain ⟨b, rest, hc, hb⟩ := not_stopsAt client owner repo from_ p
      (by have := hcont 0 (Nat.succ_pos n); simpa using this)
    have hw : wrapInt64 (p + 1) = p + 1 := by
      unfold wrapInt64
      push_cast at hrange
      omega
    have hpage : pageOf client owner repo p = b :: rest := by
      unfold pageOf
      rw [hc]
    have ih' := ih (p + 1) (by omega) (by push_cast at hrange ⊢; omega)
      (fun i hi => by
        have := hcont (i + 1) (Nat.succ_lt_succ hi)
        push_cast at this
        rw [show p + 1 + (i : Int) = p + ((i : Int) + 1) by ring]
        exact this)
    rw [show fuel + (n + 1) = (fuel + n) + 1 from rfl,
      findAll_succ_next (fuel + n) client owner repo from_ to_ p b rest hc hb, hw, ih']
    have hshift : p + 1 + (n : Int) = p + ((n + 1 : Nat) : Int) := by push_cast; ring
    rw [hshift]
    cases findAllReleasesWithinRange fuel client owner repo from_ to_ (p + ((n + 1 : Nat) : Int)) with
    | none => rfl
    | some out =>
      simp only [Option.map_some', List.range_succ_eq_map, List.map_cons, List.map_map,
        List.flatten_cons, Nat.cast_zero, add_zero, hpage, List.append_assoc, List.cons_append]
      congr 3
      · congr 2
        apply List.map_congr_left
        intro i _
        simp only [Function.comp, Nat.succ_eq_add_one, Nat.cast_add, Nat.cast_one]
        rw [show p + 1 + (i : Int) = p + ((i : Int) + 1) by ring]
      · congr 1
        apply List.map_congr_left
        intro i _
        simp only [Function.comp, Nat.succ_eq_add_one, Nat.cast_add, Nat.cast_one]
        rw [show p + 1 + (i : Int) = p + ((i : Int) + 1) by ring]

/-- C18: when some page `k >= 1` errors, is empty or has an index-0 record
created strictly before `from`, the walk started at page 1 terminates; with
`k` the least such page it requests exactly the pages 1, 2, ..., `k`, each
once, in increasing order, each with page size 25, and returns the filtered
pages 1 to `k-1` in page order. -/
theorem findAllReleasesWithinRange_terminates (client : Client) (owner repo : String)
    (from_ to_ : Time)
    (hex : ∃ k : Nat, 1 ≤ k ∧ (k : Int) < 2 ^ 63 ∧ StopsAt client owner repo from_ k) :
    ∃ k : Nat, 1 ≤ k ∧ StopsAt client owner repo from_ k ∧
      (∀ j : Nat, 1 ≤ j → j < k → ¬ StopsAt client owner repo from_ j) ∧
      (∀ fuel, k ≤ fuel →
        findAllReleasesWithinRange fuel client owner repo from_ to_ 1 =
          some (((List.range (k - 1)).map (fun i : Nat =>
              filterReleasesByDate (pageOf client owner repo (1 + i)) from_ to_)).flatten,
            (List.range k).map (fun i : Nat => pageRequest owner repo (1 + i)))) ∧
      (∀ req ∈ (List.range k).map (fun i : Nat => pageRequest owner repo (1 + i)),
        req.opts.Size = 25) := by
  classical
  have hex' : ∃ k : Nat, 1 ≤ k ∧ StopsAt client owner repo from_ k := by
    obtain ⟨k, h1, _, h3⟩ := hex
    exact ⟨k, h1, h3⟩
  obtain ⟨k0, _, hk0range, hk0⟩ := hex
  have hspec := Nat.find_spec hex'
  have hmin : ∀ j : Nat, 1 ≤ j → j < Nat.find hex' → ¬ StopsAt client owner repo from_ j :=
    fun j hj hlt hstop => Nat.find_min hex' hlt ⟨hj, hstop⟩
  have hle : Nat.find hex' ≤ k0 := Nat.find_min' hex' ⟨by assumption, hk0⟩
  generalize Nat.find hex' = k at hspec hmin hle
  obtain ⟨hk1, hstop⟩ := hspec
  refine ⟨k, hk1, hstop, hmin, ?_, ?_⟩
  · intro fuel hfuel
    obtain ⟨n, rfl⟩ : ∃ n, k = n + 1 := ⟨k - 1, by omega⟩
    obtain ⟨f, rfl⟩ : ∃ f, fuel = (f + 1) + n := ⟨fuel - (n + 1), by omega⟩
    have hkint : ((n + 1 : Nat) : Int) ≤ (k0 : Int) := by exact_mod_cast hle
    have hrun := findAll_run client owner repo from_ to_ n 1 (by decide)
      (by push_cast at hkint; omega)
      (fun i hi => by
        have := hmin (i + 1) (by omega) (by omega)
        push_cast at this
        rw [show (1 : Int) + (i : Int) = (i : Int) + 1 by ring]
        exact this) (f + 1)
    have hlast : StopsAt client owner repo from_ (1 + (n : Int)) := by
      have := hstop
      push_cast at this
      rw [show (1 : Int) + (n : Int) = (n : Int) + 1 by ring]
      exact this
    rw [hrun, findAll_succ_stops f client owner repo from_ to_ (1 + (n : Int)) hlast]
    simp only [Option.map_some', List.append_nil, Nat.add_sub_cancel]
    rw [List.range_succ, List.map_append]
    rfl
  · intro req hreq
    obtain ⟨i, _, rfl⟩ := List.mem_map.1 hreq
    rfl

/-- Witness for C18: the sample pages whose third page starts before the
window. -/
theorem findAllReleasesWithinRange_terminates_witness :
    (∃ k : Nat, 1 ≤ k ∧ (k : Int) < 2 ^ 63 ∧
      StopsAt (clientOfPages threePages) "octocat" "demo" sampleFrom k) ∧
    ∃ k : Nat, 1 ≤ k ∧ StopsAt (clientOfPages threePages) "octocat" "demo" sampleFrom k ∧
      (∀ j : Nat, 1 ≤ j → j < k →
        ¬ StopsAt (clientOfPages threePages) "octocat" "demo" sampleFrom j) ∧
      (∀ fuel, k ≤ fuel →
        findAllReleasesWithinRange fuel (clientOfPages threePages) "octocat" "demo"
            sampleFrom sampleTo 1 =
          some (((List.range (k - 1)).map (fun i : Nat =>
              filterReleasesByDate (pageOf (clientOfPages threePages) "octocat" "demo" (1 + i))
                sampleFrom sampleTo)).flatten,
            (List.range k).map (fun i : Nat => pageRequest "octocat" "demo" (1 + i)))) ∧
      (∀ req ∈ (List.range k).map (fun i : Nat => pageRequest "octocat" "demo" (1 + i)),
        req.opts.Size = 25) :=
  have h : ∃ k : Nat, 1 ≤ k ∧ (k : Int) < 2 ^ 63 ∧
      StopsAt (clientOfPages threePages) "octocat" "demo" sampleFrom k :=
    ⟨3, by decide, by decide,
      Or.inr ⟨release 6 500, [release 5 400], by decide, by decide⟩⟩
  ⟨h, findAllReleasesWithinRange_terminates (clientOfPages threePages) "octocat" "demo"
    sampleFrom sampleTo h⟩

/-- The walk over pages that are sorted newest-first as a whole, from any
starting page that serves them in order and an empty page behind them. -/
theorem findAll_sorted_pages (client : Client) (owner repo : String) (from_ to_ : Time)
    (pages : List (List Build)) (p : Int) (hp : -2 ^ 63 ≤ p)
    (hrange : p + pages.length < 2 ^ 63)
    (hne : ∀ page ∈ pages, page ≠ [])
    (hsorted : NewestFirst pages.flatten)
    (hpages : ∀ (i : Nat) (page : List Build), pages.get? i = some page →
      client owner repo ⟨p + i, 25⟩ = .ok page)
    (hend : client owner repo ⟨p + pages.length, 25⟩ = .ok []) :
    ∃ fuel trace, findAllReleasesWithinRange fuel client owner repo from_ to_ p =
      some (filterReleasesByDate pages.flatten from_ to_, trace) := by
  induction pages generalizing p with
  | nil =>
    simp only [List.length_nil, Nat.cast_zero, add_zero] at hend
    refine ⟨1, [pageRequest owner repo p], ?_⟩
    rw [findAll_succ_empty 0 client owner repo from_ to_ p hend]
    rfl
  | cons page rest ih =>
    have hpage := hpages 0 page rfl
    simp only [Nat.cast_zero, add_zero] at hpage
    cases page with
    | nil => exact absurd rfl (hne [] (List.mem_cons_self _ _))
    | cons b bs =>
      by_cases hb : (buildTime b).Before from_
      · refine ⟨1, [pageRequest owner repo p], ?_⟩
        rw [findAll_succ_old 0 client owner repo from_ to_ p b bs hpage hb]
        have hnil : filterReleasesByDate ((b :: bs) :: rest).flatten from_ to_ = [] := by
          rw [filterReleasesByDate_eq_filter, List.filter_eq_nil_iff]
          intro x hx hw
          have hw' : isReleaseWithin from_ to_ x := of_decide_eq_true hw
          have hbi := (Time.before_iff _ _).1 hb
          have h1 := hw'.2.2.1
          rw [List.flatten_cons, List.cons_append] at hx hsorted
          rcases List.mem_cons.1 hx with rfl | hx'
          · omega
          · have := (List.pairwise_cons.1 hsorted).1 x hx'
            omega
        rw [hnil]
      · have hw : wrapInt64 (p + 1) = p + 1 := by
          unfold wrapInt64
          simp only [List.length_cons, Nat.cast_add, Nat.cast_one] at hrange
          omega
        have hsorted' : NewestFirst rest.flatten := by
          rw [List.flatten_cons] at hsorted
          exact (List.pairwise_append.1 hsorted).2.1
        obtain ⟨fuel, trace, hwalk⟩ := ih (p + 1) (by omega)
          (by simp only [List.length_cons, Nat.cast_add, Nat.cast_one] at hrange; omega)
          (fun q hq => hne q (List.mem_cons_of_mem _ hq)) hsorted'
          (fun i q hq => by
            have := hpages (i + 1) q (by simpa using hq)
            push_cast at this
            rw [show p + 1 + (i : Int) = p + ((i : Int) + 1) by ring]
            exact this)
          (by
            simp only [List.length_cons, Nat.cast_add, Nat.cast_one] at hend
            rw [show p + 1 + (rest.length : Int) = p + ((rest.length : Int) + 1) by ring]
            exact hend)
        refine ⟨fuel + 1, pageRequest owner repo p :: trace, ?_⟩
        rw [findAll_succ_next fuel client owner repo from_ to_ p b bs hpage hb, hw, hwalk]
        simp only [Option.map_some', List.flatten_cons]
        rw [filterReleasesByDate_eq_filter, filterReleasesByDate_eq_filter,
          filterReleasesByDate_eq_filter, List.filter_append]

/-- C17: for non-empty pages followed only by empty pages, without request
error, whose concatenation in page order is sorted newest-first, the walk
started at page 1 returns exactly `filterReleasesByDate` applied to the
concatenation of all the pages. -/
theorem findAllReleasesWithinRange_early_stop_complete (client : Client)
    (owner repo : String) (from_ to_ : Time) (pages : List (List Build))
    (hrange : (pages.length : Int) + 1 < 2 ^ 63)
    (hne : ∀ page ∈ pages, page ≠ [])
    (hsorted : NewestFirst pages.flatten)
    (hpages : ∀ (i : Nat) (page : List Build), pages.get? i = some page →
      client owner repo ⟨(i : Int) + 1, 25⟩ = .ok page)
    (hrest : ∀ i : Nat, pages.length ≤ i → client owner repo ⟨(i : Int) + 1, 25⟩ = .ok []) :
    (∃ fuel trace, findAllReleasesWithinRange fuel client owner repo from_ to_ 1 =
      some (filterReleasesByDate pages.flatten from_ to_, trace)) ∧
    (∀ fuel out, findAllReleasesWithinRange fuel client owner repo from_ to_ 1 = some out →
      out.1 = filterReleasesByDate pages.flatten from_ to_) := by
  have hex := findAll_sorted_pages client owner repo from_ to_ pages 1 (by decide)
    (by omega) hne hsorted
    (fun i page hi => by
      rw [show (1 : Int) + (i : Int) = (i : Int) + 1 by ring]
      exact hpages i page hi)
    (by
      rw [show (1 : Int) + (pages.length : Int) = (pages.length : Int) + 1 by ring]
      exact hrest pages.length (le_refl _))
  refine ⟨hex, ?_⟩
  intro fuel out hout
  obtain ⟨fuel', trace, hwalk⟩ := hex
  have := WalkReturns.unique client owner repo from_ to_ 1 _ _ ⟨fuel, hout⟩ ⟨fuel', hwalk⟩
  rw [this]

/-- The page that the sample API serves under a page number. -/
theorem clientOfPages_page (pages : List (List Build)) (owner repo : String) (i : Nat) :
    clientOfPages pages owner repo ⟨(i : Int) + 1, 25⟩ = .ok (pages.getD i []) := by
  unfold clientOfPages
  have h1 : (1 : Int) ≤ (i : Int) + 1 := by omega
  have h2 : ((i : Int) + 1 - 1).toNat = i := by simp
  simp only [h1, if_true, h2]

/-- Witness for C17: the sample pages, sorted newest-first as a whole, the
third of which starts before the window. -/
theorem findAllReleasesWithinRange_early_stop_complete_witness :
    (∀ page ∈ threePages, page ≠ []) ∧ NewestFirst threePages.flatten ∧
    ∃ fuel trace, findAllReleasesWithinRange fuel (clientOfPages threePages) "octocat" "demo"
        sampleFrom sampleTo 1 =
      some (filterReleasesByDate threePages.flatten sampleFrom sampleTo, trace) :=
  ⟨by decide, by decide,
    (findAllReleasesWithinRange_early_stop_complete (clientOfPages threePages) "octocat" "demo"
      sampleFrom sampleTo threePages (by decide) (by decide) (by decide)
      (fun i page hi => by
        rw [clientOfPages_page, List.getD_eq_getElem?_getD]
        rw [List.get?_eq_getElem?] at hi
        rw [hi]
        rfl)
      (fun i hi => by
        rw [clientOfPages_page, List.getD_eq_getElem?_getD, List.getElem?_eq_none hi]
        rfl)).1⟩

/-- Records whose `Created` values are far from the ends of the `int64` range
are ordered by creation instant as they are by `Created`: a list that is
non-increasing in `Created` is newest-first. -/
theorem NewestFirst_of_created (builds : List Build)
    (hrange : ∀ b ∈ builds, -2 ^ 62 ≤ b.Created ∧ b.Created ≤ 2 ^ 62)
    (hsorted : builds.Pairwise (fun a b => b.Created ≤ a.Created)) :
    NewestFirst builds := by
  have hinst : ∀ b ∈ builds,
      (buildTime b).instant = (b.Created + unixToInternal) * 1000000000 := by
    intro b hb
    obtain ⟨h1, h2⟩ := hrange b hb
    unfold buildTime Unix Time.instant wrapInt64 unixToInternal
    simp only [Int.zero_ediv, add_zero, Int.zero_emod, Int.toNat_zero, Nat.cast_zero]
    omega
  unfold NewestFirst
  refine List.Pairwise.imp_of_mem ?_ hsorted
  intro a b ha hb hab
  rw [hinst a ha, hinst b hb]
  omega
